import Mathlib

/-!
# xml2cpp-codegen: the XML tree of `tools/xml2cpp-codegen/xml.cpp`

A shallow embedding of the tree model (`Node`, `Nodes`, `Document`) and of the Expat callbacks
that build the tree from a flat stream of events, followed by theorems about them.

Conventions of the embedding

* `std::string` and C strings are lists of characters (`Str`), one list element per `char`.
* A callback that would run into undefined behaviour in C++ (dereferencing an absent root,
  `back()` of an empty vector, reading `chars` outside the buffer) returns `none`.
* `m_depth` is an `int`; it is embedded as an `Int` (it moves by one per element event, so the
  32-bit range is never the issue in what follows).
* In-place updates through the pointers `cld` / `nod` are embedded as functional updates of the
  tree along the path the pointer walk takes.
* Expat is outside the repository. The callbacks are studied on arbitrary event sequences; where
  a statement is about parsing a given text, `expatEvents` models the events Expat delivers for
  it, on the part of XML it covers, and answers `unmodelled` elsewhere.
-/

namespace sdbuscpp.xml

/-- A `std::string` (or a NUL-terminated C string, without its terminator). -/
abbrev Str := List Char

/-- The function `isspace` of `<cctype>` in the "C" locale: space, `\t`, `\n`, `\v`, `\f`, `\r`. -/
def isspace (c : Char) : Bool :=
  c = ' ' || c = '\t' || c = '\n' || c = Char.ofNat 11 || c = Char.ofNat 12 || c = '\r'

/-- The reserved tag name `"doc"` of the documentation pseudo-node. -/
def docTag : Str := "doc".toList

/-! ## Attribute map -/

/-- Insertion or overwrite of one entry in a key-sorted association list: `m[k] = v`. -/
def insertEntry (k v : Str) : List (Str × Str) → List (Str × Str)
  | [] => [(k, v)]
  | (k', v') :: r =>
    if k < k' then (k, v) :: (k', v') :: r
    else if k = k' then (k, v) :: r
    else (k', v') :: insertEntry k v r

/-- Removal of the entry with key `k`, if any: `m.erase(k)`. -/
def eraseEntry (k : Str) : List (Str × Str) → List (Str × Str)
  | [] => []
  | (k', v') :: r => if k = k' then r else (k', v') :: eraseEntry k r

/-- Lookup of key `k`: `m.find(k)`, `none` standing for `m.end()`. -/
def findEntry (k : Str) : List (Str × Str) → Option Str
  | [] => none
  | (k', v') :: r => if k = k' then some v' else findEntry k r

theorem mem_insertEntry {k v : Str} {l : List (Str × Str)} {x : Str × Str}
    (h : x ∈ insertEntry k v l) : x = (k, v) ∨ x ∈ l := by
  induction l with
  | nil => simp [insertEntry] at h; exact Or.inl h
  | cons a r ih =>
    obtain ⟨k', v'⟩ := a
    unfold insertEntry at h
    split_ifs at h with h1 h2
    · simpa using h
    · rcases List.mem_cons.1 h with h | h
      · exact Or.inl h
      · exact Or.inr (List.mem_cons_of_mem _ h)
    · rcases List.mem_cons.1 h with h | h
      · exact Or.inr (h ▸ List.mem_cons_self _ _)
      · rcases ih h with h | h
        · exact Or.inl h
        · exact Or.inr (List.mem_cons_of_mem _ h)

theorem insertEntry_sorted (k v : Str) (l : List (Str × Str))
    (hl : l.Pairwise (fun a b => a.1 < b.1)) :
    (insertEntry k v l).Pairwise (fun a b => a.1 < b.1) := by
  induction l with
  | nil => simp [insertEntry]
  | cons a r ih =>
    obtain ⟨k', v'⟩ := a
    rw [List.pairwise_cons] at hl
    unfold insertEntry
    split_ifs with h1 h2
    · refine List.pairwise_cons.2 ⟨?_, List.pairwise_cons.2 hl⟩
      intro x hx
      rcases List.mem_cons.1 hx with hx | hx
      · subst hx; exact h1
      · exact lt_trans h1 (hl.1 x hx)
    · subst h2
      exact List.pairwise_cons.2 ⟨hl.1, hl.2⟩
    · refine List.pairwise_cons.2 ⟨?_, ih hl.2⟩
      intro x hx
      rcases mem_insertEntry hx with hx | hx
      · subst hx
        exact lt_of_le_of_ne (not_lt.1 h1) (fun h => h2 h.symm)
      · exact hl.1 x hx

theorem mem_eraseEntry {k : Str} {l : List (Str × Str)} {x : Str × Str}
    (h : x ∈ eraseEntry k l) : x ∈ l := by
  induction l with
  | nil => simp [eraseEntry] at h
  | cons a r ih =>
    obtain ⟨k', v'⟩ := a
    unfold eraseEntry at h
    split_ifs at h with h1
    · exact List.mem_cons_of_mem _ h
    · rcases List.mem_cons.1 h with h | h
      · exact h ▸ List.mem_cons_self _ _
      · exact List.mem_cons_of_mem _ (ih h)

theorem eraseEntry_sorted (k : Str) (l : List (Str × Str))
    (hl : l.Pairwise (fun a b => a.1 < b.1)) :
    (eraseEntry k l).Pairwise (fun a b => a.1 < b.1) := by
  induction l with
  | nil => simp [eraseEntry]
  | cons a r ih =>
    obtain ⟨k', v'⟩ := a
    rw [List.pairwise_cons] at hl
    unfold eraseEntry
    split_ifs with h1
    · exact hl.2
    · exact List.pairwise_cons.2 ⟨fun x hx => hl.1 x (mem_eraseEntry hx), ih hl.2⟩

/-- Modelled from the spec: the type `Attributes` of `Node::m_attrs`, declared in `xml.h`, which is
not among the sources. The spec describes it as a "per-node unique-key string-to-string mapping";
it is used through `operator[]`, `find`, `erase` and iteration. It is embedded as an association
list kept strictly sorted by key, so that it has unique keys and one representation per mapping,
and iteration visits the entries in key order. -/
structure Attributes where
  /-- The entries, in iteration order. -/
  entries : List (Str × Str)
  /-- Keys are strictly increasing, hence unique. -/
  sorted : entries.Pairwise (fun a b => a.1 < b.1)

namespace Attributes

/-- The empty map. -/
def empty : Attributes := ⟨[], List.Pairwise.nil⟩

/-- The assignment `m[k] = v`. -/
def assign (m : Attributes) (k v : Str) : Attributes :=
  ⟨insertEntry k v m.entries, insertEntry_sorted k v m.entries m.sorted⟩

/-- The call `m.erase(k)`. -/
def erase (m : Attributes) (k : Str) : Attributes :=
  ⟨eraseEntry k m.entries, eraseEntry_sorted k m.entries m.sorted⟩

/-- The call `m.find(k)`; `none` stands for `m.end()`. -/
def find (m : Attributes) (k : Str) : Option Str := findEntry k m.entries

/-- Whether key `k` has an entry. -/
def contains (m : Attributes) (k : Str) : Bool := (m.find k).isSome

theorem ext_entries {a b : Attributes} (h : a.entries = b.entries) : a = b := by
  cases a; cases b; cases h; rfl

end Attributes

/-! ## Nodes -/

/-- Modelled from the spec: the class `Node` is declared in `xml.h`, which is not among the
sources; its members are the ones `xml.cpp` uses: `name` (tag), `m_attrs`, `children` (a vector of
owned nodes), `cdata` (text) and `doc` (documentation). -/
inductive Node where
  | mk (name : Str) (m_attrs : Attributes) (children : List Node) (cdata : Str) (doc : Str) : Node

namespace Node

/-- The member `name`. -/
def name : Node → Str
  | mk n _ _ _ _ => n

/-- The member `m_attrs`. -/
def m_attrs : Node → Attributes
  | mk _ a _ _ _ => a

/-- The member `children`. -/
def children : Node → List Node
  | mk _ _ c _ _ => c

/-- The member `cdata`. -/
def cdata : Node → Str
  | mk _ _ _ t _ => t

/-- The member `doc`. -/
def doc : Node → Str
  | mk _ _ _ _ d => d

/-- Assignment to the member `children`. -/
def setChildren : Node → List Node → Node
  | mk n a _ t d, c => mk n a c t d

/-- Assignment to the member `cdata`. -/
def setCdata : Node → Str → Node
  | mk n a c _ d, t => mk n a c t d

/-- Assignment to the member `doc`. -/
def setDoc : Node → Str → Node
  | mk n a c t _, d => mk n a c t d

/-- Assignment to the member `m_attrs`. -/
def setAttrs : Node → Attributes → Node
  | mk n _ c t d, a => mk n a c t d

/-- The loop `for (int i = 0; a[i]; i += 2) m_attrs[a[i]] = a[i + 1];` over the name/value
pairs of the Expat attribute array. -/
def fillAttrs : Attributes → List (Str × Str) → Attributes
  | m, [] => m
  | m, (k, v) :: r => fillAttrs (m.assign k v) r

/-- The constructor `Node::Node(const char* n, const char** a)`; `a = none` is the null
pointer. -/
def new (n : Str) (a : Option (List (Str × Str))) : Node :=
  match a with
  | some atts => mk n (fillAttrs Attributes.empty atts) [] [] []
  | none => mk n Attributes.empty [] [] []

/-- The method `Node::get`; `attr` is the parameter the source calls `attribute`. -/
def get (self : Node) (attr : Str) : Str :=
  match self.m_attrs.find attr with
  | some second => second
  | none => []

/-- The method `Node::set`; `attr` is the parameter the source calls `attribute`. -/
def set (self : Node) (attr : Str) (value : Str) : Node :=
  if value.length ≠ 0 then
    self.setAttrs (self.m_attrs.assign attr value)
  else
    self.setAttrs (self.m_attrs.erase value)

/-- The loop of `Node::operator[]` over the remaining children, `result` being the nodes
pushed so far. -/
def indexLoop (key : Str) : List Node → List Node → List Node
  | [], result => result
  | it :: rest, result =>
    if it.name = key then indexLoop key rest (result ++ [it]) else indexLoop key rest result

/-- The method `Node::operator[]`: the result holds pointers to children, embedded as the
children pointed to. -/
def index (self : Node) (key : Str) : List Node :=
  if key.length = 0 then [] else indexLoop key self.children []

end Node

/-- The loop of `Nodes::operator[]` over the remaining entries of the collection. -/
def Nodes.indexLoop (key : Str) : List Node → List Node → List Node
  | [], result => result
  | it :: rest, result => Nodes.indexLoop key rest (result ++ it.index key)

/-- The method `Nodes::operator[]`; a collection `Nodes` is a vector of node pointers, embedded
as the list of the nodes pointed to. -/
def Nodes.index (self : List Node) (key : Str) : List Node :=
  Nodes.indexLoop key self []

/-- The loop of `Nodes::select` over the remaining entries of the collection. -/
def Nodes.selectLoop (attr value : Str) : List Node → List Node → List Node
  | [], result => result
  | it :: rest, result =>
    if it.get attr = value then Nodes.selectLoop attr value rest (result ++ [it])
    else Nodes.selectLoop attr value rest result

/-- The method `Nodes::select`. -/
def Nodes.select (self : List Node) (attr value : Str) : List Node :=
  Nodes.selectLoop attr value self []

/-! ## Character data -/

/-- The read `chars[i]` of a C string: a character of the string, or the terminating NUL at
index `chars.length`; a read further out is outside the buffer (`none`). -/
def charAt (chars : Str) (i : Nat) : Option Char :=
  match chars[i]? with
  | some c => some c
  | none => if i = chars.length then some (Char.ofNat 0) else none

/-- The loop `while (isspace(chars[y]) && y > 0) --y;` started at `y`; yields the final `y`. -/
def scanBack (chars : Str) : Nat → Option Nat
  | 0 =>
    match charAt chars 0 with
    | none => none
    | some _ => some 0
  | y + 1 =>
    match charAt chars (y + 1) with
    | none => none
    | some c => if isspace c then scanBack chars y else some (y + 1)

/-- The loop `while (isspace(chars[x]) && x < y) ++x;` started at `x`; yields the final `x`.
The first argument bounds the number of iterations; the loop stops at `x = y` at the latest, so
`y - x` iterations suffice and `none` then only stands for a read outside the buffer. -/
def scanFwd (chars : Str) (y : Nat) : Nat → Nat → Option Nat
  | 0, x =>
    match charAt chars x with
    | none => none
    | some c => if isspace c && decide (x < y) then none else some x
  | n + 1, x =>
    match charAt chars x with
    | none => none
    | some c => if isspace c && decide (x < y) then scanFwd chars y n (x + 1) else some x

/-- The sub-string constructor of `std::string` that `std::string(chars, x, y + 1)` selects (a
string, a position `pos` and a count `n`): the characters of `str` from position `pos`, at most
`n` of them; `pos > str.size()` throws `std::out_of_range` (`none`). -/
def substr (str : Str) (pos n : Nat) : Option Str :=
  if pos ≤ str.length then some ((str.drop pos).take n) else none

/-- The value `character_data_handler` assigns to `cdata`:
`int x = 0, y = len - 1; while ... --y; while ... ++x; std::string(chars, x, y + 1)`.
`chars` is the C string at the pointer Expat passes (the expression `std::string(chars, x, y + 1)`
converts the pointer to a `std::string` first, which reads up to the next NUL, and then takes the
sub-string at position `x` of at most `y + 1` characters); `len` is the length of the chunk. -/
def trimmedChunk (chars : Str) (len : Int) : Option Str :=
  if len - 1 < 0 then none
  else
    match scanBack chars (len - 1).toNat with
    | none => none
    | some y =>
      match scanFwd chars y y 0 with
      | none => none
      | some x => substr chars x (y + 1)

/-! ## Documentation comments -/

/-- The constant `DefaultDocIndentation`. -/
def DefaultDocIndentation : Str := "    ".toList

/-- The test `strstr(haystack, needle) != NULL`. -/
def strstr : Str → Str → Bool
  | [], needle => needle.isEmpty
  | c :: rest, needle => needle.isPrefixOf (c :: rest) || strstr rest needle

/-- The successive results of `std::getline(strstream, line)` until it fails, each with the
value of `strstream.eof()` after the call. The first argument holds the characters extracted
so far by the current call, the second what is left in the stream. A call that reaches the end
of the stream sets `eof`, and fails when it extracted nothing. -/
def getlines : Str → Str → List (Str × Bool)
  | line, [] => if line.isEmpty then [] else [(line, true)]
  | line, c :: rest =>
    if c = '\n' then (line, false) :: getlines [] rest else getlines (line ++ [c]) rest

/-- The body of the `for (std::string line; std::getline(strstream, line);)` loop of
`start_comment_decl_handler`, over the remaining `getline` results: the state is
`firstLineNotProcessed` and the contents of `out`. -/
def docLoop : Bool → List (Str × Bool) → Str → Str
  | _, [], out => out
  | firstLineNotProcessed, (l, eof) :: rest, out =>
    let line := l.dropWhile isspace
    if firstLineNotProcessed || (eof && line.isEmpty) then docLoop false rest out
    else if !line.isEmpty && line.head? != some '@' then
      docLoop firstLineNotProcessed rest (out ++ DefaultDocIndentation ++ line ++ ['\n'])
    else docLoop firstLineNotProcessed rest (out ++ line ++ ['\n'])

/-- The documentation string `out.str()` that `start_comment_decl_handler` computes from the
comment (the same loop appears in both of its branches). -/
def docText (comment : Str) : Str :=
  docLoop true (getlines [] comment) []

/-! ## Document and the Expat callbacks -/

/-- Modelled from the spec: the class `Document` is declared in `xml.h`, which is not among the
sources; its members are the ones `xml.cpp` uses: `root` (a pointer, `none` for `nullptr`),
`m_copyDoxygen` and `m_depth`. -/
structure Document where
  /-- The root node, `none` for `nullptr`. -/
  root : Option Node
  /-- Whether documentation comments are folded into the tree. -/
  m_copyDoxygen : Bool
  /-- The number of open elements. -/
  m_depth : Int

/-- The constructor `Document::Document(bool copyDoxygen)`. -/
def Document.new (copyDoxygen : Bool) : Document := ⟨none, copyDoxygen, 0⟩

/-- The pointer walk `cld = &(root->children); for (int i = 1; i < m_depth; ++i)
cld = &(cld->back().children);` taking `k` steps from the vector `cld`, followed by the update
`f` of the vector reached. `back()` of an empty vector is undefined (`none`). -/
def walkCld : Nat → (List Node → List Node) → List Node → Option (List Node)
  | 0, f, cld => some (f cld)
  | k + 1, f, cld =>
    match cld.getLast? with
    | none => none
    | some back =>
      match walkCld k f back.children with
      | none => none
      | some cs => some (cld.dropLast ++ [back.setChildren cs])

/-- The pointer walk `nod = root; for (int i = 1; i < m_depth; ++i)
nod = &(nod->children.back());` taking `k` steps from the node `nod`, followed by the update `f`
of the node reached. -/
def walkNod : Nat → (Node → Node) → Node → Option Node
  | 0, f, nod => some (f nod)
  | k + 1, f, nod =>
    match nod.children.getLast? with
    | none => none
    | some back =>
      match walkNod k f back with
      | none => none
      | some b => some (nod.setChildren (nod.children.dropLast ++ [b]))

/-- The number of iterations of `for (int i = 1; i < m_depth; ++i)`. -/
def walkSteps (m_depth : Int) : Nat := (m_depth - 1).toNat

/-- The update of the vector `cld` in `start_element_handler`: a last child named "doc" is popped
and its text moved into the `doc` member of the new node, which is then pushed. -/
def pushElement (n : Node) (cld : List Node) : List Node :=
  match cld.getLast? with
  | none => cld ++ [n]
  | some back =>
    if back.name = docTag then cld.dropLast ++ [n.setDoc back.cdata] else cld ++ [n]

/-- The callback `Document::Expat::start_element_handler`. -/
def start_element_handler (doc : Document) (name : Str) (atts : List (Str × Str)) :
    Option Document :=
  match doc.root with
  | none => some { doc with root := some (Node.new name (some atts)), m_depth := doc.m_depth + 1 }
  | some root =>
    match walkCld (walkSteps doc.m_depth) (pushElement (Node.new name (some atts)))
        root.children with
    | none => none
    | some cs => some { doc with root := some (root.setChildren cs), m_depth := doc.m_depth + 1 }

/-- The callback `Document::Expat::character_data_handler`. -/
def character_data_handler (doc : Document) (chars : Str) (len : Int) : Option Document :=
  match doc.root with
  | none => none
  | some root =>
    match trimmedChunk chars len with
    | none => none
    | some text =>
      match walkNod (walkSteps doc.m_depth) (fun nod => nod.setCdata text) root with
      | none => none
      | some r => some { doc with root := some r }

/-- The callback `Document::Expat::end_element_handler`. -/
def end_element_handler (doc : Document) (_name : Str) : Option Document :=
  some { doc with m_depth := doc.m_depth - 1 }

/-- The callback `Document::Expat::start_comment_decl_handler`. -/
def start_comment_decl_handler (doc : Document) (comment : Str) : Option Document :=
  if !strstr comment "@brief".toList || !doc.m_copyDoxygen then some doc
  else
    match doc.root with
    | none =>
      some { doc with root := some ((Node.new docTag none).setCdata (docText comment)) }
    | some root =>
      match walkCld (walkSteps doc.m_depth)
          (fun cld => cld ++ [(Node.new docTag none).setCdata (docText comment)])
          root.children with
      | none => none
      | some cs => some { doc with root := some (root.setChildren cs) }

/-- The callbacks `start_doctype_decl_handler` and `end_doctype_decl_handler`: both empty. -/
def doctype_decl_handler (doc : Document) : Option Document := some doc

/-- One call of Expat into the callbacks registered by `from_xml`. -/
inductive Event where
  | startElement (name : Str) (atts : List (Str × Str))
  | endElement (name : Str)
  | characterData (chars : Str) (len : Int)
  | comment (comment : Str)
  | startDoctype
  | endDoctype

/-- The callback an event stands for, applied to the document. -/
def Event.handle (doc : Document) : Event → Option Document
  | .startElement name atts => start_element_handler doc name atts
  | .endElement name => end_element_handler doc name
  | .characterData chars len => character_data_handler doc chars len
  | .comment c => start_comment_decl_handler doc c
  | .startDoctype => doctype_decl_handler doc
  | .endDoctype => doctype_decl_handler doc

/-- The callbacks of a sequence of events, in order. -/
def runEvents : Document → List Event → Option Document
  | doc, [] => some doc
  | doc, e :: es =>
    match e.handle doc with
    | none => none
    | some doc1 => runEvents doc1 es

/-- The class `Error`: the message built by `Error::Error(const char*, int, int)`. -/
structure Error where
  /-- The formatted message. -/
  m_error : Str
deriving DecidableEq

/-- The constructor `Error::Error(const char* error, int line, int column)`. -/
def Error.new (error : Str) (line column : Int) : Error :=
  ⟨"line ".toList ++ (toString line).toList ++ ", column ".toList ++ (toString column).toList
    ++ ": ".toList ++ error⟩

/-- What `XML_Parse` does with the text given to `from_xml`, Expat being outside the repository:
the callbacks it makes, in order, and, when it returns `XML_STATUS_ERROR`, the error string,
line and column it reports. -/
structure ExpatRun where
  /-- The callbacks made before `XML_Parse` returns. -/
  events : List Event
  /-- The reported error (`XML_ErrorString`, line, column), `none` for `XML_STATUS_OK`. -/
  status : Option (Str × Int × Int)

/-- The method `Document::from_xml`, given what Expat does with the text: the document
afterwards, and the `Error` thrown if any. -/
def Document.from_xml (doc : Document) (xml : ExpatRun) : Option (Document × Option Error) :=
  match runEvents { doc with m_depth := 0, root := none } xml.events with
  | none => none
  | some doc1 =>
    match xml.status with
    | some (error, line, column) => some (doc1, some (Error.new error line column))
    | none => some (doc1, none)

/-! ## Event sequences -/

mutual
/-- The flat event sequence of a tree: element-open with the tag and the attributes, one
character-data event carrying the text when it is not empty, the events of each child in order,
element-close. `rest n` is what the buffer holds behind the text of node `n`. -/
def flatEvents (rest : Node → Str) : Node → List Event
  | .mk name m_attrs children cdata doc =>
    [Event.startElement name m_attrs.entries]
      ++ (if cdata.isEmpty then []
          else [Event.characterData (cdata ++ rest (.mk name m_attrs children cdata doc))
            cdata.length])
      ++ flatEventsList rest children ++ [Event.endElement name]
/-- The flat event sequences of a list of sibling trees, one after the other. -/
def flatEventsList (rest : Node → Str) : List Node → List Event
  | [] => []
  | c :: cs => flatEvents rest c ++ flatEventsList rest cs
end

mutual
/-- Whether `p` holds of the node and of every node below it. -/
def Node.all (p : Node → Bool) : Node → Bool
  | .mk name m_attrs children cdata doc =>
    p (.mk name m_attrs children cdata doc) && Node.allList p children
/-- Whether `p` holds of every node of a forest. -/
def Node.allList (p : Node → Bool) : List Node → Bool
  | [] => true
  | c :: cs => Node.all p c && Node.allList p cs
end

/-- A text that is empty or neither starts nor ends with a whitespace character. -/
def noOuterSpace (t : Str) : Bool :=
  match t.head?, t.getLast? with
  | some a, some b => !isspace a && !isspace b
  | _, _ => true

/-- A node that is not tagged "doc", has no documentation, and whose text is empty or has no
leading or trailing whitespace. -/
def plainNode (n : Node) : Bool :=
  n.name != docTag && n.doc.isEmpty && noOuterSpace n.cdata

/-- The effect of an event on `m_depth`: plus one for element-open, minus one for
element-close. -/
def Event.depthAfter (d : Int) : Event → Int
  | .startElement _ _ => d + 1
  | .endElement _ => d - 1
  | _ => d

/-- Whether every event of the sequence is processed at a depth of at least one, the depth
before the first being `d`. -/
def staysOpen : Int → List Event → Bool
  | _, [] => true
  | d, e :: es => decide (1 ≤ d) && staysOpen (e.depthAfter d) es

/-- Whether the node has a chain of `k` last children below it: the `k` steps of the pointer
walks from this node are defined. -/
def hasChain : Nat → Node → Bool
  | 0, _ => true
  | k + 1, nod =>
    match nod.children.getLast? with
    | none => false
    | some back => hasChain k back

/-- The vector reached by `k` steps of the pointer walk of `walkCld`, read without update. -/
def readCld : Nat → List Node → Option (List Node)
  | 0, cld => some cld
  | k + 1, cld =>
    match cld.getLast? with
    | none => none
    | some back => readCld k back.children

/-- The children of the currently open element, as the callbacks locate it: the vector `cld`
that `start_element_handler` and `start_comment_decl_handler` reach from the root. -/
def Document.currentChildren (doc : Document) : Option (List Node) :=
  match doc.root with
  | none => none
  | some root => readCld (walkSteps doc.m_depth) root.children

/-- A state the callbacks can bring a freshly constructed document to. -/
def Reachable (s : Document) : Prop :=
  ∃ (copyDoxygen : Bool) (es : List Event), runEvents (Document.new copyDoxygen) es = some s

/-- Whether a comment is folded into the tree: it contains "@brief" and folding is enabled. -/
def folds (copyDoxygen : Bool) (comment : Str) : Bool :=
  strstr comment "@brief".toList && copyDoxygen

/-- The event prefixes a well-formedness-checking source delivers: elements properly nested
under a single root element, character data of length at least one, inside its buffer, only
while an element is open, comments and the document type declaration anywhere. `opened` is the
number of open elements, `rootSeen` whether the root element has been opened. -/
def wellNested : Nat → Bool → List Event → Bool
  | _, _, [] => true
  | opened, rootSeen, .startElement _ _ :: es =>
    (decide (1 ≤ opened) || !rootSeen) && wellNested (opened + 1) true es
  | opened, rootSeen, .endElement _ :: es =>
    decide (1 ≤ opened) && wellNested (opened - 1) rootSeen es
  | opened, rootSeen, .characterData chars len :: es =>
    decide (1 ≤ opened) && decide (1 ≤ len) && decide (len ≤ chars.length)
      && wellNested opened rootSeen es
  | opened, rootSeen, _ :: es => wellNested opened rootSeen es

/-- The number of elements left open by a sequence of events, `opened` being open before. -/
def openAfter : Int → List Event → Int
  | opened, [] => opened
  | opened, e :: es => openAfter (e.depthAfter opened) es

/-- Whether an event creates a node: an element-open, or a comment that is folded. -/
def Event.creates (copyDoxygen : Bool) : Event → Bool
  | .startElement _ _ => true
  | .comment c => folds copyDoxygen c
  | _ => false

/-- The document around a sub-document whose root is the last child of `r`, after the children
`pre`: one level deeper. -/
def wrap (r : Node) (pre : List Node) (sub : Document) : Document :=
  ⟨sub.root.map (fun b => r.setChildren (pre ++ [b])), sub.m_copyDoxygen, sub.m_depth + 1⟩

/-- The events between the element-open and the element-close of a node. -/
def flatBody (rest : Node → Str) (T : Node) : List Event :=
  (if T.cdata.isEmpty then [] else [Event.characterData (T.cdata ++ rest T) T.cdata.length])
    ++ flatEventsList rest T.children

/-- The invariant of the callbacks: while there is no root the depth is at most zero, and once
there is one the pointer walks of `walkSteps m_depth` steps from it are defined. -/
def ChainInv (s : Document) : Prop :=
  match s.root with
  | none => s.m_depth ≤ 0
  | some r => hasChain (walkSteps s.m_depth) r = true

/-! ## Serialization -/

/-- The loop `for (auto it = m_attrs.begin(); ...) xml.append(" " + it->first + "=\"" +
it->second + "\"");` of `Node::_raw_xml`. -/
def attrsLoop : List (Str × Str) → Str → Str
  | [], xml => xml
  | (first, second) :: r, xml =>
    attrsLoop r (xml ++ (" ".toList ++ first ++ "=\"".toList ++ second ++ "\"".toList))

mutual
/-- The method `Node::_raw_xml(std::string& xml, int& depth)`: the values of `xml` and `depth`
afterwards. The depth starts at 0 in `to_xml` and is only incremented before and decremented
after the children, so it is embedded as a natural number. -/
def Node._raw_xml : Node → Str → Nat → Str × Nat
  | .mk name m_attrs children cdata _, xml, depth =>
    let xml1 := attrsLoop m_attrs.entries
      (xml ++ List.replicate (depth * 2) ' ' ++ ("<".toList ++ name))
    if cdata.length = 0 ∧ children.length = 0 then (xml1 ++ "/>\n".toList, depth)
    else
      let xml2 := if cdata.length ≠ 0 then xml1 ++ ">".toList ++ cdata else xml1 ++ ">".toList
      if children.length ≠ 0 then
        let res := Node._raw_xml_children children (xml2 ++ "\n".toList) (depth + 1)
        (res.1 ++ List.replicate ((res.2 - 1) * 2) ' ' ++ ("</".toList ++ name ++ ">\n".toList),
          res.2 - 1)
      else (xml2 ++ ("</".toList ++ name ++ ">\n".toList), depth)
/-- The loop `for (auto it = children.begin(); ...) it->_raw_xml(xml, depth);`. -/
def Node._raw_xml_children : List Node → Str → Nat → Str × Nat
  | [], xml, depth => (xml, depth)
  | it :: rest, xml, depth =>
    let res := Node._raw_xml it xml depth
    Node._raw_xml_children rest res.1 res.2
end

/-- The method `Node::to_xml`. -/
def Node.to_xml (self : Node) : Str := (Node._raw_xml self [] 0).1

/-- The method `Document::to_xml`; without a root the call dereferences a null pointer. -/
def Document.to_xml (doc : Document) : Option Str :=
  match doc.root with
  | none => none
  | some root => some root.to_xml

mutual
/-- Whether two trees have the same tag names, attributes and child order at every node. -/
def sameShape : Node → Node → Bool
  | .mk name m_attrs children _ _, T =>
    decide (name = T.name) && decide (m_attrs.entries = T.m_attrs.entries)
      && sameShapeList children T.children
/-- Whether two forests have the same length and pairwise the same shape. -/
def sameShapeList : List Node → List Node → Bool
  | [], l => l.isEmpty
  | c :: cs, l =>
    match l with
    | [] => false
    | c1 :: cs1 => sameShape c c1 && sameShapeList cs cs1
end

mutual
/-- Whether, at every level of the tree, a node tagged "doc" is the last of its siblings. -/
def docLast : Node → Bool
  | .mk _ _ children _ _ => docLastList children
/-- Whether the forest satisfies `docLast` and only its last tree may be tagged "doc". -/
def docLastList : List Node → Bool
  | [] => true
  | c :: cs => docLast c && (cs.isEmpty || c.name != docTag) && docLastList cs
end

/-- A piece of the text `_raw_xml` writes: a start tag, a self-closed tag, an end tag, or a run
of character data (text, newline or indentation). -/
inductive Token where
  | startTag (name : Str) (atts : List (Str × Str))
  | emptyTag (name : Str) (atts : List (Str × Str))
  | endTag (name : Str)
  | text (s : Str)

/-- The characters of a token, as `_raw_xml` writes them. -/
def Token.render : Token → Str
  | .startTag name atts => attrsLoop atts ("<".toList ++ name) ++ ">".toList
  | .emptyTag name atts => attrsLoop atts ("<".toList ++ name) ++ "/>".toList
  | .endTag name => "</".toList ++ name ++ ">".toList
  | .text s => s

/-- The characters of a sequence of tokens. -/
def renderAll : List Token → Str
  | [] => []
  | t :: ts => t.render ++ renderAll ts

/-- The token of the indentation `xml.append(depth * 2, ' ')`: none at depth 0. -/
def indentToken (depth : Nat) : List Token :=
  if depth = 0 then [] else [Token.text (List.replicate (depth * 2) ' ')]

mutual
/-- The tokens `_raw_xml` writes for a node at nesting `depth`, from its start tag to its end
tag. -/
def elementTokens : Nat → Node → List Token
  | depth, .mk name m_attrs children cdata _ =>
    if cdata.length = 0 ∧ children.length = 0 then [Token.emptyTag name m_attrs.entries]
    else
      [Token.startTag name m_attrs.entries]
        ++ (if cdata.length ≠ 0 then [Token.text cdata] else [])
        ++ (if children.length ≠ 0 then
              [Token.text "\n".toList] ++ siblingTokens (depth + 1) children ++ indentToken depth
            else [])
        ++ [Token.endTag name]
/-- The tokens `_raw_xml` writes for sibling nodes at nesting `depth`: each with its indentation
in front and a newline behind. -/
def siblingTokens : Nat → List Node → List Token
  | _, [] => []
  | depth, c :: cs =>
    (indentToken depth ++ elementTokens depth c ++ [Token.text "\n".toList])
      ++ siblingTokens depth cs
end

/-- The text `" key=\"value\""` for each attribute, in iteration order. -/
def attrsText : List (Str × Str) → Str
  | [] => []
  | (first, second) :: r =>
    " ".toList ++ first ++ "=\"".toList ++ second ++ "\"".toList ++ attrsText r

/-- The body split at its newlines: the lines in order, the last one being what follows the
last newline (the unterminated line, possibly empty). -/
def splitNewlines : Str → List Str
  | [] => [[]]
  | c :: r =>
    if c = '\n' then [] :: splitNewlines r
    else
      match splitNewlines r with
      | [] => [[c]]
      | l :: ls => (c :: l) :: ls

/-- One line of the documentation string: the stripped line followed by a newline, with four
spaces in front exactly when it is not empty and does not start with `@`. -/
def emitDocLine (line : Str) : Str :=
  (if line ≠ [] ∧ line.head? ≠ some '@' then "    ".toList else []) ++ line ++ "\n".toList

/-- The rule set of the specification for the documentation string of a comment body: split
the body at newlines, remove the leading whitespace of each line, drop the final line when it
is unterminated and empty after stripping, drop the first line, and emit every remaining
line. -/
def docTextSpec (body : Str) : Str :=
  let stripped := (splitNewlines body).map (List.dropWhile isspace)
  let withoutFinal := if stripped.getLast? = some [] then stripped.dropLast else stripped
  ((withoutFinal.drop 1).map emitDocLine).flatten

/-- The `getline` results for a body given as its lines: every line but the last is terminated
(`eof` not set); the last one sets `eof`, and is not delivered at all when it is empty. -/
def markLines : List Str → List (Str × Bool)
  | [] => []
  | [l] => if l.isEmpty then [] else [(l, true)]
  | l :: l2 :: ls => (l, false) :: markLines (l2 :: ls)

/-- The lines kept by the rule "drop the final line when it is empty after stripping". -/
def withoutBlankFinal (stripped : List Str) : List Str :=
  if stripped.getLast? = some [] then stripped.dropLast else stripped

/-- A line of the documentation string without its newline: the stripped line, with four
spaces in front exactly when it is not empty and does not start with `@`. -/
def outDocLine (line : Str) : Str :=
  (if line ≠ [] ∧ line.head? ≠ some '@' then "    ".toList else []) ++ line

/-- The text with two spaces put in front of every line, a line ending with its newline;
the first argument tells whether the next character starts a line. -/
def indentLinesFrom : Bool → Str → Str
  | _, [] => []
  | atStart, c :: r =>
    (if atStart then "  ".toList else []) ++ c :: indentLinesFrom (c == '\n') r

/-- The text with every line prefixed by two additional spaces. -/
def indentLines (s : Str) : Str := indentLinesFrom true s

/-- A node whose tag, attribute names, attribute values and text hold no newline. -/
def noNewlineNode (n : Node) : Bool :=
  decide ('\n' ∉ n.name)
    && n.m_attrs.entries.all (fun kv => decide ('\n' ∉ kv.1) && decide ('\n' ∉ kv.2))
    && decide ('\n' ∉ n.cdata)

/-- The lines joined, each followed by a newline. -/
def unlines : List Str → Str
  | [] => []
  | l :: ls => l ++ "\n".toList ++ unlines ls

/-- The start tag of a node without its closing `>` or `/>`: `<tag` and the attributes. -/
def openTag (n : Node) : Str := "<".toList ++ n.name ++ attrsText n.m_attrs.entries

mutual
/-- The lines `_raw_xml` writes for a node at nesting `depth`, without their newlines. -/
def nodeLines : Nat → Node → List Str
  | depth, .mk name m_attrs children cdata doc =>
    if cdata.length = 0 ∧ children.length = 0 then
      [List.replicate (depth * 2) ' ' ++ openTag (.mk name m_attrs children cdata doc)
        ++ "/>".toList]
    else if children.length ≠ 0 then
      [List.replicate (depth * 2) ' ' ++ openTag (.mk name m_attrs children cdata doc)
        ++ ">".toList ++ cdata]
        ++ siblingLines (depth + 1) children
        ++ [List.replicate (depth * 2) ' ' ++ ("</".toList ++ name ++ ">".toList)]
    else
      [List.replicate (depth * 2) ' ' ++ openTag (.mk name m_attrs children cdata doc)
        ++ ">".toList ++ cdata ++ ("</".toList ++ name ++ ">".toList)]
/-- The lines `_raw_xml` writes for sibling nodes at nesting `depth`. -/
def siblingLines : Nat → List Node → List Str
  | _, [] => []
  | depth, c :: cs => nodeLines depth c ++ siblingLines depth cs
end

/-! ## Positions, open elements and conditions on event sequences -/

/-- Whether no element-open of the sequence carries the tag "doc". -/
def noDocElement : List Event → Bool
  | [] => true
  | .startElement name _ :: es => decide (name ≠ docTag) && noDocElement es
  | _ :: es => noDocElement es

/-- A node that is not tagged "doc" and has an empty documentation string. -/
def cleanNode (n : Node) : Bool := decide (n.name ≠ docTag) && n.doc.isEmpty

/-- Every node of the document's tree is clean. -/
def CleanInv (s : Document) : Prop := ∀ r, s.root = some r → r.all cleanNode = true

/-- The indices at which the loop `while (isspace(chars[y]) && y > 0) --y;` started at `y`
evaluates `chars[y]`, in the order of the reads. -/
def scanBackReads (chars : Str) : Nat → List Nat
  | 0 => [0]
  | y + 1 =>
    (y + 1) :: (match charAt chars (y + 1) with
      | none => []
      | some c => if isspace c then scanBackReads chars y else [])

/-- The indices at which the loop `while (isspace(chars[x]) && x < y) ++x;` started at `x`
evaluates `chars[x]`, in the order of the reads; the first argument bounds the number of
iterations as in `scanFwd`. -/
def scanFwdReads (chars : Str) (y : Nat) : Nat → Nat → List Nat
  | 0, x => [x]
  | n + 1, x =>
    x :: (match charAt chars x with
      | none => []
      | some c => if isspace c && decide (x < y) then scanFwdReads chars y n (x + 1) else [])

/-- The node reached by `k` steps of the pointer walk `nod = &(nod->children.back());`, read
without update: the node the callbacks treat as the currently open element. -/
def readNod : Nat → Node → Option Node
  | 0, nod => some nod
  | k + 1, nod =>
    match nod.children.getLast? with
    | none => none
    | some back => readNod k back

/-- The node at a position of the tree below `n`; a position is the list of the child indices
to follow. -/
def Node.getAt : List Nat → Node → Option Node
  | [], n => some n
  | i :: q, n =>
    match n.children[i]? with
    | none => none
    | some c => Node.getAt q c

/-- The position of the node reached by `k` steps of the pointer walk: the index of the last
child at each step. -/
def spinePath : Nat → Node → List Nat
  | 0, _ => []
  | k + 1, nod =>
    match nod.children.getLast? with
    | none => []
    | some back => (nod.children.length - 1) :: spinePath k back

/-- Whether the nodes at the steps `1 .. k` of the pointer walk from `nod` are not tagged
"doc". -/
def spineNamed : Nat → Node → Bool
  | 0, _ => true
  | k + 1, nod =>
    match nod.children.getLast? with
    | none => true
    | some back => decide (back.name ≠ docTag) && spineNamed k back

/-- The nodes the pointer walk of the document passes below the root are not tagged "doc". -/
def SpineInv (s : Document) : Prop :=
  ∀ r, s.root = some r → spineNamed (walkSteps s.m_depth) r = true

/-- The position `q` leads from `r` to the subtree `P` and leaves the pointer walk of `k` steps
from `r` before its end, at a child that is not the last one or, after the last step, at a last
child that is not tagged "doc": no callback that walks `k` steps from `r` touches `P`. -/
def safeAt (P : Node) : List Nat → Nat → Node → Prop
  | [], _, _ => False
  | i :: q, k, r =>
    match r.children[i]? with
    | none => False
    | some c =>
      if i + 1 = r.children.length then
        c.name ≠ docTag ∧
          (match k with
            | 0 => c.getAt q = some P
            | k1 + 1 => safeAt P q k1 c)
      else c.getAt q = some P

/-- An update of a children vector that pushes one node, after popping a last node tagged
"doc" or without popping. -/
def PushLike (g : List Node → List Node) : Prop :=
  ∀ l, (∃ x, g l = l ++ [x])
    ∨ (∃ b x, l.getLast? = some b ∧ b.name = docTag ∧ g l = l.dropLast ++ [x])

/-- Whether no event of the sequence is a comment. -/
def noComment : List Event → Bool
  | [] => true
  | .comment _ :: _ => false
  | _ :: es => noComment es

/-- Whether the event is an element-open. -/
def Event.opens : Event → Bool
  | .startElement _ _ => true
  | _ => false

/-- Two nodes with the same tag, attributes, text and documentation. -/
def Node.sameData (a b : Node) : Prop :=
  a.name = b.name ∧ a.m_attrs = b.m_attrs ∧ a.cdata = b.cdata ∧ a.doc = b.doc

/-- Whether no character data is delivered while the element in question is the innermost open
one, up to its element-close; `inner` is the number of elements open inside it. -/
def textKept : Nat → List Event → Bool
  | _, [] => true
  | inner, .startElement _ _ :: es => textKept (inner + 1) es
  | 0, .endElement _ :: _ => true
  | inner + 1, .endElement _ :: es => textKept inner es
  | inner, .characterData _ _ :: es => decide (1 ≤ inner) && textKept inner es
  | inner, _ :: es => textKept inner es

/-- Whether no element is opened before the next element-close: no child of the innermost
open element is opened. -/
def noChildOpened : List Event → Bool
  | [] => true
  | .startElement _ _ :: _ => false
  | .endElement _ :: _ => true
  | _ :: es => noChildOpened es

/-- The stack of the open elements after a sequence of events, the innermost first, each with
the tag and the attribute list of its element-open; `st` is the stack before. -/
def openElements : List (Str × List (Str × Str)) → List Event → List (Str × List (Str × Str))
  | st, [] => st
  | st, .startElement name atts :: es => openElements ((name, atts) :: st) es
  | st, .endElement _ :: es => openElements st.tail es
  | st, _ :: es => openElements st es

/-- Whether no comment is folded into the tree before the first element-open. -/
def rootFirst (copyDoxygen : Bool) : List Event → Bool
  | [] => true
  | .startElement _ _ :: _ => true
  | .comment c :: es => !folds copyDoxygen c && rootFirst copyDoxygen es
  | _ :: es => rootFirst copyDoxygen es

/-- The nodes along the pointer walk from `r` carry the tags and attributes of the open
elements `st` (innermost first): the outermost is `r`, the innermost is reached after
`st.length - 1` steps. -/
def TagSpine (r : Node) (st : List (Str × List (Str × Str))) : Prop :=
  ∀ i x, st[i]? = some x →
    ∃ n, readNod (st.length - 1 - i) r = some n ∧ n.name = x.1
      ∧ n.m_attrs = (Node.new x.1 (some x.2)).m_attrs

/-! ## The event source -/

/-- The ASCII characters that may start an XML name. -/
def isNameStart (c : Char) : Bool := c.isAlpha || c = '_' || c = ':'

/-- The ASCII characters that may continue an XML name. -/
def isNameChar (c : Char) : Bool := isNameStart c || c.isDigit || c = '-' || c = '.'

/-- The characters the model covers: printable ASCII, tab and line feed. -/
def isModelled (c : Char) : Bool := (32 ≤ c.val && c.val < 127) || c = '\t' || c = '\n'

/-- The characters of a run of character data: the run ends before `<`, `&` and a line feed,
which the event source reports on its own. -/
def isDataChar (c : Char) : Bool := isModelled c && c != '<' && c != '&' && c != '\n'

/-- A tag or attribute name the model covers: an ASCII XML name. -/
def nameOk (n : Str) : Bool :=
  match n with
  | [] => false
  | c :: _ => isNameStart c && n.all isNameChar

/-- An attribute value that `to_xml` writes and the event source reads back unchanged: a
covered character other than `<`, `&`, the double quote, tab and line feed at every place. -/
def valueOk (v : Str) : Bool :=
  v.all (fun c => isModelled c && c != '<' && c != '&' && c != '"' && c != '\t' && c != '\n')

/-- A text that `to_xml` writes and the event source reads back as one run: data characters
only, not the sequence `]]>`, and no white space at either end. -/
def textOk (t : Str) : Bool :=
  t.all isDataChar && !strstr t "]]>".toList && noOuterSpace t

/-- A node whose tag, attributes and text are written by `to_xml` so that the event source
reads them back. -/
def xmlSafeNode (n : Node) : Bool :=
  nameOk n.name && n.m_attrs.entries.all (fun kv => nameOk kv.1 && valueOk kv.2)
    && textOk n.cdata

/-- The events the event source delivers for a token of a text, `after` being the text behind
the token: a tag gives its element events, a line feed is reported on its own, and a run of
character data is reported by its length and a pointer into the text. -/
def Token.eventsAt (after : Str) : Token → List Event
  | .startTag name atts => [Event.startElement name atts]
  | .emptyTag name atts => [Event.startElement name atts, Event.endElement name]
  | .endTag name => [Event.endElement name]
  | .text s =>
    if s = ['\n'] then [Event.characterData ['\n'] 1]
    else [Event.characterData (s ++ after) s.length]

/-- The events the event source delivers for the tokens of a text, `rest` being the text behind
them. -/
def eventsAt : List Token → Str → List Event
  | [], _ => []
  | t :: ts, rest => t.eventsAt (renderAll ts ++ rest) ++ eventsAt ts rest

/-- The open elements after the tokens, `st` being open before. -/
def stackAfter : List Str → List Token → List Str
  | st, [] => st
  | st, .startTag name _ :: ts => stackAfter (name :: st) ts
  | st, .endTag _ :: ts => stackAfter st.tail ts
  | st, _ :: ts => stackAfter st ts

/-- Whether the root element has been opened after the tokens. -/
def seenAfter : Bool → List Token → Bool
  | seen, [] => seen
  | _, .startTag _ _ :: ts => seenAfter true ts
  | _, .emptyTag _ _ :: ts => seenAfter true ts
  | seen, _ :: ts => seenAfter seen ts

/-- A tag the event source reads back as written: names and values are covered and the keys
differ. -/
def tagOk (name : Str) (atts : List (Str × Str)) : Prop :=
  nameOk name = true ∧ (∀ kv ∈ atts, nameOk kv.1 = true ∧ valueOk kv.2 = true)
    ∧ atts.Pairwise (fun a b => a.1 ≠ b.1)

/-- The tokens form a text the event source reads token by token: tags are well-formed and
nested, with one root element, character data stands inside an element, and a run of character
data ends where the next token starts. -/
def tokensOk : List Str → Bool → List Token → Str → Prop
  | _, _, [], _ => True
  | st, seen, .startTag name atts :: ts, rest =>
    tagOk name atts ∧ (st.isEmpty && seen) = false ∧ tokensOk (name :: st) true ts rest
  | st, seen, .emptyTag name atts :: ts, rest =>
    tagOk name atts ∧ (st.isEmpty && seen) = false ∧ tokensOk st true ts rest
  | st, seen, .endTag name :: ts, rest =>
    nameOk name = true ∧ st.head? = some name ∧ tokensOk st.tail seen ts rest
  | st, seen, .text s :: ts, rest =>
    st ≠ []
      ∧ (s = ['\n'] ∨ (s ≠ [] ∧ s.all isDataChar = true ∧ strstr s "]]>".toList = false
          ∧ ∀ x, (renderAll ts ++ rest).head? = some x → isDataChar x = false))
      ∧ tokensOk st seen ts rest

/-- The tokens `_raw_xml` writes between the start tag and the end tag of a node. -/
def bodyTokens (depth : Nat) (T : Node) : List Token :=
  (if T.cdata.length ≠ 0 then [Token.text T.cdata] else [])
    ++ (if T.children.length ≠ 0 then
          [Token.text "\n".toList] ++ siblingTokens (depth + 1) T.children ++ indentToken depth
        else [])

mutual
/-- Whether the nodes without children have the same text in two trees of the same shape. -/
def sameLeafText : Node → Node → Bool
  | .mk _ _ children cdata _, T =>
    (!children.isEmpty || decide (cdata = T.cdata)) && sameLeafTextList children T.children
/-- Whether the nodes without children have the same text in two forests of the same shape. -/
def sameLeafTextList : List Node → List Node → Bool
  | [], _ => true
  | c :: cs, l =>
    match l with
    | [] => true
    | c1 :: cs1 => sameLeafText c c1 && sameLeafTextList cs cs1
end

/-- Every event of the sequence is a character-data event with a length of at least one that
stays inside its buffer. -/
def CharData (es : List Event) : Prop :=
  ∀ e ∈ es, ∃ chars len, e = Event.characterData chars len ∧ 1 ≤ len ∧ len ≤ chars.length

/-! # Theorems -/

/-! ## Supporting lemmas -/

theorem insertEntry_append (k v : Str) (p : List (Str × Str)) (h : ∀ x ∈ p, x.1 < k) :
    insertEntry k v p = p ++ [(k, v)] := by
  induction p with
  | nil => rfl
  | cons a r ih =>
    obtain ⟨k', v'⟩ := a
    have h1 : k' < k := h (k', v') (List.mem_cons_self _ _)
    unfold insertEntry
    rw [if_neg (lt_asymm h1), if_neg (ne_of_gt h1)]
    rw [ih (fun x hx => h x (List.mem_cons_of_mem _ hx))]
    rfl

theorem fillAttrs_entries (q : List (Str × Str)) (m : Attributes)
    (h : (m.entries ++ q).Pairwise (fun a b => a.1 < b.1)) :
    (Node.fillAttrs m q).entries = m.entries ++ q := by
  induction q generalizing m with
  | nil => simp [Node.fillAttrs]
  | cons a r ih =>
    obtain ⟨k, v⟩ := a
    have hk : ∀ x ∈ m.entries, x.1 < k := by
      intro x hx
      exact (List.pairwise_append.1 h).2.2 x hx (k, v) (List.mem_cons_self _ _)
    have he : (m.assign k v).entries = m.entries ++ [(k, v)] := insertEntry_append k v _ hk
    unfold Node.fillAttrs
    rw [ih (m.assign k v) (by rw [he]; simpa using h), he]
    simp

theorem Node.new_entries (name : Str) (a : Attributes) :
    Node.new name (some a.entries) = Node.mk name a [] [] [] := by
  unfold Node.new
  have h : Node.fillAttrs Attributes.empty a.entries = a :=
    Attributes.ext_entries (by
      rw [fillAttrs_entries _ _ (by simpa [Attributes.empty] using a.sorted)]
      simp [Attributes.empty])
  simp only [h]

theorem charAt_of_getElem? {chars : Str} {i : Nat} {c : Char} (h : chars[i]? = some c) :
    charAt chars i = some c := by
  unfold charAt
  rw [h]

theorem scanBack_stop {chars : Str} {y : Nat} {c : Char} (h : charAt chars y = some c)
    (hc : isspace c = false) : scanBack chars y = some y := by
  cases y with
  | zero => unfold scanBack; rw [h]
  | succ y => unfold scanBack; rw [h]; simp [hc]

theorem scanFwd_stop {chars : Str} {y n x : Nat} {c : Char} (h : charAt chars x = some c)
    (hc : isspace c = false) : scanFwd chars y n x = some x := by
  cases n with
  | zero => unfold scanFwd; rw [h]; simp [hc]
  | succ n => unfold scanFwd; rw [h]; simp [hc]

theorem trimmedChunk_clean (t rest : Str) (hne : t ≠ []) (h : noOuterSpace t = true) :
    trimmedChunk (t ++ rest) t.length = some t := by
  have hlen : 0 < t.length := List.length_pos.2 hne
  obtain ⟨a, ha⟩ : ∃ a, t[0]? = some a := ⟨t[0], List.getElem?_eq_getElem hlen⟩
  obtain ⟨b, hb⟩ : ∃ b, t[t.length - 1]? = some b :=
    ⟨t[t.length - 1], List.getElem?_eq_getElem (by omega)⟩
  have hhead : t.head? = some a := by rw [List.head?_eq_getElem?, ha]
  have hlast : t.getLast? = some b := by rw [List.getLast?_eq_getElem?, hb]
  unfold noOuterSpace at h
  rw [hhead, hlast] at h
  simp only [Bool.and_eq_true, Bool.not_eq_true'] at h
  have ca : charAt (t ++ rest) 0 = some a :=
    charAt_of_getElem? (by rw [List.getElem?_append_left hlen, ha])
  have cb : charAt (t ++ rest) (t.length - 1) = some b :=
    charAt_of_getElem? (by rw [List.getElem?_append_left (by omega), hb])
  unfold trimmedChunk
  have h1 : ¬ ((t.length : Int) - 1 < 0) := by omega
  have h2 : ((t.length : Int) - 1).toNat = t.length - 1 := by omega
  rw [if_neg h1, h2, scanBack_stop cb h.2]
  simp only [scanFwd_stop ca h.1]
  unfold substr
  have h3 : t.length - 1 + 1 = t.length := by omega
  simp [h3]

@[simp] theorem Node.children_setChildren (n : Node) (cs : List Node) :
    (n.setChildren cs).children = cs := by cases n; rfl

@[simp] theorem Node.setChildren_setChildren (n : Node) (cs cs' : List Node) :
    (n.setChildren cs).setChildren cs' = n.setChildren cs' := by cases n; rfl

@[simp] theorem Node.setChildren_children (n : Node) : n.setChildren n.children = n := by
  cases n; rfl

@[simp] theorem Node.name_setChildren (n : Node) (cs : List Node) :
    (n.setChildren cs).name = n.name := by cases n; rfl

@[simp] theorem Node.children_setCdata (n : Node) (t : Str) :
    (n.setCdata t).children = n.children := by cases n; rfl

theorem walkCld_concat (k : Nat) (f : List Node → List Node) (pre : List Node) (b : Node) :
    walkCld (k + 1) f (pre ++ [b])
      = (walkCld k f b.children).map (fun cs => pre ++ [b.setChildren cs]) := by
  rw [walkCld]
  simp only [List.getLast?_concat, List.dropLast_concat]
  cases walkCld k f b.children <;> rfl

theorem walkNod_concat (k : Nat) (f : Node → Node) (r : Node) (pre : List Node) (b : Node) :
    walkNod (k + 1) f (r.setChildren (pre ++ [b]))
      = (walkNod k f b).map (fun b1 => r.setChildren (pre ++ [b1])) := by
  rw [walkNod]
  simp only [Node.children_setChildren, List.getLast?_concat, List.dropLast_concat]
  cases walkNod k f b <;> simp

theorem walkSteps_succ (d : Int) (hd : 1 ≤ d) : walkSteps (d + 1) = walkSteps d + 1 := by
  unfold walkSteps; omega

theorem handle_focus (e : Event) (r : Node) (pre : List Node) (b : Node) (flag : Bool) (d : Int)
    (hd : 1 ≤ d) :
    e.handle ⟨some (r.setChildren (pre ++ [b])), flag, d + 1⟩
      = (e.handle ⟨some b, flag, d⟩).map (wrap r pre) := by
  cases e with
  | startElement name atts =>
    simp only [Event.handle, start_element_handler, walkSteps_succ d hd,
      Node.children_setChildren, walkCld_concat]
    cases walkCld (walkSteps d) (pushElement (Node.new name (some atts))) b.children <;>
      simp [wrap]
  | endElement name =>
    simp only [Event.handle, end_element_handler, Option.map_some', wrap, Option.some.injEq]
    congr 1
    omega
  | characterData chars len =>
    simp only [Event.handle, character_data_handler, walkSteps_succ d hd, walkNod_concat]
    cases trimmedChunk chars len with
    | none => rfl
    | some text =>
      simp only []
      cases walkNod (walkSteps d) (fun nod => nod.setCdata text) b <;> simp [wrap]
  | comment c =>
    simp only [Event.handle, start_comment_decl_handler, walkSteps_succ d hd,
      Node.children_setChildren, walkCld_concat]
    split_ifs
    · simp [wrap]
    · cases walkCld (walkSteps d)
        (fun cld => cld ++ [(Node.new docTag none).setCdata (docText c)]) b.children <;>
        simp [wrap]
  | startDoctype => simp [Event.handle, doctype_decl_handler, wrap]
  | endDoctype => simp [Event.handle, doctype_decl_handler, wrap]

theorem handle_shape (e : Event) (b : Node) (flag : Bool) (d : Int) (s : Document)
    (h : e.handle ⟨some b, flag, d⟩ = some s) :
    ∃ b1, s = ⟨some b1, flag, e.depthAfter d⟩ := by
  cases e with
  | startElement name atts =>
    simp only [Event.handle, start_element_handler] at h
    cases hw : walkCld (walkSteps d) (pushElement (Node.new name (some atts))) b.children with
    | none => simp [hw] at h
    | some cs => simp [hw] at h; exact ⟨_, h.symm⟩
  | endElement name =>
    simp only [Event.handle, end_element_handler, Option.some.injEq] at h
    exact ⟨b, h.symm⟩
  | characterData chars len =>
    simp only [Event.handle, character_data_handler] at h
    cases ht : trimmedChunk chars len with
    | none => simp [ht] at h
    | some text =>
      cases hw : walkNod (walkSteps d) (fun nod => nod.setCdata text) b with
      | none => simp [ht, hw] at h
      | some r => simp [ht, hw] at h; exact ⟨_, h.symm⟩
  | comment c =>
    simp only [Event.handle, start_comment_decl_handler] at h
    split_ifs at h
    · simp at h; exact ⟨b, h.symm⟩
    · split at h
      · exact absurd h (by simp)
      · simp only [Option.some.injEq] at h
        exact ⟨_, h.symm⟩
  | startDoctype => simp [Event.handle, doctype_decl_handler] at h; exact ⟨b, h.symm⟩
  | endDoctype => simp [Event.handle, doctype_decl_handler] at h; exact ⟨b, h.symm⟩

theorem runEvents_focus (es : List Event) (r : Node) (pre : List Node) (b : Node) (flag : Bool)
    (d : Int) (h : staysOpen d es = true) :
    runEvents ⟨some (r.setChildren (pre ++ [b])), flag, d + 1⟩ es
      = (runEvents ⟨some b, flag, d⟩ es).map (wrap r pre) := by
  induction es generalizing b d with
  | nil => simp [runEvents, wrap]
  | cons e es ih =>
    simp only [staysOpen, Bool.and_eq_true, decide_eq_true_eq] at h
    simp only [runEvents]
    rw [handle_focus e r pre b flag d h.1]
    cases he : e.handle ⟨some b, flag, d⟩ with
    | none => rfl
    | some s =>
      obtain ⟨b1, rfl⟩ := handle_shape e b flag d s he
      simp only [Option.map_some', wrap, Option.map]
      exact ih b1 _ h.2

theorem runEvents_append (s : Document) (es1 es2 : List Event) :
    runEvents s (es1 ++ es2) = (runEvents s es1).bind (fun s1 => runEvents s1 es2) := by
  induction es1 generalizing s with
  | nil => rfl
  | cons e es ih =>
    simp only [List.cons_append, runEvents]
    cases e.handle s with
    | none => rfl
    | some s1 => exact ih s1

mutual
theorem staysOpen_flatEvents (rest : Node → Str) :
    ∀ (T : Node) (d : Int) (es : List Event), 1 ≤ d →
      staysOpen d (flatEvents rest T ++ es) = staysOpen d es
  | .mk name m_attrs children cdata doc, d, es, hd => by
    have hk := staysOpen_flatEventsList rest children (d + 1) (Event.endElement name :: es)
      (by omega)
    have hd1 : (1 : Int) ≤ d + 1 := by omega
    by_cases hc : cdata.isEmpty = true
    · simp only [flatEvents, hc, if_true, List.append_nil, List.append_eq, List.append_assoc, List.cons_append,
        List.nil_append, staysOpen, Event.depthAfter, hk, hd, hd1, decide_True, Bool.true_and,
        add_sub_cancel_right]
    · simp only [flatEvents, hc, if_false, List.append_assoc, List.append_eq, List.cons_append,
        List.nil_append, staysOpen, Event.depthAfter, hk, hd, hd1, decide_True, Bool.true_and,
        add_sub_cancel_right]
theorem staysOpen_flatEventsList (rest : Node → Str) :
    ∀ (cs : List Node) (d : Int) (es : List Event), 1 ≤ d →
      staysOpen d (flatEventsList rest cs ++ es) = staysOpen d es
  | [], _, _, _ => by simp [flatEventsList]
  | c :: cs, d, es, hd => by
    simp only [flatEventsList, List.append_assoc]
    rw [staysOpen_flatEvents rest c d _ hd, staysOpen_flatEventsList rest cs d es hd]
end

theorem pushElement_plain (n : Node) (cld : List Node)
    (h : ∀ b, cld.getLast? = some b → b.name ≠ docTag) :
    pushElement n cld = cld ++ [n] := by
  unfold pushElement
  cases hb : cld.getLast? with
  | none => rfl
  | some b => simp only []; rw [if_neg (h b hb)]

/-- Appending the subtree `c` below the open element `X` at depth one, given how the body of
`c` builds `c` from its freshly opened node. -/
theorem runEvents_child (rest : Node → Str) (flag : Bool) (c X : Node)
    (hX : ∀ b, X.children.getLast? = some b → b.name ≠ docTag)
    (body : List Event)
    (hev : flatEvents rest c = Event.startElement c.name c.m_attrs.entries :: body
      ++ [Event.endElement c.name])
    (hbody : runEvents ⟨some (Node.mk c.name c.m_attrs [] [] []), flag, 1⟩ body
      = some ⟨some c, flag, 1⟩)
    (hopen : staysOpen 1 body = true) :
    runEvents ⟨some X, flag, 1⟩ (flatEvents rest c)
      = some ⟨some (X.setChildren (X.children ++ [c])), flag, 1⟩ := by
  rw [hev]
  simp only [runEvents, List.cons_append, Event.handle, start_element_handler, walkSteps,
    List.append_eq]
  simp only [sub_self, Int.toNat_zero, walkCld, pushElement_plain _ _ hX, Node.new_entries]
  rw [runEvents_append]
  have := runEvents_focus body X X.children (Node.mk c.name c.m_attrs [] [] []) flag 1 hopen
  simp only [Int.reduceAdd] at this ⊢
  rw [this, hbody]
  simp [wrap, runEvents, Event.handle, end_element_handler]

theorem flatEvents_eq (rest : Node → Str) (T : Node) :
    flatEvents rest T
      = Event.startElement T.name T.m_attrs.entries :: flatBody rest T
        ++ [Event.endElement T.name] := by
  cases T
  simp [flatEvents, flatBody, Node.name, Node.m_attrs, Node.cdata, Node.children]

theorem staysOpen_flatBody (rest : Node → Str) (T : Node) : staysOpen 1 (flatBody rest T) = true := by
  have h := staysOpen_flatEventsList rest T.children 1 [] (le_refl 1)
  rw [List.append_nil] at h
  unfold flatBody
  split_ifs
  · simpa [staysOpen] using h
  · simpa [staysOpen, Event.depthAfter] using h

mutual
theorem runEvents_flatBody (rest : Node → Str) (flag : Bool) :
    ∀ T : Node, T.all plainNode = true →
      runEvents ⟨some (Node.mk T.name T.m_attrs [] [] []), flag, 1⟩ (flatBody rest T)
        = some ⟨some T, flag, 1⟩
  | .mk name m_attrs children cdata doc, h => by
    simp only [Node.all, plainNode, Bool.and_eq_true, bne_iff_ne, ne_eq, Node.name, Node.doc,
      Node.cdata, List.isEmpty_iff] at h
    obtain ⟨⟨⟨_, hdoc⟩, hsp⟩, hkids⟩ := h
    subst hdoc
    have hk := runEvents_flatEventsList rest flag children hkids
    simp only [flatBody, Node.name, Node.m_attrs, Node.cdata, Node.children]
    rw [runEvents_append]
    by_cases hc : cdata = []
    · subst hc
      simp only [List.isEmpty_nil, if_true, runEvents, Option.some_bind]
      have := hk (Node.mk name m_attrs [] [] []) (by simp [Node.children])
      simpa [Node.children, Node.setChildren] using this
    · have hne : cdata.isEmpty = false := by simpa using hc
      simp only [hne, Bool.false_eq_true, if_false, runEvents, Event.handle,
        character_data_handler, trimmedChunk_clean cdata _ hc hsp, walkSteps, sub_self,
        Int.toNat_zero, walkNod, Option.some_bind]
      have := hk (Node.mk name m_attrs [] cdata []) (by simp [Node.children])
      simpa [Node.children, Node.setChildren, Node.setCdata] using this
theorem runEvents_flatEventsList (rest : Node → Str) (flag : Bool) :
    ∀ cs : List Node, Node.allList plainNode cs = true →
      ∀ X : Node, (∀ b, X.children.getLast? = some b → b.name ≠ docTag) →
        runEvents ⟨some X, flag, 1⟩ (flatEventsList rest cs)
          = some ⟨some (X.setChildren (X.children ++ cs)), flag, 1⟩
  | [], _, X, _ => by simp [flatEventsList, runEvents]
  | c :: cs, h, X, hX => by
    simp only [Node.allList, Bool.and_eq_true] at h
    have hc := runEvents_child rest flag c X hX (flatBody rest c) (flatEvents_eq rest c)
      (runEvents_flatBody rest flag c h.1) (staysOpen_flatBody rest c)
    have hname : c.name ≠ docTag := by
      have := h.1
      cases c
      simp only [Node.all, plainNode, Bool.and_eq_true, bne_iff_ne, ne_eq] at this
      exact this.1.1.1
    have hk := runEvents_flatEventsList rest flag cs h.2 (X.setChildren (X.children ++ [c]))
      (by simpa using hname)
    simp only [flatEventsList]
    rw [runEvents_append, hc, Option.some_bind, hk]
    simp
end

theorem hasChain_pred (k : Nat) (r : Node) (h : hasChain (k + 1) r = true) :
    hasChain k r = true := by
  induction k generalizing r with
  | zero => rfl
  | succ k ih =>
    rw [hasChain] at h ⊢
    cases hb : r.children.getLast? with
    | none => rw [hb] at h; exact absurd h (by simp)
    | some b => rw [hb] at h; exact ih b h

theorem hasChain_le {j k : Nat} (hjk : j ≤ k) (r : Node) (h : hasChain k r = true) :
    hasChain j r = true := by
  induction k with
  | zero => rw [Nat.le_zero.1 hjk]; exact h
  | succ k ih =>
    rcases Nat.of_le_succ hjk with hle | heq
    · exact ih hle (hasChain_pred k r h)
    · rw [heq]; exact h

theorem walkCld_of_hasChain (f : List Node → List Node) (k : Nat) (r : Node)
    (h : hasChain k r = true) :
    ∃ cs, walkCld k f r.children = some cs ∧ hasChain k (r.setChildren cs) = true
      ∧ ((∀ l, f l ≠ []) → hasChain (k + 1) (r.setChildren cs) = true) := by
  induction k generalizing r with
  | zero =>
    refine ⟨f r.children, rfl, rfl, fun hf => ?_⟩
    rw [hasChain, Node.children_setChildren]
    cases hl : (f r.children).getLast? with
    | none => exact absurd (List.getLast?_eq_none_iff.1 hl) (hf _)
    | some b => rfl
  | succ k ih =>
    rw [hasChain] at h
    cases hb : r.children.getLast? with
    | none => rw [hb] at h; exact absurd h (by simp)
    | some b =>
      rw [hb] at h
      obtain ⟨cs, hcs, h1, h2⟩ := ih b h
      refine ⟨r.children.dropLast ++ [b.setChildren cs], ?_, ?_, fun hf => ?_⟩
      · rw [walkCld, hb]; simp only [hcs]
      · rw [hasChain]; simpa using h1
      · rw [hasChain]; simpa using h2 hf

theorem walkNod_of_hasChain (f : Node → Node) (k : Nat) (r : Node)
    (h : hasChain k r = true) :
    ∃ r1, walkNod k f r = some r1 ∧ hasChain k r1 = true := by
  induction k generalizing r with
  | zero => exact ⟨f r, rfl, rfl⟩
  | succ k ih =>
    rw [hasChain] at h
    cases hb : r.children.getLast? with
    | none => rw [hb] at h; exact absurd h (by simp)
    | some b =>
      rw [hb] at h
      obtain ⟨b1, hb1, h1⟩ := ih b h
      refine ⟨r.setChildren (r.children.dropLast ++ [b1]), ?_, ?_⟩
      · rw [walkNod, hb]; simp only [hb1]
      · rw [hasChain]; simpa using h1

theorem pushElement_ne_nil (n : Node) (l : List Node) : pushElement n l ≠ [] := by
  unfold pushElement
  cases l.getLast? with
  | none => simp
  | some b => simp only []; split_ifs <;> simp

theorem scanBack_isSome (chars : Str) (y : Nat) (h : y < chars.length) :
    ∃ y1, scanBack chars y = some y1 ∧ y1 ≤ y := by
  induction y with
  | zero =>
    refine ⟨0, ?_, le_refl _⟩
    rw [scanBack, charAt_of_getElem? (List.getElem?_eq_getElem h)]
  | succ y ih =>
    rw [scanBack, charAt_of_getElem? (List.getElem?_eq_getElem h)]
    simp only []
    split_ifs
    · obtain ⟨y1, h1, h2⟩ := ih (by omega)
      exact ⟨y1, h1, by omega⟩
    · exact ⟨y + 1, rfl, le_refl _⟩

theorem scanFwd_isSome (chars : Str) (y n x : Nat) (hy : y < chars.length) (hn : x + n = y) :
    ∃ x1, scanFwd chars y n x = some x1 ∧ x1 ≤ y := by
  induction n generalizing x with
  | zero =>
    have hx : x < chars.length := by omega
    have : ¬ x < y := by omega
    refine ⟨x, ?_, by omega⟩
    rw [scanFwd, charAt_of_getElem? (List.getElem?_eq_getElem hx)]
    simp [this]
  | succ n ih =>
    have hx : x < chars.length := by omega
    rw [scanFwd, charAt_of_getElem? (List.getElem?_eq_getElem hx)]
    simp only []
    split_ifs
    · exact ih (x + 1) (by omega)
    · exact ⟨x, rfl, by omega⟩

theorem trimmedChunk_isSome (chars : Str) (len : Int) (h1 : 1 ≤ len) (h2 : len ≤ chars.length) :
    ∃ t, trimmedChunk chars len = some t := by
  have hlt : (len - 1).toNat < chars.length := by omega
  obtain ⟨y, hy, hyle⟩ := scanBack_isSome chars _ hlt
  obtain ⟨x, hx, hxle⟩ := scanFwd_isSome chars y y 0 (by omega) (by omega)
  unfold trimmedChunk
  rw [if_neg (by omega), hy]
  simp only [hx, substr]
  rw [if_pos (by omega)]
  exact ⟨_, rfl⟩

theorem not_folds_eq (flag : Bool) (c : Str) :
    (!strstr c "@brief".toList || !flag) = !folds flag c := by
  unfold folds
  cases strstr c "@brief".toList <;> cases flag <;> rfl

theorem handle_facts (e : Event) (s s1 : Document) (h : e.handle s = some s1) :
    s1.m_copyDoxygen = s.m_copyDoxygen ∧ s1.m_depth = e.depthAfter s.m_depth
      ∧ s1.root.isSome = (s.root.isSome || e.creates s.m_copyDoxygen) := by
  obtain ⟨root, flag, d⟩ := s
  cases root with
  | some b =>
    obtain ⟨b1, rfl⟩ := handle_shape e b flag d s1 h
    simp
  | none =>
    cases e with
    | startElement name atts =>
      simp only [Event.handle, start_element_handler, Option.some.injEq] at h
      subst h; simp [Event.depthAfter, Event.creates]
    | endElement name =>
      simp only [Event.handle, end_element_handler, Option.some.injEq] at h
      subst h; simp [Event.depthAfter, Event.creates]
    | characterData chars len => simp [Event.handle, character_data_handler] at h
    | comment c =>
      simp only [Event.handle, start_comment_decl_handler] at h
      split_ifs at h with hc
      · simp only [Option.some.injEq] at h
        subst h
        have : folds flag c = false := by
          rw [not_folds_eq] at hc
          simpa using hc
        simp [Event.depthAfter, Event.creates, this]
      · simp only [Option.some.injEq] at h
        subst h
        have : folds flag c = true := by
          rw [not_folds_eq] at hc
          simpa using hc
        simp [Event.depthAfter, Event.creates, this]
    | startDoctype =>
      simp only [Event.handle, doctype_decl_handler, Option.some.injEq] at h
      subst h; simp [Event.depthAfter, Event.creates]
    | endDoctype =>
      simp only [Event.handle, doctype_decl_handler, Option.some.injEq] at h
      subst h; simp [Event.depthAfter, Event.creates]

theorem walkSteps_le_succ (d : Int) : walkSteps (d + 1) ≤ walkSteps d + 1 := by
  unfold walkSteps; omega

theorem walkSteps_pred_le (d : Int) : walkSteps (d - 1) ≤ walkSteps d := by
  unfold walkSteps; omega

theorem walkSteps_of_le_one (d : Int) (h : d ≤ 1) : walkSteps d = 0 := by
  unfold walkSteps; omega

theorem handle_inv (e : Event) (s s1 : Document) (hinv : ChainInv s)
    (h : e.handle s = some s1) : ChainInv s1 := by
  obtain ⟨root, flag, d⟩ := s
  cases root with
  | none =>
    simp only [ChainInv] at hinv
    cases e with
    | startElement name atts =>
      simp only [Event.handle, start_element_handler, Option.some.injEq] at h
      subst h
      simp only [ChainInv, walkSteps_of_le_one (d + 1) (by omega), hasChain]
    | endElement name =>
      simp only [Event.handle, end_element_handler, Option.some.injEq] at h
      subst h
      simp only [ChainInv]; omega
    | characterData chars len => simp [Event.handle, character_data_handler] at h
    | comment c =>
      simp only [Event.handle, start_comment_decl_handler] at h
      split_ifs at h
      · simp only [Option.some.injEq] at h
        subst h; exact hinv
      · simp only [Option.some.injEq] at h
        subst h
        simp only [ChainInv, walkSteps_of_le_one d (by omega), hasChain]
    | startDoctype =>
      simp only [Event.handle, doctype_decl_handler, Option.some.injEq] at h
      subst h; exact hinv
    | endDoctype =>
      simp only [Event.handle, doctype_decl_handler, Option.some.injEq] at h
      subst h; exact hinv
  | some r =>
    simp only [ChainInv] at hinv
    cases e with
    | startElement name atts =>
      obtain ⟨cs, hcs, _, h2⟩ :=
        walkCld_of_hasChain (pushElement (Node.new name (some atts))) _ r hinv
      simp only [Event.handle, start_element_handler, hcs, Option.some.injEq] at h
      subst h
      exact hasChain_le (walkSteps_le_succ d) _ (h2 (pushElement_ne_nil _))
    | endElement name =>
      simp only [Event.handle, end_element_handler, Option.some.injEq] at h
      subst h
      exact hasChain_le (walkSteps_pred_le d) _ hinv
    | characterData chars len =>
      simp only [Event.handle, character_data_handler] at h
      split at h
      · exact absurd h (by simp)
      · rename_i text _
        obtain ⟨r1, hr1, h1⟩ := walkNod_of_hasChain (fun nod => nod.setCdata text) _ r hinv
        simp only [hr1, Option.some.injEq] at h
        subst h
        exact h1
    | comment c =>
      simp only [Event.handle, start_comment_decl_handler] at h
      split_ifs at h
      · simp only [Option.some.injEq] at h
        subst h; exact hinv
      · obtain ⟨cs, hcs, h1, _⟩ := walkCld_of_hasChain
          (fun cld => cld ++ [(Node.new docTag none).setCdata (docText c)]) _ r hinv
        simp only [hcs, Option.some.injEq] at h
        subst h
        exact h1
    | startDoctype =>
      simp only [Event.handle, doctype_decl_handler, Option.some.injEq] at h
      subst h; exact hinv
    | endDoctype =>
      simp only [Event.handle, doctype_decl_handler, Option.some.injEq] at h
      subst h; exact hinv

theorem handle_isSome (e : Event) (s : Document) (hinv : ChainInv s)
    (hcd : ∀ chars len, e = Event.characterData chars len →
      s.root.isSome = true ∧ 1 ≤ len ∧ len ≤ chars.length) :
    ∃ s1, e.handle s = some s1 := by
  obtain ⟨root, flag, d⟩ := s
  cases e with
  | startElement name atts =>
    cases root with
    | none => exact ⟨_, rfl⟩
    | some r =>
      obtain ⟨cs, hcs, _, _⟩ :=
        walkCld_of_hasChain (pushElement (Node.new name (some atts))) _ r hinv
      simp only [Event.handle, start_element_handler, hcs]
      exact ⟨_, rfl⟩
  | endElement name => exact ⟨_, rfl⟩
  | characterData chars len =>
    obtain ⟨hr, h1, h2⟩ := hcd chars len rfl
    cases root with
    | none => simp at hr
    | some r =>
      obtain ⟨t, ht⟩ := trimmedChunk_isSome chars len h1 h2
      obtain ⟨r1, hr1, _⟩ := walkNod_of_hasChain (fun nod => nod.setCdata t) _ r hinv
      simp only [Event.handle, character_data_handler, ht, hr1]
      exact ⟨_, rfl⟩
  | comment c =>
    simp only [Event.handle, start_comment_decl_handler]
    split_ifs
    · exact ⟨_, rfl⟩
    · cases root with
      | none => exact ⟨_, rfl⟩
      | some r =>
        obtain ⟨cs, hcs, _, _⟩ := walkCld_of_hasChain
          (fun cld => cld ++ [(Node.new docTag none).setCdata (docText c)]) _ r hinv
        simp only [hcs]
        exact ⟨_, rfl⟩
  | startDoctype => exact ⟨_, rfl⟩
  | endDoctype => exact ⟨_, rfl⟩

theorem runEvents_inv (es : List Event) (s s1 : Document) (hinv : ChainInv s)
    (h : runEvents s es = some s1) : ChainInv s1 := by
  induction es generalizing s with
  | nil => simp only [runEvents, Option.some.injEq] at h; subst h; exact hinv
  | cons e es ih =>
    simp only [runEvents] at h
    cases he : e.handle s with
    | none => simp [he] at h
    | some s2 =>
      simp only [he] at h
      exact ih s2 (handle_inv e s s2 hinv he) h

theorem reachable_inv (s : Document) (h : Reachable s) : ChainInv s := by
  obtain ⟨flag, es, hes⟩ := h
  exact runEvents_inv es _ s (by simp [ChainInv, Document.new]) hes

theorem runEvents_facts (es : List Event) (s s1 : Document) (h : runEvents s es = some s1) :
    s1.m_copyDoxygen = s.m_copyDoxygen ∧ s1.m_depth = openAfter s.m_depth es
      ∧ s1.root.isSome = (s.root.isSome || es.any (Event.creates s.m_copyDoxygen)) := by
  induction es generalizing s with
  | nil =>
    simp only [runEvents, Option.some.injEq] at h
    subst h; simp [openAfter]
  | cons e es ih =>
    simp only [runEvents] at h
    cases he : e.handle s with
    | none => simp [he] at h
    | some s2 =>
      simp only [he] at h
      obtain ⟨a1, a2, a3⟩ := handle_facts e s s2 he
      obtain ⟨b1, b2, b3⟩ := ih s2 h
      refine ⟨b1.trans a1, ?_, ?_⟩
      · rw [b2, a2]; rfl
      · rw [b3, a3, a1, List.any_cons, Bool.or_assoc]

/-- On the event prefixes of a well-formedness-checking source every callback is defined. -/
theorem runEvents_wellNested (es : List Event) (s : Document) (opened : Nat) (rootSeen : Bool)
    (hinv : ChainInv s) (hd : s.m_depth = opened) (hroot : 1 ≤ opened → s.root.isSome = true)
    (h : wellNested opened rootSeen es = true) :
    ∃ s1, runEvents s es = some s1 := by
  induction es generalizing s opened rootSeen with
  | nil => exact ⟨s, rfl⟩
  | cons e es ih =>
    have hdef : ∃ s2, e.handle s = some s2 := by
      apply handle_isSome e s hinv
      intro chars len he
      subst he
      simp only [wellNested, Bool.and_eq_true, decide_eq_true_eq] at h
      exact ⟨hroot h.1.1.1, h.1.1.2, h.1.2⟩
    obtain ⟨s2, hs2⟩ := hdef
    obtain ⟨_, f2, f3⟩ := handle_facts e s s2 hs2
    have hinv2 := handle_inv e s s2 hinv hs2
    simp only [runEvents, hs2]
    cases e with
    | startElement name atts =>
      simp only [wellNested, Bool.and_eq_true] at h
      refine ih s2 (opened + 1) true hinv2 ?_ ?_ h.2
      · rw [f2, hd]; simp [Event.depthAfter]
      · intro _; rw [f3]; simp [Event.creates]
    | endElement name =>
      simp only [wellNested, Bool.and_eq_true, decide_eq_true_eq] at h
      refine ih s2 (opened - 1) rootSeen hinv2 ?_ ?_ h.2
      · rw [f2, hd]; simp only [Event.depthAfter]; omega
      · intro h1; rw [f3, hroot (by omega)]; rfl
    | characterData chars len =>
      simp only [wellNested, Bool.and_eq_true, decide_eq_true_eq] at h
      refine ih s2 opened rootSeen hinv2 ?_ ?_ h.2
      · rw [f2, hd]; rfl
      · intro h1; rw [f3, hroot h1]; rfl
    | comment c =>
      simp only [wellNested] at h
      refine ih s2 opened rootSeen hinv2 ?_ ?_ h
      · rw [f2, hd]; rfl
      · intro h1; rw [f3, hroot h1]; rfl
    | startDoctype =>
      simp only [wellNested] at h
      refine ih s2 opened rootSeen hinv2 ?_ ?_ h
      · rw [f2, hd]; rfl
      · intro h1; rw [f3, hroot h1]; rfl
    | endDoctype =>
      simp only [wellNested] at h
      refine ih s2 opened rootSeen hinv2 ?_ ?_ h
      · rw [f2, hd]; rfl
      · intro h1; rw [f3, hroot h1]; rfl

theorem readCld_of_hasChain (k : Nat) (r : Node) (h : hasChain k r = true) :
    ∃ cs, readCld k r.children = some cs := by
  induction k generalizing r with
  | zero => exact ⟨_, rfl⟩
  | succ k ih =>
    rw [hasChain] at h
    cases hb : r.children.getLast? with
    | none => rw [hb] at h; exact absurd h (by simp)
    | some b =>
      rw [hb] at h
      obtain ⟨cs, hcs⟩ := ih b h
      exact ⟨cs, by rw [readCld, hb]; exact hcs⟩

theorem walkCld_read (f : List Node → List Node) (k : Nat) (l cs : List Node)
    (h : readCld k l = some cs) :
    ∃ l1, walkCld k f l = some l1 ∧ readCld k l1 = some (f cs) := by
  induction k generalizing l with
  | zero =>
    simp only [readCld, Option.some.injEq] at h
    subst h
    exact ⟨_, rfl, rfl⟩
  | succ k ih =>
    rw [readCld] at h
    cases hb : l.getLast? with
    | none => rw [hb] at h; exact absurd h (by simp)
    | some b =>
      rw [hb] at h
      obtain ⟨l1, h1, h2⟩ := ih b.children h
      refine ⟨l.dropLast ++ [b.setChildren l1], ?_, ?_⟩
      · rw [walkCld, hb]; simp only [h1]
      · rw [readCld]; simpa using h2

theorem walkCld_walkCld (f g : List Node → List Node) (k : Nat) (l l1 : List Node)
    (h : walkCld k f l = some l1) :
    walkCld k g l1 = walkCld k (fun cld => g (f cld)) l := by
  induction k generalizing l l1 with
  | zero =>
    simp only [walkCld, Option.some.injEq] at h
    subst h; rfl
  | succ k ih =>
    rw [walkCld] at h
    cases hb : l.getLast? with
    | none => rw [hb] at h; exact absurd h (by simp)
    | some b =>
      rw [hb] at h
      cases hw : walkCld k f b.children with
      | none => simp only [hw] at h; exact absurd h (by simp)
      | some cs =>
        simp only [hw, Option.some.injEq] at h
        subst h
        have := ih b.children cs hw
        rw [walkCld_concat, Node.children_setChildren, this]
        conv_rhs => rw [walkCld, hb]
        cases hw2 : walkCld k (fun cld => g (f cld)) b.children <;> simp [hw2]

theorem pushElement_after_doc (n : Node) (text : Str) (cld : List Node) :
    pushElement n (cld ++ [(Node.new docTag none).setCdata text])
      = cld ++ [n.setDoc text] := by
  unfold pushElement
  rw [List.getLast?_concat]
  simp only [List.dropLast_concat]
  rw [if_pos (by rfl)]
  rfl

@[simp] theorem docLast_setCdata (n : Node) (t : Str) : docLast (n.setCdata t) = docLast n := by
  cases n; simp [Node.setCdata, docLast]

@[simp] theorem docLast_setDoc (n : Node) (t : Str) : docLast (n.setDoc t) = docLast n := by
  cases n; simp [Node.setDoc, docLast]

@[simp] theorem docLast_new (name : Str) (a : Option (List (Str × Str))) :
    docLast (Node.new name a) = true := by
  cases a <;> simp [Node.new, docLast, docLastList]

@[simp] theorem Node.name_setCdata (n : Node) (t : Str) : (n.setCdata t).name = n.name := by
  cases n; rfl

@[simp] theorem Node.name_setDoc (n : Node) (t : Str) : (n.setDoc t).name = n.name := by
  cases n; rfl

@[simp] theorem Node.m_attrs_setChildren (n : Node) (cs : List Node) :
    (n.setChildren cs).m_attrs = n.m_attrs := by cases n; rfl

@[simp] theorem Node.m_attrs_setCdata (n : Node) (t : Str) :
    (n.setCdata t).m_attrs = n.m_attrs := by cases n; rfl

theorem eq_dropLast_concat {l : List Node} {b : Node} (h : l.getLast? = some b) :
    l = l.dropLast ++ [b] :=
  (List.dropLast_append_getLast? b h).symm

@[simp] theorem Node.setCdata_setCdata (n : Node) (t t1 : Str) :
    (n.setCdata t).setCdata t1 = n.setCdata t1 := by cases n; rfl

@[simp] theorem Node.setCdata_cdata (n : Node) : n.setCdata n.cdata = n := by cases n; rfl

theorem sameShape_name (c c1 : Node) (h : sameShape c c1 = true) : c1.name = c.name := by
  cases c
  simp only [sameShape, Bool.and_eq_true, decide_eq_true_eq] at h
  exact h.1.1.symm

theorem sameShape_mk (name : Str) (m_attrs : Attributes) (children cs1 : List Node)
    (cdata doc t d : Str) (h : sameShapeList children cs1 = true) :
    sameShape (Node.mk name m_attrs children cdata doc) (Node.mk name m_attrs cs1 t d) = true := by
  simp [sameShape, Node.name, Node.m_attrs, Node.children, h]

theorem runEvents_start_plain (X c : Node) (flag : Bool)
    (hX : ∀ b, X.children.getLast? = some b → b.name ≠ docTag) :
    runEvents ⟨some X, flag, 1⟩ [Event.startElement c.name c.m_attrs.entries]
      = some ⟨some (X.setChildren (X.children ++ [Node.mk c.name c.m_attrs [] [] []])), flag, 2⟩ := by
  simp only [runEvents, Event.handle, start_element_handler, walkSteps, sub_self,
    Int.toNat_zero, walkCld, pushElement_plain _ _ hX, Node.new_entries, Int.reduceAdd]

theorem runEvents_end (root : Option Node) (flag : Bool) (d : Int) (name : Str) :
    runEvents ⟨root, flag, d⟩ [Event.endElement name] = some ⟨root, flag, d - 1⟩ := by
  simp only [runEvents, Event.handle, end_element_handler]

theorem renderAll_append (a b : List Token) : renderAll (a ++ b) = renderAll a ++ renderAll b := by
  induction a with
  | nil => rfl
  | cons t ts ih => simp [renderAll, ih]

theorem attrsLoop_append (l : List (Str × Str)) (x y : Str) :
    attrsLoop l (x ++ y) = x ++ attrsLoop l y := by
  induction l generalizing y with
  | nil => rfl
  | cons a r ih =>
    obtain ⟨k, v⟩ := a
    simp only [attrsLoop, List.append_assoc, ih]

theorem renderAll_indentToken (depth : Nat) :
    renderAll (indentToken depth) = List.replicate (depth * 2) ' ' := by
  unfold indentToken
  split_ifs with h
  · subst h; rfl
  · simp [renderAll, Token.render]

mutual
theorem raw_xml_eq_tokens :
    ∀ (T : Node) (xml : Str) (depth : Nat),
      Node._raw_xml T xml depth
        = (xml ++ renderAll (indentToken depth ++ elementTokens depth T
            ++ [Token.text "\n".toList]), depth)
  | .mk name m_attrs children cdata doc, xml, depth => by
    have hk := raw_xml_children_eq_tokens children
    have e1 : "/>\n".toList = "/>".toList ++ "\n".toList := rfl
    have e2 : ">\n".toList = ">".toList ++ "\n".toList := rfl
    simp only [Node._raw_xml, elementTokens, renderAll_append, renderAll_indentToken, hk]
    by_cases h1 : cdata.length = 0 ∧ children.length = 0
    · simp only [h1, and_self, if_true, renderAll, Token.render, attrsLoop_append,
        List.append_assoc, List.append_nil, e1]
    · simp only [h1, if_false]
      by_cases h2 : children.length ≠ 0
      · by_cases h3 : cdata.length ≠ 0
        · simp only [h2, h3, if_true, renderAll_append, renderAll, Token.render,
            attrsLoop_append, List.append_assoc, List.append_nil, renderAll_indentToken,
            Nat.add_sub_cancel, ne_eq, not_false_eq_true, List.append_eq, List.nil_append, e2]
        · simp only [h2, h3, if_true, if_false, renderAll_append, renderAll, Token.render,
            attrsLoop_append, List.append_assoc, List.append_nil, renderAll_indentToken,
            Nat.add_sub_cancel, ne_eq, not_false_eq_true, List.nil_append, List.append_eq, e2]
      · by_cases h3 : cdata.length ≠ 0
        · simp only [h2, h3, if_true, if_false, renderAll_append, renderAll, Token.render,
            attrsLoop_append, List.append_assoc, List.append_nil, ne_eq, not_false_eq_true,
            List.append_eq, List.nil_append, e2]
        · exact absurd ⟨not_not.1 h3, not_not.1 h2⟩ h1
theorem raw_xml_children_eq_tokens :
    ∀ (cs : List Node) (xml : Str) (depth : Nat),
      Node._raw_xml_children cs xml depth = (xml ++ renderAll (siblingTokens depth cs), depth)
  | [], xml, depth => by simp [Node._raw_xml_children, siblingTokens, renderAll]
  | c :: cs, xml, depth => by
    simp only [Node._raw_xml_children, siblingTokens, raw_xml_eq_tokens c,
      raw_xml_children_eq_tokens cs, renderAll_append, List.append_assoc]
end

/-- The text `to_xml` returns for a node is the characters of its tokens followed by a
newline. -/
theorem to_xml_eq_tokens (T : Node) :
    T.to_xml = renderAll (elementTokens 0 T) ++ "\n".toList := by
  unfold Node.to_xml
  rw [raw_xml_eq_tokens]
  simp [indentToken, renderAll_append, renderAll, Token.render]

/-! ## Tree construction -/

/-- C1: for every tree `T` in which no node is tagged "doc", every documentation string is empty
and every text is empty or has neither leading nor trailing whitespace, the callbacks fed with
the flat event sequence of `T`, from the rootless state at depth 0, end with the root equal to
`T` and the depth back at 0. This holds whatever the buffer holds behind each text (`rest`) and
whether or not documentation folding is enabled. -/
theorem hierarchy_reconstruction (T : Node) (rest : Node → Str) (copyDoxygen : Bool)
    (h : T.all plainNode = true) :
    runEvents (Document.new copyDoxygen) (flatEvents rest T) = some ⟨some T, copyDoxygen, 0⟩ := by
  rw [flatEvents_eq]
  simp only [runEvents, List.cons_append, Event.handle, start_element_handler, Document.new,
    Node.new_entries, List.append_eq]
  rw [runEvents_append]
  simp only [zero_add]
  rw [runEvents_flatBody rest copyDoxygen T h]
  simp [runEvents, Event.handle, end_element_handler]

/-- C1 at a concrete tree: `<a x="1">hi<b/><c>t</c></a>`, with `</` behind every text. -/
theorem hierarchy_reconstruction_witness :
    Node.all plainNode
        (Node.mk "a".toList (Attributes.empty.assign "x".toList "1".toList)
          [Node.mk "b".toList Attributes.empty [] [] [],
           Node.mk "c".toList Attributes.empty [] "t".toList []] "hi".toList []) = true
      ∧ runEvents (Document.new true)
          (flatEvents (fun _ => "</".toList)
            (Node.mk "a".toList (Attributes.empty.assign "x".toList "1".toList)
              [Node.mk "b".toList Attributes.empty [] [] [],
               Node.mk "c".toList Attributes.empty [] "t".toList []] "hi".toList []))
        = some ⟨some (Node.mk "a".toList (Attributes.empty.assign "x".toList "1".toList)
              [Node.mk "b".toList Attributes.empty [] [] [],
               Node.mk "c".toList Attributes.empty [] "t".toList []] "hi".toList []), true, 0⟩ :=
  ⟨by decide, hierarchy_reconstruction _ _ _ (by decide)⟩

/-! ## Queries and attributes -/

theorem Node.indexLoop_eq_filter (key : Str) (cs result : List Node) :
    Node.indexLoop key cs result = result ++ cs.filter (fun c => decide (c.name = key)) := by
  induction cs generalizing result with
  | nil => simp [Node.indexLoop]
  | cons c cs ih =>
    unfold Node.indexLoop
    by_cases h : c.name = key
    · simp [h, ih]
    · simp [h, ih]

theorem Nodes.indexLoop_eq_flatten (key : Str) (ns result : List Node) :
    Nodes.indexLoop key ns result = result ++ (ns.map (fun n => n.index key)).flatten := by
  induction ns generalizing result with
  | nil => simp [Nodes.indexLoop]
  | cons n ns ih => simp [Nodes.indexLoop, ih]

/-- Whatever the node and the key, `set(key, "")` erases the entry of the key `""` (the value),
not the entry of `key`. -/
theorem Node.set_empty_erases_value (n : Node) (key : Str) :
    (n.set key []).m_attrs = n.m_attrs.erase [] := by
  cases n; rfl

/-- C8 (evaluation at the failing input): on the node `<a x="1"/>`, `set("x", "")` leaves the
attribute map as it was, the key `x` is still present and `get("x")` still returns `"1"`,
where the claim has the key absent and `get` returning the empty string. -/
theorem Node.set_empty_keeps_key :
    ((Node.new "a".toList (some [("x".toList, "1".toList)])).set "x".toList []).m_attrs.entries
        = [("x".toList, "1".toList)]
      ∧ ((Node.new "a".toList (some [("x".toList, "1".toList)])).set "x".toList
          []).m_attrs.contains "x".toList = true
      ∧ ((Node.new "a".toList (some [("x".toList, "1".toList)])).set "x".toList []).get "x".toList
        = "1".toList := by
  decide

/-- C9: for a non-empty key, `Node::operator[]` returns exactly the children of the node whose
tag equals the key, in child order: the children list filtered by `name = key`. Hence the result
is a sub-list of the children (each matching child once, no deeper descendant, document order) and
every node in it is a direct child with the tag asked for. The method is embedded as a function
of the node, which it leaves as it is. -/
theorem Node.index_eq_filter (n : Node) (key : Str) (hkey : key ≠ []) :
    n.index key = n.children.filter (fun c => decide (c.name = key))
      ∧ (n.index key).Sublist n.children
      ∧ ∀ m ∈ n.index key, m ∈ n.children ∧ m.name = key := by
  have h : n.index key = n.children.filter (fun c => decide (c.name = key)) := by
    unfold Node.index
    rw [if_neg (by simpa using hkey), Node.indexLoop_eq_filter]
    rfl
  refine ⟨h, ?_, ?_⟩
  · rw [h]; exact List.filter_sublist _
  · intro m hm
    rw [h, List.mem_filter] at hm
    exact ⟨hm.1, by simpa using hm.2⟩

/-- C9 at a concrete node: the children `b`, `c`, `b` of `a`, queried for `b`. -/
theorem Node.index_eq_filter_witness :
    "b".toList ≠ []
      ∧ (Node.mk "a".toList Attributes.empty
          [Node.mk "b".toList Attributes.empty [Node.mk "b".toList Attributes.empty [] [] []] [] [],
           Node.mk "c".toList Attributes.empty [] [] [],
           Node.mk "b".toList Attributes.empty [] "t".toList []] [] []).index "b".toList
        = [Node.mk "b".toList Attributes.empty [Node.mk "b".toList Attributes.empty [] [] []] [] [],
           Node.mk "b".toList Attributes.empty [] "t".toList []] :=
  ⟨by decide,
    ((Node.index_eq_filter _ "b".toList (by decide)).1).trans rfl⟩

/-- C10: `Nodes::operator[]` is the concatenation of the per-node query results, in collection
order, and therefore distributes over the concatenation of collections. -/
theorem Nodes.index_eq_flatten (ns : List Node) (key : Str) :
    Nodes.index ns key = (ns.map (fun n => n.index key)).flatten
      ∧ ∀ ms : List Node, Nodes.index (ns ++ ms) key = Nodes.index ns key ++ Nodes.index ms key := by
  have h : ∀ l : List Node, Nodes.index l key = (l.map (fun n => n.index key)).flatten := by
    intro l
    unfold Nodes.index
    rw [Nodes.indexLoop_eq_flatten]
    rfl
  refine ⟨h ns, fun ms => ?_⟩
  rw [h, h, h, List.map_append, List.flatten_append]

/-! ## Character data -/

/-- C5 (evaluation at the failing input): while `<a>` is open, the chunk `"  ab  "` (six
characters, the buffer ending right after it) is stored as `"ab  "`: the leading whitespace is
removed, the trailing whitespace is not, where the claim has the text `"ab"`. -/
theorem character_data_keeps_trailing_space :
    trimmedChunk "  ab  ".toList 6 = some "ab  ".toList
      ∧ character_data_handler ⟨some (Node.new "a".toList (some [])), false, 1⟩ "  ab  ".toList 6
        = some ⟨some ((Node.new "a".toList (some [])).setCdata "ab  ".toList), false, 1⟩ := by
  exact ⟨rfl, rfl⟩

/-- C6 (evaluation at the failing input): while `<a>` is open, the whitespace-only chunk
`"\n  "` is stored as the one-character text `"\n"`, where the claim has the empty string. -/
theorem character_data_keeps_one_space :
    trimmedChunk "\n  ".toList 3 = some "\n".toList
      ∧ character_data_handler ⟨some (Node.new "a".toList (some [])), false, 1⟩ "\n  ".toList 3
        = some ⟨some ((Node.new "a".toList (some [])).setCdata "\n".toList), false, 1⟩ := by
  exact ⟨rfl, rfl⟩

/-! ## Documentation comments and failed parses -/

/-- What the two callbacks do at the vector they locate: in every state the callbacks can reach
in which a root exists, a documentation comment (it contains "@brief" and folding is enabled)
followed at once by an element-open appends exactly one node to the vector the last-child walk
reaches, whether or not that is the children vector of the open element: the comment appends a
"doc" pseudo-node holding the normalized text, the element-open replaces it by the new element,
whose documentation is that text. The children that were there before are unchanged, the rest
of the tree is unchanged, and the depth goes up by one. -/
theorem doc_comment_folds_into_next_element (s : Document) (r : Node) (comment name : Str)
    (atts : List (Str × Str)) (hreach : Reachable s) (hroot : s.root = some r)
    (hfold : folds s.m_copyDoxygen comment = true) :
    ∃ cs s1 s2,
      s.currentChildren = some cs
      ∧ start_comment_decl_handler s comment = some s1
      ∧ s1.m_depth = s.m_depth
      ∧ s1.currentChildren = some (cs ++ [(Node.new docTag none).setCdata (docText comment)])
      ∧ start_element_handler s1 name atts = some s2
      ∧ s2.m_depth = s.m_depth + 1
      ∧ Document.currentChildren { s2 with m_depth := s.m_depth }
          = some (cs ++ [(Node.new name (some atts)).setDoc (docText comment)])
      ∧ s2.root = (walkCld (walkSteps s.m_depth)
          (fun cld => cld ++ [(Node.new name (some atts)).setDoc (docText comment)])
          r.children).map r.setChildren := by
  have hinv := reachable_inv s hreach
  obtain ⟨root, flag, d⟩ := s
  simp only at hroot hfold
  subst hroot
  simp only [ChainInv] at hinv
  obtain ⟨cs, hcs⟩ := readCld_of_hasChain _ r hinv
  obtain ⟨l1, hl1, hr1⟩ := walkCld_read
    (fun cld => cld ++ [(Node.new docTag none).setCdata (docText comment)]) _ _ _ hcs
  obtain ⟨l2, hl2, hr2⟩ := walkCld_read
    (fun cld => cld ++ [(Node.new name (some atts)).setDoc (docText comment)]) _ _ _ hcs
  have hpush : walkCld (walkSteps d) (pushElement (Node.new name (some atts))) l1 = some l2 := by
    rw [walkCld_walkCld _ _ _ _ _ hl1]
    simp only [pushElement_after_doc]
    exact hl2
  have hc : (!strstr comment "@brief".toList || !flag) = false := by
    rw [not_folds_eq, hfold]; rfl
  refine ⟨cs, ⟨some (r.setChildren l1), flag, d⟩, ⟨some (r.setChildren l2), flag, d + 1⟩,
    ?_, ?_, rfl, ?_, ?_, rfl, ?_, ?_⟩
  · simpa [Document.currentChildren] using hcs
  · simp only [start_comment_decl_handler, hc, hl1]
    rfl
  · simpa [Document.currentChildren] using hr1
  · simp only [start_element_handler, Node.children_setChildren, hpush,
      Node.setChildren_setChildren]
  · simpa [Document.currentChildren] using hr2
  · simp only [hl2, Option.map_some']

/-- The folding at a concrete state: `<a>` open with the child `<b/>` closed, then a comment
and `<c>`. -/
theorem doc_comment_folds_into_next_element_witness :
    Reachable ⟨some (Node.mk "a".toList Attributes.empty
        [Node.mk "b".toList Attributes.empty [] [] []] [] []), true, 1⟩
      ∧ folds true " @brief B\n text\n".toList = true
      ∧ ∃ s2, runEvents ⟨some (Node.mk "a".toList Attributes.empty
            [Node.mk "b".toList Attributes.empty [] [] []] [] []), true, 1⟩
          [Event.comment " @brief B\n text\n".toList, Event.startElement "c".toList []] = some s2
        ∧ s2.root = some (Node.mk "a".toList Attributes.empty
            [Node.mk "b".toList Attributes.empty [] [] [],
             Node.mk "c".toList Attributes.empty [] [] "    text\n".toList] [] []) := by
  refine ⟨⟨true, [Event.startElement "a".toList [], Event.startElement "b".toList [],
    Event.endElement "b".toList], rfl⟩, by decide, ?_⟩
  obtain ⟨cs, s1, s2, _, h1, _, _, h2, _, _, h3⟩ :=
    doc_comment_folds_into_next_element
      ⟨some (Node.mk "a".toList Attributes.empty
        [Node.mk "b".toList Attributes.empty [] [] []] [] []), true, 1⟩ _
      " @brief B\n text\n".toList "c".toList []
      ⟨true, [Event.startElement "a".toList [], Event.startElement "b".toList [],
        Event.endElement "b".toList], rfl⟩ rfl (by decide)
  refine ⟨s2, ?_, ?_⟩
  · simp only [runEvents, Event.handle, h1, h2]
  · rw [h3]; rfl

/-- C3 (evaluation at the failing input): with folding enabled and no root yet, the comment
` @brief Top\n text\n` followed by the first element-open `<node>` leaves the pseudo-node
"doc" as the root, holding the normalized text; the element is its only child and has no
documentation. The claim has the element as the root, with the documentation, and no "doc"
node left. -/
theorem root_comment_stays_root :
    runEvents (Document.new true)
        [Event.comment " @brief Top\n text\n".toList, Event.startElement "node".toList []]
      = some ⟨some (Node.mk docTag Attributes.empty
          [Node.mk "node".toList Attributes.empty [] [] []] "    text\n".toList []), true, 1⟩ := by
  rfl

/-- With the pseudo-node "doc" as the root, the last-child walk is one level off: for the events
of `<!-- @brief Top\n text\n --><node><interface/></node>` the element `interface` is pushed
next to `node`, not below it. -/
theorem root_comment_shifts_insertion :
    runEvents (Document.new true)
        [Event.comment " @brief Top\n text\n".toList, Event.startElement "node".toList [],
          Event.startElement "interface".toList [], Event.endElement "interface".toList,
          Event.endElement "node".toList]
      = some ⟨some (Node.mk docTag Attributes.empty
          [Node.mk "node".toList Attributes.empty [] [] [],
           Node.mk "interface".toList Attributes.empty [] [] []] "    text\n".toList []),
          true, 0⟩ := by
  rfl

/-- C4 (as stated, refuted): the events of `<a><b></a>` up to the failure are element-open `a`,
element-open `b`. `from_xml` throws the error and leaves the root present: the partial tree
`a` with the child `b`, at depth 2. -/
theorem from_xml_failure_leaves_root :
    (Document.new false).from_xml
        ⟨[Event.startElement "a".toList [], Event.startElement "b".toList []],
          some ("mismatched tag".toList, 1, 8)⟩
      = some (⟨some (Node.mk "a".toList Attributes.empty
          [Node.mk "b".toList Attributes.empty [] [] []] [] []), false, 2⟩,
        some (Error.new "mismatched tag".toList 1 8))
    ∧ ¬ ((Document.new false).from_xml
        ⟨[Event.startElement "a".toList [], Event.startElement "b".toList []],
          some ("mismatched tag".toList, 1, 8)⟩).all (fun res => res.1.root.isNone) = true := by
  refine ⟨rfl, ?_⟩
  decide

/-- C4 (amended): for every event prefix a well-formedness-checking source delivers before it
reports a failure, `from_xml` throws the `Error` built from the reported message, line and
column, and leaves the document as the callbacks built it from the rootless state at depth 0:
the depth is the number of elements still open, and the root is present exactly when the prefix
holds an element-open or a folded documentation comment. -/
theorem from_xml_failure_keeps_partial_tree (doc : Document) (events : List Event) (error : Str)
    (line column : Int) (h : wellNested 0 false events = true) :
    ∃ d, doc.from_xml ⟨events, some (error, line, column)⟩
        = some (d, some (Error.new error line column))
      ∧ runEvents ⟨none, doc.m_copyDoxygen, 0⟩ events = some d
      ∧ d.m_copyDoxygen = doc.m_copyDoxygen
      ∧ d.m_depth = openAfter 0 events
      ∧ d.root.isSome = events.any (Event.creates doc.m_copyDoxygen) := by
  obtain ⟨d, hd⟩ := runEvents_wellNested events ⟨none, doc.m_copyDoxygen, 0⟩ 0 false
    (by simp [ChainInv]) rfl (by simp) h
  obtain ⟨f1, f2, f3⟩ := runEvents_facts events _ d hd
  refine ⟨d, ?_, hd, f1, f2, by simpa using f3⟩
  simp only [Document.from_xml, hd]

/-- C4 (amended) at the events of `<a><b></a>`. -/
theorem from_xml_failure_keeps_partial_tree_witness :
    wellNested 0 false [Event.startElement "a".toList [], Event.startElement "b".toList []] = true
      ∧ ∃ d, (Document.new false).from_xml
          ⟨[Event.startElement "a".toList [], Event.startElement "b".toList []],
            some ("mismatched tag".toList, 1, 8)⟩
          = some (d, some (Error.new "mismatched tag".toList 1 8))
        ∧ d.m_depth = 2 ∧ d.root.isSome = true := by
  refine ⟨by decide, ?_⟩
  obtain ⟨d, h1, _, _, h2, h3⟩ := from_xml_failure_keeps_partial_tree (Document.new false)
    [Event.startElement "a".toList [], Event.startElement "b".toList []]
    "mismatched tag".toList 1 8 (by decide)
  exact ⟨d, h1, h2, h3⟩

theorem Nodes.selectLoop_eq_filter (attr value : Str) (ns result : List Node) :
    Nodes.selectLoop attr value ns result
      = result ++ ns.filter (fun n => decide (n.get attr = value)) := by
  induction ns generalizing result with
  | nil => simp [Nodes.selectLoop]
  | cons n ns ih =>
    unfold Nodes.selectLoop
    by_cases h : n.get attr = value
    · simp [h, ih]
    · simp [h, ih]

theorem Nodes.select_filter (ns : List Node) (attr value : Str) :
    Nodes.select ns attr value = ns.filter (fun n => decide (n.get attr = value)) := by
  unfold Nodes.select
  rw [Nodes.selectLoop_eq_filter]
  rfl

theorem Node.get_eq_nil_iff (n : Node) (attr : Str) :
    n.get attr = [] ↔ (n.m_attrs.find attr = none ∨ n.m_attrs.find attr = some []) := by
  unfold Node.get
  cases h : n.m_attrs.find attr with
  | none => simp
  | some v => simp

theorem attrsLoop_eq_attrsText (l : List (Str × Str)) (xml : Str) :
    attrsLoop l xml = xml ++ attrsText l := by
  induction l generalizing xml with
  | nil => simp [attrsLoop, attrsText]
  | cons a r ih =>
    obtain ⟨k, v⟩ := a
    simp only [attrsLoop, attrsText, ih, List.append_assoc]

/-! ## Queries on collections -/

/-- C11 (as stated, refuted): the node `<b x=""/>` has the attribute `x`, with an empty value,
and `select("x", "")` keeps it: with the value `""` the filter does not keep only the nodes
lacking the attribute. -/
theorem Nodes.select_empty_keeps_empty_valued :
    (Node.new "b".toList (some [("x".toList, [])])).m_attrs.contains "x".toList = true
      ∧ Nodes.select [Node.new "b".toList (some [("x".toList, [])])] "x".toList []
        = [Node.new "b".toList (some [("x".toList, [])])] := by
  exact ⟨by decide, rfl⟩

/-- C11 (amended): `Nodes::select(attr, value)` is exactly the sub-list of the collection made
of the nodes `n` with `n.get(attr) == value`, in their original order; it is idempotent; and with
the value `""` it keeps exactly the nodes that lack the attribute or hold it with an empty
value. -/
theorem Nodes.select_eq_filter (ns : List Node) (attr value : Str) :
    Nodes.select ns attr value = ns.filter (fun n => decide (n.get attr = value))
      ∧ (Nodes.select ns attr value).Sublist ns
      ∧ Nodes.select (Nodes.select ns attr value) attr value = Nodes.select ns attr value
      ∧ Nodes.select ns attr []
        = ns.filter (fun n =>
            decide (n.m_attrs.find attr = none ∨ n.m_attrs.find attr = some [])) := by
  refine ⟨Nodes.select_filter ns attr value, ?_, ?_, ?_⟩
  · rw [Nodes.select_filter]; exact List.filter_sublist _
  · rw [Nodes.select_filter, Nodes.select_filter, List.filter_filter]
    simp
  · rw [Nodes.select_filter]
    apply List.filter_congr
    intro n _
    simp only [Node.get_eq_nil_iff]

/-- C11 at the tree of `<a><b/><b x="1"/></a>`: the callbacks build it from its events, and
querying the collection holding `a` for `b` and then selecting `x = "1"` yields exactly the
second `b` node. -/
theorem Nodes.select_eq_filter_witness :
    runEvents (Document.new false)
        [Event.startElement "a".toList [], Event.startElement "b".toList [],
          Event.endElement "b".toList,
          Event.startElement "b".toList [("x".toList, "1".toList)],
          Event.endElement "b".toList, Event.endElement "a".toList]
      = some ⟨some (Node.mk "a".toList Attributes.empty
          [Node.mk "b".toList Attributes.empty [] [] [],
           Node.mk "b".toList (Attributes.empty.assign "x".toList "1".toList) [] [] []] [] []),
          false, 0⟩
    ∧ Nodes.select (Nodes.index [Node.mk "a".toList Attributes.empty
          [Node.mk "b".toList Attributes.empty [] [] [],
           Node.mk "b".toList (Attributes.empty.assign "x".toList "1".toList) [] [] []] [] []]
        "b".toList) "x".toList "1".toList
      = [Node.mk "b".toList (Attributes.empty.assign "x".toList "1".toList) [] [] []] :=
  ⟨rfl, ((Nodes.select_eq_filter _ "x".toList "1".toList).1).trans rfl⟩

/-- C12: the empty collection queried by tag yields the empty collection, whatever the key; and
a collection, or a single node whatever its children, queried with the empty key yields the
empty collection. The queries are total functions: there is no error to raise. -/
theorem Nodes.index_empty :
    (∀ key : Str, Nodes.index [] key = [])
      ∧ (∀ ns : List Node, Nodes.index ns [] = [])
      ∧ (∀ n : Node, n.index [] = []) := by
  refine ⟨fun key => rfl, fun ns => ?_, fun n => rfl⟩
  unfold Nodes.index
  rw [Nodes.indexLoop_eq_flatten]
  induction ns with
  | nil => rfl
  | cons n ns ih =>
    simp only [List.map_cons, List.flatten_cons, List.nil_append] at ih ⊢
    exact ih

/-! ## Serializer -/

/-- C13: a node without text and without children is rendered by `to_xml` as exactly
`<tag` followed by ` key="value"` for each attribute and `/>` with a newline; every other node
is rendered with the start tag, some content and the explicit closing tag `</tag>` with a
newline at the end. -/
theorem Node.to_xml_self_closing (n : Node) :
    (n.cdata = [] ∧ n.children = []
        ∧ n.to_xml = "<".toList ++ n.name ++ attrsText n.m_attrs.entries ++ "/>\n".toList)
      ∨ (¬ (n.cdata = [] ∧ n.children = [])
        ∧ ∃ inner : Str, n.to_xml = "<".toList ++ n.name ++ attrsText n.m_attrs.entries
            ++ ">".toList ++ inner ++ ("</".toList ++ n.name ++ ">\n".toList)) := by
  obtain ⟨name, m_attrs, children, cdata, doc⟩ := n
  have e1 : "/>\n".toList = "/>".toList ++ "\n".toList := rfl
  have e2 : ">\n".toList = ">".toList ++ "\n".toList := rfl
  rw [to_xml_eq_tokens]
  by_cases h : cdata = [] ∧ children = []
  · left
    obtain ⟨h1, h2⟩ := h
    subst h1 h2
    refine ⟨rfl, rfl, ?_⟩
    simp [elementTokens, renderAll, Token.render, attrsLoop_eq_attrsText, Node.name,
      Node.m_attrs, e1]
  · right
    refine ⟨by simpa [Node.cdata, Node.children] using h, ?_⟩
    have hc : ¬ (cdata.length = 0 ∧ children.length = 0) := by
      simpa [List.length_eq_zero] using h
    simp only [elementTokens, hc, if_false, renderAll_append, renderAll, Token.render,
      attrsLoop_eq_attrsText, Node.name, Node.m_attrs, List.append_assoc, List.append_nil, e2]
    exact ⟨renderAll (if cdata.length ≠ 0 then [Token.text cdata] else [])
      ++ renderAll (if children.length ≠ 0 then
          [Token.text "\n".toList] ++ (siblingTokens (0 + 1) children ++ indentToken 0)
        else []), by simp only [List.append_assoc]⟩

/-! ## Parsing afresh -/

/-- C17: the outcome of `from_xml` (the error thrown if any, the resulting root, the resulting
depth) does not depend on the root and the depth counter the document had before: two documents
with the same folding flag give the same outcome on the same input, which is the outcome a
freshly constructed document gives. -/
theorem from_xml_resets (root1 root2 : Option Node) (depth1 depth2 : Int) (copyDoxygen : Bool)
    (xml : ExpatRun) :
    Document.from_xml ⟨root1, copyDoxygen, depth1⟩ xml
        = Document.from_xml ⟨root2, copyDoxygen, depth2⟩ xml
      ∧ Document.from_xml ⟨root1, copyDoxygen, depth1⟩ xml
        = (Document.new copyDoxygen).from_xml xml := by
  exact ⟨rfl, rfl⟩

theorem splitNewlines_ne_nil (s : Str) : splitNewlines s ≠ [] := by
  cases s with
  | nil => simp [splitNewlines]
  | cons c r =>
    unfold splitNewlines
    split_ifs
    · simp
    · cases splitNewlines r <;> simp

theorem getlines_eq_markLines (s line : Str) :
    getlines line s
      = match splitNewlines s with
        | [] => []
        | l :: ls => markLines ((line ++ l) :: ls) := by
  induction s generalizing line with
  | nil => simp [getlines, splitNewlines, markLines]
  | cons c r ih =>
    unfold getlines splitNewlines
    by_cases hc : c = '\n'
    · simp only [hc, if_true, List.append_nil]
      rw [ih []]
      cases hs : splitNewlines r with
      | nil => exact absurd hs (splitNewlines_ne_nil r)
      | cons l ls => simp [markLines]
    · simp only [hc, if_false]
      rw [ih (line ++ [c])]
      cases hs : splitNewlines r with
      | nil => exact absurd hs (splitNewlines_ne_nil r)
      | cons l ls => simp

theorem docLoop_out (first : Bool) (L : List (Str × Bool)) (out : Str) :
    docLoop first L out = out ++ docLoop first L [] := by
  induction L generalizing first out with
  | nil => simp [docLoop]
  | cons a L ih =>
    obtain ⟨l, eof⟩ := a
    simp only [docLoop]
    split_ifs
    · exact ih false out
    · rw [ih first, ih first ([] ++ _ ++ _ ++ _)]; simp
    · rw [ih first, ih first ([] ++ _ ++ _)]; simp

theorem docLoop_emit (l : Str) (L : List (Str × Bool)) :
    docLoop false ((l, false) :: L) [] = emitDocLine (l.dropWhile isspace) ++ docLoop false L [] := by
  simp only [docLoop, Bool.false_or, Bool.false_and, Bool.false_eq_true, if_false]
  by_cases h : (!(List.dropWhile isspace l).isEmpty && (List.dropWhile isspace l).head? != some '@') = true
  · rw [if_pos h, docLoop_out]
    have h' : List.dropWhile isspace l ≠ [] ∧ (List.dropWhile isspace l).head? ≠ some '@' := by
      simpa [List.isEmpty_iff] using h
    simp only [emitDocLine, if_pos h', DefaultDocIndentation, List.nil_append, List.append_assoc]
    rfl
  · rw [if_neg h, docLoop_out]
    have h' : ¬ (List.dropWhile isspace l ≠ [] ∧ (List.dropWhile isspace l).head? ≠ some '@') := by
      simpa [List.isEmpty_iff] using h
    simp only [emitDocLine, if_neg h', List.nil_append, List.append_assoc]
    rfl

theorem docLoop_last (l : Str) :
    docLoop false (markLines [l]) []
      = if l.dropWhile isspace = [] then [] else emitDocLine (l.dropWhile isspace) := by
  unfold markLines
  by_cases hl : l = []
  · subst hl; simp [docLoop]
  · have : l.isEmpty = false := by simpa [List.isEmpty_iff] using hl
    simp only [this, Bool.false_eq_true, if_false, docLoop, Bool.false_or, Bool.true_and]
    by_cases hs : l.dropWhile isspace = []
    · simp [hs]
    · have hs' : (List.dropWhile isspace l).isEmpty = false := by simpa [List.isEmpty_iff] using hs
      rw [if_neg (by simp [hs']), if_neg hs]
      by_cases h : (!(List.dropWhile isspace l).isEmpty
          && (List.dropWhile isspace l).head? != some '@') = true
      · rw [if_pos h]
        have h' : List.dropWhile isspace l ≠ [] ∧ (List.dropWhile isspace l).head? ≠ some '@' := by
          simpa [List.isEmpty_iff] using h
        simp only [docLoop, emitDocLine, if_pos h', DefaultDocIndentation, List.nil_append,
          List.append_assoc]
        rfl
      · rw [if_neg h]
        have h' : ¬ (List.dropWhile isspace l ≠ [] ∧ (List.dropWhile isspace l).head? ≠ some '@') := by
          simpa [List.isEmpty_iff] using h
        simp only [docLoop, emitDocLine, if_neg h', List.nil_append, List.append_assoc]
        rfl

theorem withoutBlankFinal_cons (a b : Str) (ls : List Str) :
    withoutBlankFinal (a :: b :: ls) = a :: withoutBlankFinal (b :: ls) := by
  unfold withoutBlankFinal
  rw [List.getLast?_cons_cons]
  split_ifs <;> simp

theorem docLoop_markLines (R : List Str) (hR : R ≠ []) :
    docLoop false (markLines R) []
      = ((withoutBlankFinal (R.map (List.dropWhile isspace))).map emitDocLine).flatten := by
  induction R with
  | nil => exact absurd rfl hR
  | cons l R ih =>
    cases R with
    | nil =>
      rw [docLoop_last]
      by_cases hs : l.dropWhile isspace = []
      · simp [hs, withoutBlankFinal]
      · simp [hs, withoutBlankFinal]
    | cons l2 ls =>
      simp only [markLines, List.map_cons] at ih ⊢
      rw [docLoop_emit, ih (by simp), withoutBlankFinal_cons]
      simp

theorem docText_eq_spec (body : Str) : docText body = docTextSpec body := by
  unfold docText docTextSpec
  rw [getlines_eq_markLines]
  cases hs : splitNewlines body with
  | nil => exact absurd hs (splitNewlines_ne_nil body)
  | cons l ls =>
    simp only [List.nil_append]
    cases ls with
    | nil =>
      have h1 : docLoop true (markLines [l]) [] = [] := by
        unfold markLines
        split_ifs <;> simp [docLoop]
      rw [h1]
      simp only [List.map_cons, List.map_nil]
      split_ifs <;> simp
    | cons l2 ls =>
      have h1 : docLoop true (markLines (l :: l2 :: ls)) []
          = docLoop false (markLines (l2 :: ls)) [] := by
        simp [markLines, docLoop]
      rw [h1, docLoop_markLines _ (by simp)]
      have := withoutBlankFinal_cons (l.dropWhile isspace) (l2.dropWhile isspace)
        (ls.map (List.dropWhile isspace))
      simp only [withoutBlankFinal, List.map_cons] at this ⊢
      rw [this]
      simp

theorem splitNewlines_single (s : Str) (h : '\n' ∉ s) : splitNewlines s = [s] := by
  induction s with
  | nil => rfl
  | cons c r ih =>
    have hc : c ≠ '\n' := fun e => h (e ▸ List.mem_cons_self _ _)
    have hr : '\n' ∉ r := fun e => h (List.mem_cons_of_mem _ e)
    unfold splitNewlines
    rw [if_neg hc, ih hr]

theorem splitNewlines_no_newline (s : Str) : ∀ l ∈ splitNewlines s, '\n' ∉ l := by
  induction s with
  | nil => simp [splitNewlines]
  | cons c r ih =>
    unfold splitNewlines
    by_cases hc : c = '\n'
    · simp only [hc, if_true, List.mem_cons]
      rintro l (rfl | hl)
      · simp
      · exact ih l hl
    · simp only [hc, if_false]
      cases hs : splitNewlines r with
      | nil => exact absurd hs (splitNewlines_ne_nil r)
      | cons l0 ls =>
        rw [hs] at ih
        simp only [List.mem_cons]
        rintro l (rfl | hl)
        · intro hmem
          rcases List.mem_cons.1 hmem with e | e
          · exact hc e.symm
          · exact ih l0 (List.mem_cons_self _ _) e
        · exact ih l (List.mem_cons_of_mem _ hl)

theorem head_dropWhile_isspace (l : Str) (c : Char) (r : Str)
    (h : l.dropWhile isspace = c :: r) : isspace c = false := by
  induction l with
  | nil => simp at h
  | cons a l ih =>
    rw [List.dropWhile_cons] at h
    split_ifs at h with ha
    · exact ih h
    · simp only [List.cons.injEq] at h
      rw [← h.1]
      simpa using ha

theorem mem_withoutBlankFinal {l : Str} {L : List Str} (h : l ∈ withoutBlankFinal L) : l ∈ L := by
  unfold withoutBlankFinal at h
  split_ifs at h
  · exact List.mem_of_mem_dropLast h
  · exact h

theorem outDocLine_shape (l : Str) (hn : '\n' ∉ l.dropWhile isspace) :
    '\n' ∉ outDocLine (l.dropWhile isspace)
      ∧ (outDocLine (l.dropWhile isspace) = []
        ∨ (outDocLine (l.dropWhile isspace)).head? = some '@'
        ∨ ∃ c r, outDocLine (l.dropWhile isspace) = "    ".toList ++ c :: r ∧ isspace c = false) := by
  unfold outDocLine
  cases hd : l.dropWhile isspace with
  | nil => simp
  | cons c r =>
    rw [hd] at hn
    have hc := head_dropWhile_isspace l c r hd
    by_cases hat : c = '@'
    · subst hat
      refine ⟨by simpa using hn, Or.inr (Or.inl ?_)⟩
      simp
    · have hcond : (c :: r) ≠ [] ∧ (c :: r).head? ≠ some '@' := by simpa using hat
      rw [if_pos hcond]
      refine ⟨?_, Or.inr (Or.inr ⟨c, r, rfl, hc⟩)⟩
      intro hmem
      rcases List.mem_append.1 hmem with h1 | h1
      · revert h1; decide
      · exact hn h1

/-! ## Comment normalization -/

/-- C15: the documentation string the comment handler computes is the one the rule set
describes (`docTextSpec`): the body split at newlines, each line stripped of its leading
whitespace, the first line dropped, the final line dropped when it is unterminated and empty
after stripping, every remaining line emitted with a newline behind it and four spaces in front
exactly when it is not empty and does not start with `@`. A body without a newline yields the
empty string, and the string is a sequence of newline-terminated lines each of which is empty,
starts with `@`, or starts with four spaces followed by a non-whitespace character. -/
theorem docText_normalization (body : Str) :
    docText body = docTextSpec body
      ∧ ('\n' ∉ body → docText body = [])
      ∧ ∃ ls : List Str, docText body = (ls.map (fun l => l ++ "\n".toList)).flatten
          ∧ ∀ l ∈ ls, '\n' ∉ l
            ∧ (l = [] ∨ l.head? = some '@'
              ∨ ∃ c r, l = "    ".toList ++ c :: r ∧ isspace c = false) := by
  refine ⟨docText_eq_spec body, fun h => ?_, ?_⟩
  · rw [docText_eq_spec]
    unfold docTextSpec
    rw [splitNewlines_single body h]
    simp only [List.map_cons, List.map_nil]
    split_ifs <;> simp
  · rw [docText_eq_spec]
    refine ⟨((withoutBlankFinal ((splitNewlines body).map (List.dropWhile isspace))).drop 1).map
      outDocLine, ?_, ?_⟩
    · unfold docTextSpec
      simp only [List.map_map]
      rfl
    · intro l hl
      obtain ⟨line, hline, rfl⟩ := List.mem_map.1 hl
      have h1 := mem_withoutBlankFinal (List.mem_of_mem_drop hline)
      obtain ⟨seg, hseg, rfl⟩ := List.mem_map.1 h1
      have hn : '\n' ∉ seg.dropWhile isspace := fun hm =>
        splitNewlines_no_newline body seg hseg ((List.dropWhile_sublist _).subset hm)
      exact outDocLine_shape seg hn

/-- C15 at the comment body `" @brief Top\n   text here\n  @param x\n\n  "`: the first line
and the blank unterminated final line are dropped, the text line is indented, the `@param`
line and the empty line are not. -/
theorem docText_normalization_witness :
    docText " @brief Top\n   text here\n  @param x\n\n  ".toList
        = docTextSpec " @brief Top\n   text here\n  @param x\n\n  ".toList
      ∧ docText " @brief Top\n   text here\n  @param x\n\n  ".toList
        = "    text here\n@param x\n\n".toList
      ∧ docText " @brief single line ".toList = [] :=
  ⟨(docText_normalization _).1, by decide,
    (docText_normalization " @brief single line ".toList).2.1 (by decide)⟩

theorem unlines_append (a b : List Str) : unlines (a ++ b) = unlines a ++ unlines b := by
  induction a with
  | nil => rfl
  | cons l ls ih => simp [unlines, ih]

theorem indentLinesFrom_line (s rest : Str) (h : '\n' ∉ s) :
    indentLinesFrom false (s ++ "\n".toList ++ rest)
      = s ++ "\n".toList ++ indentLinesFrom true rest := by
  induction s with
  | nil => simp [indentLinesFrom]
  | cons c s ih =>
    have hc : c ≠ '\n' := fun e => h (e ▸ List.mem_cons_self _ _)
    have hs : '\n' ∉ s := fun e => h (List.mem_cons_of_mem _ e)
    have hb : (c == '\n') = false := by simpa using hc
    simp only [List.cons_append, indentLinesFrom, hb, Bool.false_eq_true, if_false,
      List.nil_append, List.cons.injEq, true_and]
    simpa using ih hs

theorem indentLines_line (s rest : Str) (h : '\n' ∉ s) :
    indentLines (s ++ "\n".toList ++ rest)
      = "  ".toList ++ s ++ "\n".toList ++ indentLines rest := by
  unfold indentLines
  cases s with
  | nil => simp [indentLinesFrom]
  | cons c s =>
    have hc : c ≠ '\n' := fun e => h (e ▸ List.mem_cons_self _ _)
    have hs : '\n' ∉ s := fun e => h (List.mem_cons_of_mem _ e)
    have hb : (c == '\n') = false := by simpa using hc
    have := indentLinesFrom_line s rest hs
    simp only [List.cons_append, indentLinesFrom, hb, if_true, List.append_assoc,
      List.append_eq] at this ⊢
    rw [this]

theorem indentLines_unlines (ls : List Str) (h : ∀ l ∈ ls, '\n' ∉ l) :
    indentLines (unlines ls) = unlines (ls.map (fun l => "  ".toList ++ l)) := by
  induction ls with
  | nil => rfl
  | cons l ls ih =>
    simp only [unlines, List.map_cons]
    rw [indentLines_line l _ (h l (List.mem_cons_self _ _)),
      ih (fun l hl => h l (List.mem_cons_of_mem _ hl))]

theorem replicate_succ_spaces (depth : Nat) :
    List.replicate ((depth + 1) * 2) ' ' = "  ".toList ++ List.replicate (depth * 2) ' ' := by
  have : (depth + 1) * 2 = depth * 2 + 1 + 1 := by ring
  rw [this, List.replicate_succ, List.replicate_succ]
  rfl

mutual
theorem nodeLines_succ :
    ∀ (T : Node) (depth : Nat),
      nodeLines (depth + 1) T = (nodeLines depth T).map (fun l => "  ".toList ++ l)
  | .mk name m_attrs children cdata doc, depth => by
    have hk := siblingLines_succ children (depth + 1)
    simp only [nodeLines]
    split_ifs
    · simp [replicate_succ_spaces]
    · simp only [hk, List.map_append, List.map_cons, List.map_nil, replicate_succ_spaces,
        List.append_assoc]
    · simp [replicate_succ_spaces]
theorem siblingLines_succ :
    ∀ (cs : List Node) (depth : Nat),
      siblingLines (depth + 1) cs = (siblingLines depth cs).map (fun l => "  ".toList ++ l)
  | [], _ => by simp [siblingLines]
  | c :: cs, depth => by
    simp only [siblingLines, List.map_append, nodeLines_succ c depth, siblingLines_succ cs depth]
end

mutual
theorem renderAll_eq_unlines :
    ∀ (T : Node) (depth : Nat),
      renderAll (indentToken depth ++ elementTokens depth T ++ [Token.text "\n".toList])
        = unlines (nodeLines depth T)
  | .mk name m_attrs children cdata doc, depth => by
    have hk := renderAll_siblings_eq_unlines children (depth + 1)
    simp only [elementTokens, nodeLines, renderAll_append, renderAll_indentToken, openTag,
      Node.name, Node.m_attrs]
    by_cases h1 : cdata.length = 0 ∧ children.length = 0
    · simp only [h1, and_self, if_true, renderAll, Token.render, attrsLoop_eq_attrsText, unlines,
        List.append_assoc, List.append_nil]
    · simp only [h1, if_false]
      by_cases h2 : children.length ≠ 0
      · by_cases h3 : cdata.length ≠ 0
        · simp only [h2, h3, if_true, renderAll_append, renderAll, Token.render, hk,
            attrsLoop_eq_attrsText, unlines, unlines_append, renderAll_indentToken,
            List.append_assoc, List.append_nil, List.nil_append, List.append_eq, ne_eq,
            not_false_eq_true, List.singleton_append]
        · have h4 : cdata = [] := List.length_eq_zero.1 (not_not.1 h3)
          subst h4
          simp only [h2, if_true, if_false, renderAll_append, renderAll, Token.render, hk,
            attrsLoop_eq_attrsText, unlines, unlines_append, renderAll_indentToken,
            List.append_assoc, List.append_nil, List.nil_append, List.append_eq, ne_eq,
            not_false_eq_true, List.singleton_append, List.length_nil, not_true_eq_false]
      · by_cases h3 : cdata.length ≠ 0
        · simp only [h2, h3, if_true, if_false, renderAll_append, renderAll, Token.render,
            attrsLoop_eq_attrsText, unlines, List.append_assoc, List.append_nil,
            List.nil_append, List.append_eq, ne_eq, not_false_eq_true]
        · exact absurd ⟨not_not.1 h3, not_not.1 h2⟩ h1
theorem renderAll_siblings_eq_unlines :
    ∀ (cs : List Node) (depth : Nat),
      renderAll (siblingTokens depth cs) = unlines (siblingLines depth cs)
  | [], _ => by simp [siblingTokens, siblingLines, renderAll, unlines]
  | c :: cs, depth => by
    simp only [siblingTokens, siblingLines, renderAll_append, unlines_append,
      renderAll_eq_unlines c depth, renderAll_siblings_eq_unlines cs depth]
end

theorem raw_xml_eq_unlines (T : Node) (xml : Str) (depth : Nat) :
    Node._raw_xml T xml depth = (xml ++ unlines (nodeLines depth T), depth) := by
  rw [raw_xml_eq_tokens, renderAll_eq_unlines]

theorem not_mem_attrsText (l : List (Str × Str))
    (h : l.all (fun kv => decide ('\n' ∉ kv.1) && decide ('\n' ∉ kv.2)) = true) :
    '\n' ∉ attrsText l := by
  induction l with
  | nil => simp [attrsText]
  | cons a r ih =>
    obtain ⟨k, v⟩ := a
    simp only [List.all_cons, Bool.and_eq_true, decide_eq_true_eq] at h
    have h1 := h.1.1
    have h2 := h.1.2
    have h3 := ih h.2
    simp only [attrsText, List.mem_append, not_or]
    repeat' constructor
    all_goals first | assumption | decide

theorem not_mem_spaces (k : Nat) : '\n' ∉ List.replicate k ' ' := by
  intro h
  have := List.eq_of_mem_replicate h
  revert this
  decide

mutual
theorem nodeLines_no_newline :
    ∀ (T : Node) (depth : Nat), T.all noNewlineNode = true →
      ∀ l ∈ nodeLines depth T, '\n' ∉ l
  | .mk name m_attrs children cdata doc, depth, h => by
    simp only [Node.all, noNewlineNode, Bool.and_eq_true, decide_eq_true_eq, Node.name,
      Node.m_attrs, Node.cdata] at h
    obtain ⟨⟨⟨hn, ha⟩, hc⟩, hkids⟩ := h
    have hk := siblingLines_no_newline children (depth + 1) hkids
    have hsp := not_mem_spaces (depth * 2)
    have hat := not_mem_attrsText m_attrs.entries ha
    have ho : '\n' ∉ openTag (.mk name m_attrs children cdata doc) := by
      simp only [openTag, List.mem_append, not_or, Node.name, Node.m_attrs]
      exact ⟨⟨by decide, hn⟩, hat⟩
    intro l hl
    simp only [nodeLines] at hl
    split_ifs at hl
    · simp only [List.mem_singleton] at hl
      subst hl
      simp only [List.mem_append, not_or]
      exact ⟨⟨hsp, ho⟩, by decide⟩
    · simp only [List.mem_append, List.mem_singleton] at hl
      rcases hl with (hl | hl) | hl
      · subst hl
        simp only [List.mem_append, not_or]
        exact ⟨⟨⟨hsp, ho⟩, by decide⟩, hc⟩
      · exact hk l hl
      · subst hl
        simp only [List.mem_append, not_or]
        exact ⟨hsp, ⟨by decide, hn⟩, by decide⟩
    · simp only [List.mem_singleton] at hl
      subst hl
      simp only [List.mem_append, not_or]
      exact ⟨⟨⟨⟨hsp, ho⟩, by decide⟩, hc⟩, ⟨by decide, hn⟩, by decide⟩
theorem siblingLines_no_newline :
    ∀ (cs : List Node) (depth : Nat), Node.allList noNewlineNode cs = true →
      ∀ l ∈ siblingLines depth cs, '\n' ∉ l
  | [], _, _ => by simp [siblingLines]
  | c :: cs, depth, h => by
    simp only [Node.allList, Bool.and_eq_true] at h
    intro l hl
    simp only [siblingLines, List.mem_append] at hl
    rcases hl with hl | hl
    · exact nodeLines_no_newline c depth h.1 l hl
    · exact siblingLines_no_newline cs depth h.2 l hl
end

theorem raw_xml_succ_eq_indentLines (T : Node) (xml : Str) (depth : Nat)
    (h : T.all noNewlineNode = true) :
    (Node._raw_xml T xml (depth + 1)).1 = xml ++ indentLines (Node._raw_xml T [] depth).1 := by
  rw [raw_xml_eq_unlines, raw_xml_eq_unlines, nodeLines_succ]
  simp only [List.nil_append]
  rw [indentLines_unlines _ (nodeLines_no_newline T depth h)]

theorem unlines_siblingLines_one (cs : List Node) (h : Node.allList noNewlineNode cs = true) :
    unlines (siblingLines 1 cs) = (cs.map (fun c => indentLines c.to_xml)).flatten := by
  induction cs with
  | nil => rfl
  | cons c cs ih =>
    simp only [Node.allList, Bool.and_eq_true] at h
    simp only [siblingLines, unlines_append, List.map_cons, List.flatten_cons, ih h.2]
    congr 1
    have := raw_xml_succ_eq_indentLines c [] 0 h.1
    rw [raw_xml_eq_unlines] at this
    simpa [Node.to_xml] using this

theorem nodeLines_with_children (n : Node) (hkids : n.children ≠ []) (depth : Nat) :
    unlines (nodeLines depth n)
      = List.replicate (depth * 2) ' ' ++ openTag n ++ ">".toList ++ n.cdata ++ "\n".toList
        ++ unlines (siblingLines (depth + 1) n.children)
        ++ (List.replicate (depth * 2) ' ' ++ ("</".toList ++ n.name ++ ">\n".toList)) := by
  obtain ⟨name, m_attrs, children, cdata, doc⟩ := n
  have e2 : ">\n".toList = ">".toList ++ "\n".toList := rfl
  have h2 : children.length ≠ 0 := by
    simpa [Node.children, List.length_eq_zero] using hkids
  have h1 : ¬ (cdata.length = 0 ∧ children.length = 0) := fun h => h2 h.2
  simp only [nodeLines]
  rw [if_neg h1, if_pos h2]
  simp only [List.append_eq, List.nil_append, unlines_append, unlines, Node.cdata, Node.children,
    Node.name, List.append_assoc, List.append_nil, List.singleton_append, List.cons_append, e2]

/-! ## Serializer layout -/

/-- C14: for a node `n` with at least one child, no tag, attribute or text in whose subtree
holds a newline, `to_xml(n)` is the start tag `<tag attrs>`, the text and a newline, then
`to_xml(c)` for each child `c` in document order with every line prefixed by two more spaces,
then `</tag>` and a newline. Rendering any node restores the depth counter; rendering `n` one
level deeper prefixes every line by two more spaces; and at nesting depth `k` the first line
starts with `2k` spaces followed by `<tag` and the closing tag stands on a line of its own with
the same `2k` spaces in front. -/
theorem Node.to_xml_layout (n : Node) (hkids : n.children ≠ [])
    (hnl : n.all noNewlineNode = true) :
    n.to_xml = openTag n ++ ">".toList ++ n.cdata ++ "\n".toList
        ++ (n.children.map (fun c => indentLines c.to_xml)).flatten
        ++ ("</".toList ++ n.name ++ ">\n".toList)
      ∧ (∀ (T : Node) (xml : Str) (k : Nat), (Node._raw_xml T xml k).2 = k)
      ∧ ∀ (k : Nat) (xml : Str),
          (Node._raw_xml n xml (k + 1)).1 = xml ++ indentLines (Node._raw_xml n [] k).1
          ∧ ∃ mid : Str, (Node._raw_xml n xml k).1
              = xml ++ (List.replicate (k * 2) ' ' ++ openTag n ++ ">".toList ++ n.cdata
                  ++ "\n".toList)
                ++ mid ++ (List.replicate (k * 2) ' ' ++ ("</".toList ++ n.name ++ ">\n".toList)) := by
  have hall : Node.allList noNewlineNode n.children = true := by
    obtain ⟨name, m_attrs, children, cdata, doc⟩ := n
    simp only [Node.all, Bool.and_eq_true] at hnl
    exact hnl.2
  refine ⟨?_, fun T xml k => by rw [raw_xml_eq_unlines], fun k xml => ⟨?_, ?_⟩⟩
  · have h0 : n.to_xml = (Node._raw_xml n [] 0).1 := rfl
    rw [h0, raw_xml_eq_unlines, nodeLines_with_children n hkids 0,
      unlines_siblingLines_one _ hall]
    simp
  · exact raw_xml_succ_eq_indentLines n xml k hnl
  · refine ⟨unlines (siblingLines (k + 1) n.children), ?_⟩
    rw [raw_xml_eq_unlines, nodeLines_with_children n hkids k]
    simp only [List.append_assoc]

/-- C14 at the tree of `<a x="1">hi<b><c/></b><d>t</d></a>`. -/
theorem Node.to_xml_layout_witness :
    (Node.mk "a".toList (Attributes.empty.assign "x".toList "1".toList)
        [Node.mk "b".toList Attributes.empty [Node.mk "c".toList Attributes.empty [] [] []] [] [],
         Node.mk "d".toList Attributes.empty [] "t".toList []] "hi".toList []).to_xml
      = "<a x=\"1\">hi\n  <b>\n    <c/>\n  </b>\n  <d>t</d>\n</a>\n".toList
    ∧ (Node.mk "a".toList (Attributes.empty.assign "x".toList "1".toList)
        [Node.mk "b".toList Attributes.empty [Node.mk "c".toList Attributes.empty [] [] []] [] [],
         Node.mk "d".toList Attributes.empty [] "t".toList []] "hi".toList []).to_xml
      = "<a x=\"1\">hi\n".toList
        ++ indentLines "<b>\n  <c/>\n</b>\n".toList ++ indentLines "<d>t</d>\n".toList
        ++ "</a>\n".toList :=
  ⟨by decide,
    ((Node.to_xml_layout
      (Node.mk "a".toList (Attributes.empty.assign "x".toList "1".toList)
        [Node.mk "b".toList Attributes.empty [Node.mk "c".toList Attributes.empty [] [] []] [] [],
         Node.mk "d".toList Attributes.empty [] "t".toList []] "hi".toList [])
      (by simp [Node.children]) (by decide)).1).trans (by decide)⟩

/-! ## Clean trees -/

theorem Node.all_eq (p : Node → Bool) (n : Node) :
    n.all p = (p n && Node.allList p n.children) := by
  cases n; simp [Node.all, Node.children]

theorem Node.allList_append (p : Node → Bool) (a b : List Node) :
    Node.allList p (a ++ b) = (Node.allList p a && Node.allList p b) := by
  induction a with
  | nil => simp [Node.allList]
  | cons c cs ih => simp [Node.allList, ih, Bool.and_assoc]

theorem Node.allList_singleton (p : Node → Bool) (n : Node) :
    Node.allList p [n] = n.all p := by
  simp [Node.allList]

@[simp] theorem cleanNode_setChildren (n : Node) (cs : List Node) :
    cleanNode (n.setChildren cs) = cleanNode n := by cases n; rfl

@[simp] theorem cleanNode_setCdata (n : Node) (t : Str) :
    cleanNode (n.setCdata t) = cleanNode n := by cases n; rfl

theorem walkCld_all (p : Node → Bool) (hp : ∀ n cs, p (n.setChildren cs) = p n)
    (f : List Node → List Node)
    (hf : ∀ l, Node.allList p l = true → Node.allList p (f l) = true) (k : Nat)
    (l l1 : List Node) (h : walkCld k f l = some l1) (hl : Node.allList p l = true) :
    Node.allList p l1 = true := by
  induction k generalizing l l1 with
  | zero =>
    simp only [walkCld, Option.some.injEq] at h
    subst h; exact hf l hl
  | succ k ih =>
    rw [walkCld] at h
    cases hb : l.getLast? with
    | none => rw [hb] at h; exact absurd h (by simp)
    | some b =>
      rw [hb] at h
      cases hw : walkCld k f b.children with
      | none => simp only [hw] at h; exact absurd h (by simp)
      | some cs =>
        simp only [hw, Option.some.injEq] at h
        subst h
        rw [eq_dropLast_concat hb, Node.allList_append, Node.allList_singleton,
          Node.all_eq] at hl
        simp only [Bool.and_eq_true] at hl
        rw [Node.allList_append, Node.allList_singleton, Node.all_eq, hp,
          Node.children_setChildren]
        simp [hl.1, hl.2.1, ih b.children cs hw hl.2.2]

theorem walkNod_all (p : Node → Bool) (hp : ∀ n cs, p (n.setChildren cs) = p n)
    (f : Node → Node) (hf : ∀ n, p (f n) = p n ∧ (f n).children = n.children) (k : Nat)
    (r r1 : Node) (h : walkNod k f r = some r1) (hr : r.all p = true) : r1.all p = true := by
  induction k generalizing r r1 with
  | zero =>
    simp only [walkNod, Option.some.injEq] at h
    subst h
    rw [Node.all_eq] at hr ⊢
    rw [(hf r).1, (hf r).2]; exact hr
  | succ k ih =>
    rw [walkNod] at h
    cases hb : r.children.getLast? with
    | none => rw [hb] at h; exact absurd h (by simp)
    | some b =>
      rw [hb] at h
      cases hw : walkNod k f b with
      | none => simp only [hw] at h; exact absurd h (by simp)
      | some b1 =>
        simp only [hw, Option.some.injEq] at h
        subst h
        rw [Node.all_eq, eq_dropLast_concat hb, Node.allList_append,
          Node.allList_singleton] at hr
        simp only [Bool.and_eq_true] at hr
        rw [Node.all_eq, hp, Node.children_setChildren, Node.allList_append,
          Node.allList_singleton]
        simp [hr.1, hr.2.1, ih b b1 hw hr.2.2]

theorem pushElement_clean (n : Node) (cld : List Node)
    (hc : Node.allList cleanNode cld = true) : pushElement n cld = cld ++ [n] := by
  apply pushElement_plain
  intro b hb
  rw [eq_dropLast_concat hb, Node.allList_append, Node.allList_singleton, Node.all_eq] at hc
  simp only [Bool.and_eq_true, cleanNode, decide_eq_true_eq] at hc
  exact hc.2.1.1

theorem all_clean_new (name : Str) (atts : List (Str × Str)) (h : name ≠ docTag) :
    (Node.new name (some atts)).all cleanNode = true := by
  simp [Node.new, Node.all, Node.allList, cleanNode, Node.name, Node.doc, h]

theorem handle_clean (e : Event) (s s1 : Document)
    (hname : ∀ name atts, e = Event.startElement name atts → name ≠ docTag)
    (hcom : ∀ c, e = Event.comment c → folds s.m_copyDoxygen c = false)
    (hinv : CleanInv s) (h : e.handle s = some s1) : CleanInv s1 := by
  obtain ⟨root, flag, d⟩ := s
  cases e with
  | startElement name atts =>
    have hn := hname name atts rfl
    cases root with
    | none =>
      simp only [Event.handle, start_element_handler, Option.some.injEq] at h
      subst h
      intro r hr
      simp only [Option.some.injEq] at hr
      subst hr
      exact all_clean_new name atts hn
    | some r0 =>
      simp only [Event.handle, start_element_handler] at h
      split at h
      · exact absurd h (by simp)
      · rename_i cs hcs
        simp only [Option.some.injEq] at h
        subst h
        intro r hr
        simp only [Option.some.injEq] at hr
        subst hr
        have h0 := hinv r0 rfl
        rw [Node.all_eq] at h0 ⊢
        simp only [Bool.and_eq_true] at h0
        rw [cleanNode_setChildren, Node.children_setChildren, h0.1, Bool.true_and]
        refine walkCld_all cleanNode cleanNode_setChildren _ (fun l hl => ?_) _ _ _ hcs h0.2
        rw [pushElement_clean _ l hl, Node.allList_append, Node.allList_singleton, hl,
          all_clean_new name atts hn]
        rfl
  | endElement name =>
    simp only [Event.handle, end_element_handler, Option.some.injEq] at h
    subst h; exact hinv
  | characterData chars len =>
    cases root with
    | none => simp [Event.handle, character_data_handler] at h
    | some r0 =>
      simp only [Event.handle, character_data_handler] at h
      split at h
      · exact absurd h (by simp)
      · split at h
        · exact absurd h (by simp)
        · rename_i text _ r1 hr1
          simp only [Option.some.injEq] at h
          subst h
          intro r hr
          simp only [Option.some.injEq] at hr
          subst hr
          exact walkNod_all cleanNode cleanNode_setChildren _ (fun n => by simp) _ _ _ hr1
            (hinv r0 rfl)
  | comment c =>
    have hc : (!strstr c "@brief".toList || !flag) = true := by
      rw [not_folds_eq, hcom c rfl]; rfl
    simp only [Event.handle, start_comment_decl_handler, hc, if_true, Option.some.injEq] at h
    subst h; exact hinv
  | startDoctype =>
    simp only [Event.handle, doctype_decl_handler, Option.some.injEq] at h
    subst h; exact hinv
  | endDoctype =>
    simp only [Event.handle, doctype_decl_handler, Option.some.injEq] at h
    subst h; exact hinv

theorem comment_ignored (s : Document) (c : Str) (h : folds s.m_copyDoxygen c = false) :
    start_comment_decl_handler s c = some s := by
  have hc : (!strstr c "@brief".toList || !s.m_copyDoxygen) = true := by
    rw [not_folds_eq, h]; rfl
  simp only [start_comment_decl_handler, hc, if_true]

theorem wellNested_of_append (p q : List Event) (opened : Nat) (rootSeen : Bool)
    (h : wellNested opened rootSeen (p ++ q) = true) : wellNested opened rootSeen p = true := by
  induction p generalizing opened rootSeen with
  | nil => rfl
  | cons e p ih =>
    cases e <;>
      simp only [List.cons_append, wellNested, Bool.and_eq_true] at h ⊢
    · exact ⟨h.1, ih _ _ h.2⟩
    · exact ⟨h.1, ih _ _ h.2⟩
    · exact ⟨h.1, ih _ _ h.2⟩
    · exact ih _ _ h
    · exact ih _ _ h
    · exact ih _ _ h

theorem noDocElement_mem (es : List Event) (h : noDocElement es = true) (name : Str)
    (atts : List (Str × Str)) (hm : Event.startElement name atts ∈ es) : name ≠ docTag := by
  induction es with
  | nil => simp at hm
  | cons e es ih =>
    rcases List.mem_cons.1 hm with he | he
    · subst he
      simp only [noDocElement, Bool.and_eq_true, decide_eq_true_eq] at h
      exact h.1
    · cases e with
      | startElement n a =>
        simp only [noDocElement, Bool.and_eq_true] at h
        exact ih h.2 he
      | _ => exact ih (by simpa [noDocElement] using h) he

theorem runEvents_clean (es : List Event) (s s1 : Document)
    (hname : ∀ name atts, Event.startElement name atts ∈ es → name ≠ docTag)
    (hcom : ∀ c, Event.comment c ∈ es → folds s.m_copyDoxygen c = false)
    (hinv : CleanInv s) (h : runEvents s es = some s1) : CleanInv s1 := by
  induction es generalizing s with
  | nil => simp only [runEvents, Option.some.injEq] at h; subst h; exact hinv
  | cons e es ih =>
    simp only [runEvents] at h
    cases he : e.handle s with
    | none => simp [he] at h
    | some s2 =>
      simp only [he] at h
      have hflag := (handle_facts e s s2 he).1
      refine ih s2 (fun n a hm => hname n a (List.mem_cons_of_mem _ hm))
        (fun c hm => by rw [hflag]; exact hcom c (List.mem_cons_of_mem _ hm)) ?_ h
      exact handle_clean e s s2 (fun n a hn => hname n a (hn ▸ List.mem_cons_self _ _))
        (fun c hc => hcom c (hc ▸ List.mem_cons_self _ _)) hinv he

/-! ## No documentation without processed comments -/

/-- C18. For a well-nested event sequence in which no element is tagged "doc" and in which
folding is disabled or no comment body contains "@brief": after every prefix of the sequence the
callbacks have produced a state in which no node of the tree is tagged "doc" and every node has
an empty documentation string, and a comment event that comes next leaves that state (root,
depth and flag) unchanged. -/
theorem no_doc_without_comments (flag : Bool) (es : List Event)
    (hwn : wellNested 0 false es = true) (hnd : noDocElement es = true)
    (hcom : flag = false ∨ ∀ c, Event.comment c ∈ es → strstr c "@brief".toList = false) :
    ∀ p q, es = p ++ q →
      ∃ s, runEvents (Document.new flag) p = some s
        ∧ (∀ r, s.root = some r → r.all cleanNode = true)
        ∧ (∀ c q1, q = Event.comment c :: q1 → (Event.comment c).handle s = some s) := by
  intro p q hpq
  have hfold : ∀ c, Event.comment c ∈ es → folds flag c = false := by
    intro c hc
    rcases hcom with h | h
    · subst h; simp [folds]
    · unfold folds; rw [h c hc]; rfl
  have hwp : wellNested 0 false p = true := wellNested_of_append p q 0 false (hpq ▸ hwn)
  obtain ⟨s, hs⟩ := runEvents_wellNested p (Document.new flag) 0 false
    (by simp [ChainInv, Document.new]) (by simp [Document.new]) (by intro h; omega) hwp
  have hflag : s.m_copyDoxygen = flag := (runEvents_facts p _ s hs).1
  have hclean : CleanInv s := by
    refine runEvents_clean p (Document.new flag) s ?_ ?_ ?_ hs
    · intro n a hm
      exact noDocElement_mem es hnd n a (hpq ▸ List.mem_append_left _ hm)
    · intro c hm
      exact hfold c (hpq ▸ List.mem_append_left _ hm)
    · intro r hr; simp [Document.new] at hr
  refine ⟨s, hs, hclean, ?_⟩
  intro c q1 hq
  subst hq
  have := comment_ignored s c (by rw [hflag]; exact hfold c (hpq ▸ by simp))
  simpa [Event.handle] using this

/-- Witness of C18: the events of `<a><!-- @brief x --><b/>t</a>` with folding disabled; the
comment leaves the state unchanged and the final tree `a[b]` has no "doc" node. -/
theorem no_doc_without_comments_witness :
    wellNested 0 false
        [Event.startElement "a".toList [], Event.comment " @brief x\n ".toList,
          Event.startElement "b".toList [], Event.endElement "b".toList,
          Event.characterData "t".toList 1, Event.endElement "a".toList] = true
      ∧ ∃ s, runEvents (Document.new false)
          [Event.startElement "a".toList []] = some s
        ∧ (∀ r, s.root = some r → r.all cleanNode = true)
        ∧ (∀ c q1, [Event.comment " @brief x\n ".toList,
              Event.startElement "b".toList [], Event.endElement "b".toList,
              Event.characterData "t".toList 1, Event.endElement "a".toList]
            = Event.comment c :: q1 → (Event.comment c).handle s = some s) :=
  ⟨by decide, no_doc_without_comments false _ (by decide) (by decide) (Or.inl rfl)
    [Event.startElement "a".toList []] _ rfl⟩

/-! ## Index scans and open elements -/

theorem scanBackReads_le (chars : Str) (y i : Nat) (h : i ∈ scanBackReads chars y) : i ≤ y := by
  induction y with
  | zero => simp [scanBackReads] at h; omega
  | succ y ih =>
    simp only [scanBackReads, List.mem_cons] at h
    rcases h with h | h
    · omega
    · cases hc : charAt chars (y + 1) with
      | none => simp [hc] at h
      | some c =>
        simp only [hc] at h
        split_ifs at h
        · have := ih h; omega
        · simp at h

theorem scanFwdReads_le (chars : Str) (y n x i : Nat) (hx : x ≤ y)
    (h : i ∈ scanFwdReads chars y n x) : i ≤ y := by
  induction n generalizing x with
  | zero => simp [scanFwdReads] at h; omega
  | succ n ih =>
    simp only [scanFwdReads, List.mem_cons] at h
    rcases h with h | h
    · omega
    · cases hc : charAt chars x with
      | none => simp [hc] at h
      | some c =>
        simp only [hc] at h
        split_ifs at h with hs
        · simp only [Bool.and_eq_true, decide_eq_true_eq] at hs
          exact ih (x + 1) (by omega) h
        · simp at h

theorem wellNested_openAfter (es : List Event) (opened : Nat) (rootSeen : Bool)
    (h : wellNested opened rootSeen es = true) : 0 ≤ openAfter (opened : Int) es := by
  induction es generalizing opened rootSeen with
  | nil => simp [openAfter]
  | cons e es ih =>
    cases e with
    | startElement name atts =>
      simp only [wellNested, Bool.and_eq_true] at h
      have := ih (opened + 1) true h.2
      simpa [openAfter, Event.depthAfter] using this
    | endElement name =>
      simp only [wellNested, Bool.and_eq_true, decide_eq_true_eq] at h
      have := ih (opened - 1) rootSeen h.2
      have e1 : ((opened - 1 : Nat) : Int) = (opened : Int) - 1 := by omega
      rw [e1] at this
      simpa [openAfter, Event.depthAfter] using this
    | characterData chars len =>
      simp only [wellNested, Bool.and_eq_true] at h
      simpa [openAfter, Event.depthAfter] using ih opened rootSeen h.2
    | comment c => simpa [openAfter, Event.depthAfter] using ih opened rootSeen h
    | startDoctype => simpa [openAfter, Event.depthAfter] using ih opened rootSeen h
    | endDoctype => simpa [openAfter, Event.depthAfter] using ih opened rootSeen h

/-- In a well-nested sequence a character-data event comes while an element is open, with a
length of at least one that stays inside the buffer. -/
theorem wellNested_characterData (p q : List Event) (chars : Str) (len : Int) (opened : Nat)
    (rootSeen : Bool)
    (h : wellNested opened rootSeen (p ++ Event.characterData chars len :: q) = true) :
    1 ≤ openAfter (opened : Int) p ∧ 1 ≤ len ∧ len ≤ chars.length := by
  induction p generalizing opened rootSeen with
  | nil =>
    simp only [List.nil_append, wellNested, Bool.and_eq_true, decide_eq_true_eq] at h
    refine ⟨?_, h.1.1.2, h.1.2⟩
    simp only [openAfter]; omega
  | cons e p ih =>
    cases e with
    | startElement name atts =>
      simp only [List.cons_append, wellNested, Bool.and_eq_true] at h
      simpa [openAfter, Event.depthAfter] using ih (opened + 1) true h.2
    | endElement name =>
      simp only [List.cons_append, wellNested, Bool.and_eq_true, decide_eq_true_eq] at h
      have := ih (opened - 1) rootSeen h.2
      have e1 : ((opened - 1 : Nat) : Int) = (opened : Int) - 1 := by omega
      rw [e1] at this
      simpa [openAfter, Event.depthAfter] using this
    | characterData chars len =>
      simp only [List.cons_append, wellNested, Bool.and_eq_true] at h
      simpa [openAfter, Event.depthAfter] using ih opened rootSeen h.2
    | comment c =>
      simp only [List.cons_append, wellNested] at h
      simpa [openAfter, Event.depthAfter] using ih opened rootSeen h
    | startDoctype =>
      simp only [List.cons_append, wellNested] at h
      simpa [openAfter, Event.depthAfter] using ih opened rootSeen h
    | endDoctype =>
      simp only [List.cons_append, wellNested] at h
      simpa [openAfter, Event.depthAfter] using ih opened rootSeen h

theorem openAfter_append (d : Int) (p q : List Event) :
    openAfter d (p ++ q) = openAfter (openAfter d p) q := by
  induction p generalizing d with
  | nil => rfl
  | cons e p ih => simp [openAfter, ih]

/-! ## The last-child walk on well-nested input -/

/-- C20. For every event sequence of a well-formedness-checking source (`wellNested`), folding
on or off, and every event `e` of it, `p` being the events before: the callbacks bring the fresh
document to a state `s` on `p`, and the callback of `e` is defined on `s` (no read of the last
element of an empty vector, no dereference of an absent root, no read outside the buffer). The
depth counter of `s` is not negative and is the number of open elements, as is the one after
`e`. When `s` has a root, every step of the descent of `m_depth - 1` steps from it finds a
non-empty children vector. For a character-data event the root is present and the two index
scans end at `x ≤ y < len`, every index they read being below `len`. -/
theorem last_child_walk_defined (flag : Bool) (es : List Event)
    (hwn : wellNested 0 false es = true) :
    ∀ p e q, es = p ++ e :: q →
      ∃ s s1, runEvents (Document.new flag) p = some s ∧ e.handle s = some s1
        ∧ 0 ≤ s.m_depth ∧ s.m_depth = openAfter 0 p
        ∧ 0 ≤ s1.m_depth ∧ s1.m_depth = openAfter 0 (p ++ [e])
        ∧ (∀ r, s.root = some r → hasChain (walkSteps s.m_depth) r = true
            ∧ ∃ cld, readCld (walkSteps s.m_depth) r.children = some cld)
        ∧ (∀ chars len, e = Event.characterData chars len →
            s.root.isSome = true ∧ 1 ≤ s.m_depth
            ∧ ∃ y x, scanBack chars (len - 1).toNat = some y ∧ scanFwd chars y y 0 = some x
              ∧ x ≤ y ∧ (y : Int) < len
              ∧ (∀ i ∈ scanBackReads chars (len - 1).toNat, (i : Int) < len)
              ∧ (∀ i ∈ scanFwdReads chars y y 0, (i : Int) < len)) := by
  intro p e q hpq
  have hw1 : wellNested 0 false (p ++ [e]) = true := by
    apply wellNested_of_append (p ++ [e]) q
    rw [List.append_assoc]; exact hpq ▸ hwn
  have hw0 : wellNested 0 false p = true := wellNested_of_append p [e] 0 false hw1
  have hnew : ChainInv (Document.new flag) := by simp [ChainInv, Document.new]
  obtain ⟨s1, hs1⟩ := runEvents_wellNested (p ++ [e]) (Document.new flag) 0 false hnew
    (by simp [Document.new]) (by intro h; omega) hw1
  rw [runEvents_append] at hs1
  cases hs : runEvents (Document.new flag) p with
  | none => simp [hs] at hs1
  | some s =>
    simp only [hs, runEvents, Option.some_bind] at hs1
    cases he : e.handle s with
    | none => rw [he] at hs1; exact absurd hs1 (by simp)
    | some s2 =>
      rw [he] at hs1
      simp only [Option.some.injEq] at hs1
      subst hs1
      have hd : s.m_depth = openAfter 0 p := by
        simpa [Document.new] using (runEvents_facts p _ s hs).2.1
      have hd2 : s2.m_depth = openAfter 0 (p ++ [e]) := by
        rw [openAfter_append, ← hd, (handle_facts e s s2 he).2.1]; rfl
      have hinv : ChainInv s := runEvents_inv p _ s hnew hs
      refine ⟨s, s2, rfl, he, ?_, hd, ?_, hd2, ?_, ?_⟩
      · rw [hd]; exact wellNested_openAfter p 0 false hw0
      · rw [hd2]; exact wellNested_openAfter (p ++ [e]) 0 false hw1
      · intro r hr
        have hc : hasChain (walkSteps s.m_depth) r = true := by
          simpa [ChainInv, hr] using hinv
        exact ⟨hc, readCld_of_hasChain _ r hc⟩
      · intro chars len hcd
        subst hcd
        obtain ⟨h1, h2, h3⟩ := wellNested_characterData p q chars len 0 false (hpq ▸ hwn)
        have hroot : s.root.isSome = true := by
          cases hr : s.root with
          | none => simp [Event.handle, character_data_handler, hr] at he
          | some r => rfl
        have hlt : (len - 1).toNat < chars.length := by omega
        obtain ⟨y, hy, hyle⟩ := scanBack_isSome chars _ hlt
        obtain ⟨x, hx, hxle⟩ := scanFwd_isSome chars y y 0 (by omega) (by omega)
        refine ⟨hroot, by rw [hd]; exact h1, y, x, hy, hx, hxle, by omega, ?_, ?_⟩
        · intro i hi
          have := scanBackReads_le chars _ i hi
          omega
        · intro i hi
          have := scanFwdReads_le chars y y 0 i (by omega) hi
          omega

/-- Witness of C20: the events of `<a> t <b/></a>` with folding enabled, at the character-data
event: the callback is defined, the depth is 1 before and after it, and the scans of the
three-character chunk end at `x = y = 1`. -/
theorem last_child_walk_defined_witness :
    wellNested 0 false
        [Event.startElement "a".toList [], Event.characterData " t ".toList 3,
          Event.startElement "b".toList [], Event.endElement "b".toList,
          Event.endElement "a".toList] = true
      ∧ ∃ s s1, runEvents (Document.new true) [Event.startElement "a".toList []] = some s
        ∧ (Event.characterData " t ".toList 3).handle s = some s1
        ∧ 0 ≤ s.m_depth ∧ s.m_depth = 1 ∧ s1.m_depth = 1
        ∧ s.root.isSome = true
        ∧ ∃ y x, scanBack " t ".toList 2 = some y ∧ scanFwd " t ".toList y y 0 = some x
          ∧ x ≤ y ∧ y < 3 := by
  refine ⟨by decide, ?_⟩
  obtain ⟨s, s1, h1, h2, h3, h4, _, h6, _, h8⟩ :=
    last_child_walk_defined true
      [Event.startElement "a".toList [], Event.characterData " t ".toList 3,
        Event.startElement "b".toList [], Event.endElement "b".toList,
        Event.endElement "a".toList] (by decide)
      [Event.startElement "a".toList []] (Event.characterData " t ".toList 3)
      [Event.startElement "b".toList [], Event.endElement "b".toList,
        Event.endElement "a".toList] rfl
  obtain ⟨h9, _, y, x, hy, hx, hxy, hyl, _⟩ := h8 _ _ rfl
  exact ⟨s, s1, h1, h2, h3, h4, h6, h9, y, x, hy, hx, hxy, by omega⟩

/-! ## Positions and the pointer walk -/

@[simp] theorem Node.doc_setChildren (n : Node) (cs : List Node) :
    (n.setChildren cs).doc = n.doc := by cases n; rfl

@[simp] theorem Node.cdata_setChildren (n : Node) (cs : List Node) :
    (n.setChildren cs).cdata = n.cdata := by cases n; rfl

@[simp] theorem Node.doc_setCdata (n : Node) (t : Str) : (n.setCdata t).doc = n.doc := by
  cases n; rfl

@[simp] theorem Node.cdata_setCdata (n : Node) (t : Str) : (n.setCdata t).cdata = t := by
  cases n; rfl

theorem getElem?_concat_last (d : List Node) (b : Node) : (d ++ [b])[d.length]? = some b := by
  simp

theorem getElem?_concat_ne (d : List Node) (b b1 : Node) (i : Nat) (h : i ≠ d.length) :
    (d ++ [b1])[i]? = (d ++ [b])[i]? := by
  by_cases hi : i < d.length
  · rw [List.getElem?_append_left hi, List.getElem?_append_left hi]
  · have h1 : (d ++ [b1]).length ≤ i := by simp; omega
    have h2 : (d ++ [b]).length ≤ i := by simp; omega
    rw [List.getElem?_eq_none h1, List.getElem?_eq_none h2]

theorem readNod_getAt (k : Nat) (r : Node) : r.getAt (spinePath k r) = readNod k r ∨
    readNod k r = none := by
  induction k generalizing r with
  | zero => left; rfl
  | succ k ih =>
    cases hb : r.children.getLast? with
    | none => right; simp [readNod, hb]
    | some b =>
      have hl := eq_dropLast_concat hb
      rcases ih b with h | h
      · left
        simp only [spinePath, hb, readNod, Node.getAt]
        have : r.children[r.children.length - 1]? = some b := by
          rw [hl]; simp
        rw [this]; exact h
      · right; simp [readNod, hb, h]

theorem getAt_spinePath (k : Nat) (r P : Node) (h : readNod k r = some P) :
    r.getAt (spinePath k r) = some P := by
  rcases readNod_getAt k r with h1 | h1
  · rw [h1, h]
  · rw [h1] at h; exact absurd h (by simp)

theorem readNod_of_hasChain (k : Nat) (r : Node) (h : hasChain k r = true) :
    ∃ P, readNod k r = some P := by
  induction k generalizing r with
  | zero => exact ⟨r, rfl⟩
  | succ k ih =>
    simp only [hasChain] at h
    cases hb : r.children.getLast? with
    | none => simp [hb] at h
    | some b =>
      simp only [hb] at h
      simpa [readNod, hb] using ih b h

/-- The second of two character-data events on the same node makes the first forgotten. -/
theorem walkNod_setCdata_twice (t1 t2 : Str) (k : Nat) (r r1 : Node)
    (h : walkNod k (fun nod => nod.setCdata t1) r = some r1) :
    walkNod k (fun nod => nod.setCdata t2) r1 = walkNod k (fun nod => nod.setCdata t2) r := by
  induction k generalizing r r1 with
  | zero =>
    simp only [walkNod, Option.some.injEq] at h
    subst h
    simp [walkNod]
  | succ k ih =>
    rw [walkNod] at h
    cases hb : r.children.getLast? with
    | none => rw [hb] at h; exact absurd h (by simp)
    | some b =>
      rw [hb] at h
      cases hw : walkNod k (fun nod => nod.setCdata t1) b with
      | none => simp only [hw] at h; exact absurd h (by simp)
      | some b1 =>
        simp only [hw, Option.some.injEq] at h
        subst h
        have := ih b b1 hw
        simp [walkNod, this, hb, hw]

/-- What a character-data event changes in the tree: at every position the node keeps its tag,
attributes, documentation and number of children, and its text is the new text at the position
the walk reaches and the old text everywhere else. -/
theorem walkNod_frame (t : Str) (k : Nat) (r r1 : Node)
    (h : walkNod k (fun nod => nod.setCdata t) r = some r1) (q : List Nat) (n : Node)
    (hn : r.getAt q = some n) :
    ∃ n1, r1.getAt q = some n1 ∧ n1.name = n.name ∧ n1.m_attrs = n.m_attrs ∧ n1.doc = n.doc
      ∧ n1.children.length = n.children.length
      ∧ n1.cdata = if q = spinePath k r then t else n.cdata := by
  induction k generalizing r r1 q n with
  | zero =>
    simp only [walkNod, Option.some.injEq] at h
    subst h
    cases q with
    | nil =>
      simp only [Node.getAt, Option.some.injEq] at hn
      subst hn
      exact ⟨_, rfl, by simp, by simp, by simp, by simp, by simp [spinePath]⟩
    | cons i q =>
      refine ⟨n, ?_, rfl, rfl, rfl, rfl, by simp [spinePath]⟩
      simpa [Node.getAt] using hn
  | succ k ih =>
    rw [walkNod] at h
    cases hb : r.children.getLast? with
    | none => rw [hb] at h; exact absurd h (by simp)
    | some b =>
      rw [hb] at h
      cases hw : walkNod k (fun nod => nod.setCdata t) b with
      | none => simp only [hw] at h; exact absurd h (by simp)
      | some b1 =>
        simp only [hw, Option.some.injEq] at h
        subst h
        have hl := eq_dropLast_concat hb
        generalize r.children.dropLast = d at hl ⊢
        have hsp : spinePath (k + 1) r = d.length :: spinePath k b := by
          simp [spinePath, hb, hl]
        cases q with
        | nil =>
          simp only [Node.getAt, Option.some.injEq] at hn
          subst hn
          refine ⟨_, rfl, by simp, by simp, by simp, ?_, by simp [hsp]⟩
          rw [Node.children_setChildren, hl]
          simp
        | cons i q =>
          simp only [Node.getAt] at hn
          by_cases hi : i = d.length
          · subst hi
            rw [hl, getElem?_concat_last] at hn
            simp only at hn
            obtain ⟨n1, h1, h2, h3, h4, h5, h6⟩ := ih b b1 hw q n hn
            refine ⟨n1, ?_, h2, h3, h4, h5, ?_⟩
            · simp only [Node.getAt, Node.children_setChildren, getElem?_concat_last]
              exact h1
            · rw [h6, hsp]
              simp only [List.cons.injEq, true_and]
          · rw [hl, ← getElem?_concat_ne d b b1 i hi] at hn
            refine ⟨n, ?_, rfl, rfl, rfl, rfl, ?_⟩
            · simp only [Node.getAt, Node.children_setChildren]
              exact hn
            · have : ¬ (i :: q = spinePath (k + 1) r) := by
                rw [hsp]
                simp only [List.cons.injEq, not_and]
                intro h; exact absurd h hi
              rw [if_neg this]

theorem readNod_walkNod (f : Node → Node) (k : Nat) (r r1 : Node)
    (h : walkNod k f r = some r1) : readNod k r1 = (readNod k r).map f := by
  induction k generalizing r r1 with
  | zero =>
    simp only [walkNod, Option.some.injEq] at h
    subst h; rfl
  | succ k ih =>
    rw [walkNod] at h
    cases hb : r.children.getLast? with
    | none => rw [hb] at h; exact absurd h (by simp)
    | some b =>
      rw [hb] at h
      cases hw : walkNod k f b with
      | none => simp only [hw] at h; exact absurd h (by simp)
      | some b1 =>
        simp only [hw, Option.some.injEq] at h
        subst h
        simp [readNod, hb, ih b b1 hw]

/-! ## Subtrees off the pointer walk -/

theorem spineNamed_le {j k : Nat} (hjk : j ≤ k) (r : Node) (h : spineNamed k r = true) :
    spineNamed j r = true := by
  induction k generalizing j r with
  | zero => rw [Nat.le_zero.1 hjk]; exact h
  | succ k ih =>
    cases j with
    | zero => rfl
    | succ j =>
      simp only [spineNamed] at h ⊢
      cases hb : r.children.getLast? with
      | none => rfl
      | some b =>
        simp only [hb, Bool.and_eq_true] at h ⊢
        exact ⟨h.1, ih (by omega) b h.2⟩

theorem walkCld_succ_eq (g : List Node → List Node) (k : Nat) (l cs : List Node)
    (h : walkCld (k + 1) g l = some cs) :
    ∃ d b cs1, l = d ++ [b] ∧ walkCld k g b.children = some cs1
      ∧ cs = d ++ [b.setChildren cs1] := by
  rw [walkCld] at h
  cases hb : l.getLast? with
  | none => rw [hb] at h; exact absurd h (by simp)
  | some b =>
    rw [hb] at h
    cases hw : walkCld k g b.children with
    | none => simp only [hw] at h; exact absurd h (by simp)
    | some cs1 =>
      simp only [hw, Option.some.injEq] at h
      exact ⟨l.dropLast, b, cs1, eq_dropLast_concat hb, hw, h.symm⟩

theorem walkNod_succ_eq (f : Node → Node) (k : Nat) (r r1 : Node)
    (h : walkNod (k + 1) f r = some r1) :
    ∃ d b b1, r.children = d ++ [b] ∧ walkNod k f b = some b1
      ∧ r1 = r.setChildren (d ++ [b1]) := by
  rw [walkNod] at h
  cases hb : r.children.getLast? with
  | none => rw [hb] at h; exact absurd h (by simp)
  | some b =>
    rw [hb] at h
    cases hw : walkNod k f b with
    | none => simp only [hw] at h; exact absurd h (by simp)
    | some b1 =>
      simp only [hw, Option.some.injEq] at h
      exact ⟨r.children.dropLast, b, b1, eq_dropLast_concat hb, hw, h.symm⟩

theorem walkNod_name (f : Node → Node) (hf : ∀ n, (f n).name = n.name) (k : Nat) (r r1 : Node)
    (h : walkNod k f r = some r1) : r1.name = r.name := by
  cases k with
  | zero =>
    simp only [walkNod, Option.some.injEq] at h
    subst h; exact hf r
  | succ k =>
    obtain ⟨d, b, b1, _, _, h3⟩ := walkNod_succ_eq f k r r1 h
    subst h3; simp

theorem spineNamed_concat (k : Nat) (r : Node) (d : List Node) (b : Node)
    (h : r.children = d ++ [b]) :
    spineNamed (k + 1) r = (decide (b.name ≠ docTag) && spineNamed k b) := by
  simp [spineNamed, h]

theorem spineNamed_walkCld (g : List Node → List Node) (k : Nat) (r : Node) (cs : List Node)
    (h : walkCld k g r.children = some cs) (hs : spineNamed k r = true) :
    spineNamed k (r.setChildren cs) = true := by
  induction k generalizing r cs with
  | zero => rfl
  | succ k ih =>
    obtain ⟨d, b, cs1, h1, h2, h3⟩ := walkCld_succ_eq g k _ cs h
    subst h3
    rw [spineNamed_concat k r d b h1] at hs
    rw [spineNamed_concat k _ d (b.setChildren cs1) (by simp)]
    simp only [Bool.and_eq_true] at hs ⊢
    exact ⟨by simpa using hs.1, ih b cs1 h2 hs.2⟩

theorem spineNamed_walkCld_succ (g : List Node → List Node) (k : Nat) (r : Node)
    (cs : List Node) (hg : ∀ l, ∃ b, (g l).getLast? = some b ∧ b.name ≠ docTag)
    (h : walkCld k g r.children = some cs) (hs : spineNamed k r = true) :
    spineNamed (k + 1) (r.setChildren cs) = true := by
  induction k generalizing r cs with
  | zero =>
    simp only [walkCld, Option.some.injEq] at h
    subst h
    obtain ⟨b, hb, hn⟩ := hg r.children
    simp [spineNamed, hb, hn]
  | succ k ih =>
    obtain ⟨d, b, cs1, h1, h2, h3⟩ := walkCld_succ_eq g k _ cs h
    subst h3
    rw [spineNamed_concat k r d b h1] at hs
    rw [spineNamed_concat (k + 1) _ d (b.setChildren cs1) (by simp)]
    simp only [Bool.and_eq_true] at hs ⊢
    exact ⟨by simpa using hs.1, ih b cs1 h2 hs.2⟩

theorem spineNamed_walkNod (f : Node → Node)
    (hf : ∀ n, (f n).name = n.name ∧ (f n).children = n.children) (k : Nat) (r r1 : Node)
    (h : walkNod k f r = some r1) (hs : spineNamed k r = true) : spineNamed k r1 = true := by
  induction k generalizing r r1 with
  | zero => rfl
  | succ k ih =>
    obtain ⟨d, b, b1, h1, h2, h3⟩ := walkNod_succ_eq f k r r1 h
    subst h3
    rw [spineNamed_concat k r d b h1] at hs
    rw [spineNamed_concat k _ d b1 (by simp)]
    simp only [Bool.and_eq_true] at hs ⊢
    rw [walkNod_name f (fun n => (hf n).1) k b b1 h2]
    exact ⟨hs.1, ih b b1 h2 hs.2⟩

theorem safeAt_cons (P : Node) (i : Nat) (q : List Nat) (k : Nat) (r : Node) :
    safeAt P (i :: q) k r ↔ ∃ c, r.children[i]? = some c ∧
      (if i + 1 = r.children.length then
        c.name ≠ docTag ∧
          (match k with
            | 0 => c.getAt q = some P
            | k1 + 1 => safeAt P q k1 c)
      else c.getAt q = some P) := by
  rw [safeAt]
  cases r.children[i]? <;> simp

theorem safeAt_getAt (P : Node) (q : List Nat) (k : Nat) (r : Node) (h : safeAt P q k r) :
    r.getAt q = some P := by
  induction q generalizing k r with
  | nil => exact absurd h (by simp [safeAt])
  | cons i q ih =>
    obtain ⟨c, hc, h⟩ := (safeAt_cons P i q k r).1 h
    simp only [Node.getAt, hc]
    split_ifs at h
    · cases k with
      | zero => exact h.2
      | succ k => exact ih k c h.2
    · exact h

theorem safeAt_pred (P : Node) (q : List Nat) (k : Nat) (r : Node)
    (h : safeAt P q (k + 1) r) : safeAt P q k r := by
  induction q generalizing k r with
  | nil => exact absurd h (by simp [safeAt])
  | cons i q ih =>
    obtain ⟨c, hc, h⟩ := (safeAt_cons P i q (k + 1) r).1 h
    refine (safeAt_cons P i q k r).2 ⟨c, hc, ?_⟩
    split_ifs at h ⊢
    · refine ⟨h.1, ?_⟩
      cases k with
      | zero => exact safeAt_getAt P q 0 c h.2
      | succ k => exact ih k c h.2
    · exact h

theorem safeAt_le (P : Node) (q : List Nat) {j k : Nat} (hjk : j ≤ k) (r : Node)
    (h : safeAt P q k r) : safeAt P q j r := by
  induction k with
  | zero => rw [Nat.le_zero.1 hjk]; exact h
  | succ k ih =>
    rcases Nat.lt_or_ge j (k + 1) with h1 | h1
    · exact ih (by omega) (safeAt_pred P q k r h)
    · have : j = k + 1 := by omega
      rw [this]; exact h

theorem safeAt_congr (P : Node) (q : List Nat) (k : Nat) (r r1 : Node)
    (hc : r1.children = r.children) (h : safeAt P q k r) : safeAt P q k r1 := by
  cases q with
  | nil => exact absurd h (by simp [safeAt])
  | cons i q =>
    rw [safeAt_cons] at h ⊢
    rw [hc]; exact h

theorem safeAt_walkNod (P : Node) (f : Node → Node)
    (hf : ∀ n, (f n).name = n.name ∧ (f n).children = n.children) (k : Nat) (r r1 : Node)
    (h : walkNod k f r = some r1) (q : List Nat) (hs : safeAt P q k r) :
    safeAt P q k r1 := by
  induction k generalizing r r1 q with
  | zero =>
    simp only [walkNod, Option.some.injEq] at h
    subst h
    exact safeAt_congr P q 0 r (f r) (hf r).2 hs
  | succ k ih =>
    obtain ⟨d, b, b1, h1, h2, h3⟩ := walkNod_succ_eq f k r r1 h
    subst h3
    cases q with
    | nil => exact absurd hs (by simp [safeAt])
    | cons i q =>
      obtain ⟨c, hc, hs⟩ := (safeAt_cons P i q (k + 1) r).1 hs
      rw [safeAt_cons]
      simp only [Node.children_setChildren, List.length_append, List.length_singleton]
      rw [h1] at hc hs
      simp only [List.length_append, List.length_singleton] at hs
      by_cases hi : i = d.length
      · subst hi
        rw [getElem?_concat_last] at hc
        simp only [Option.some.injEq] at hc
        subst hc
        simp only [if_true] at hs
        refine ⟨b1, getElem?_concat_last d b1, ?_⟩
        simp only [if_true]
        exact ⟨by rw [walkNod_name f (fun n => (hf n).1) k _ b1 h2]; exact hs.1,
          ih _ b1 h2 q hs.2⟩
      · have hne : ¬ (i + 1 = d.length + 1) := by omega
        rw [if_neg hne] at hs
        refine ⟨c, by rw [getElem?_concat_ne d b b1 i hi]; exact hc, ?_⟩
        rw [if_neg hne]; exact hs

theorem safeAt_walkCld (P : Node) (g : List Node → List Node) (hg : PushLike g) (k : Nat)
    (r : Node) (cs : List Node) (h : walkCld k g r.children = some cs) (q : List Nat)
    (hs : safeAt P q k r) : safeAt P q (k + 1) (r.setChildren cs) := by
  induction k generalizing r cs q with
  | zero =>
    simp only [walkCld, Option.some.injEq] at h
    subst h
    cases q with
    | nil => exact absurd hs (by simp [safeAt])
    | cons i q =>
      obtain ⟨c, hc, hs⟩ := (safeAt_cons P i q 0 r).1 hs
      have hget : c.getAt q = some P := by
        split_ifs at hs
        · exact hs.2
        · exact hs
      have hlt : i < r.children.length := by
        by_contra hcon
        rw [List.getElem?_eq_none (by omega)] at hc
        exact absurd hc (by simp)
      rw [safeAt_cons]
      simp only [Node.children_setChildren]
      rcases hg r.children with ⟨x, hx⟩ | ⟨b, x, hb, hbn, hx⟩
      · rw [hx]
        refine ⟨c, by rw [List.getElem?_append_left hlt]; exact hc, ?_⟩
        rw [if_neg (by simp; omega)]; exact hget
      · rw [hx]
        have hl := eq_dropLast_concat hb
        generalize r.children.dropLast = d at hl ⊢
        rw [hl] at hc hs hlt
        simp only [List.length_append, List.length_singleton] at hs hlt ⊢
        by_cases hi : i = d.length
        · subst hi
          rw [getElem?_concat_last] at hc
          simp only [Option.some.injEq] at hc
          subst hc
          simp only [if_true] at hs
          exact absurd hbn hs.1
        · refine ⟨c, by rw [getElem?_concat_ne d b x i hi]; exact hc, ?_⟩
          rw [if_neg (by omega)]; exact hget
  | succ k ih =>
    obtain ⟨d, b, cs1, h1, h2, h3⟩ := walkCld_succ_eq g k _ cs h
    subst h3
    cases q with
    | nil => exact absurd hs (by simp [safeAt])
    | cons i q =>
      obtain ⟨c, hc, hs⟩ := (safeAt_cons P i q (k + 1) r).1 hs
      rw [safeAt_cons]
      simp only [Node.children_setChildren, List.length_append, List.length_singleton]
      rw [h1] at hc hs
      simp only [List.length_append, List.length_singleton] at hs
      by_cases hi : i = d.length
      · subst hi
        rw [getElem?_concat_last] at hc
        simp only [Option.some.injEq] at hc
        subst hc
        simp only [if_true] at hs
        refine ⟨_, getElem?_concat_last d _, ?_⟩
        simp only [if_true, Node.name_setChildren]
        exact ⟨hs.1, ih _ cs1 h2 q hs.2⟩
      · have hne : ¬ (i + 1 = d.length + 1) := by omega
        rw [if_neg hne] at hs
        refine ⟨c, by rw [getElem?_concat_ne d b _ i hi]; exact hc, ?_⟩
        rw [if_neg hne]; exact hs

theorem safeAt_of_readNod (P : Node) (k : Nat) (r : Node) (hs : spineNamed (k + 1) r = true)
    (h : readNod (k + 1) r = some P) : safeAt P (spinePath (k + 1) r) k r := by
  induction k generalizing r with
  | zero =>
    cases hb : r.children.getLast? with
    | none => simp [readNod, hb] at h
    | some b =>
      have hl := eq_dropLast_concat hb
      generalize r.children.dropLast = d at hl
      rw [spineNamed_concat 0 r d b hl] at hs
      simp only [readNod, hb, Option.some.injEq] at h
      subst h
      simp only [spinePath, hb]
      rw [safeAt_cons]
      refine ⟨b, by rw [hl]; simp, ?_⟩
      rw [if_pos (by rw [hl]; simp)]
      simp only [Bool.and_eq_true, decide_eq_true_eq] at hs
      exact ⟨hs.1, rfl⟩
  | succ k ih =>
    cases hb : r.children.getLast? with
    | none => simp [readNod, hb] at h
    | some b =>
      have hl := eq_dropLast_concat hb
      generalize r.children.dropLast = d at hl
      rw [spineNamed_concat (k + 1) r d b hl] at hs
      rw [readNod] at h
      simp only [hb] at h
      rw [spinePath]
      simp only [hb]
      rw [safeAt_cons]
      refine ⟨b, by rw [hl]; simp, ?_⟩
      rw [if_pos (by rw [hl]; simp)]
      simp only [Bool.and_eq_true, decide_eq_true_eq] at hs
      exact ⟨hs.1, ih b hs.2 h⟩

theorem pushElement_pushLike (n : Node) : PushLike (pushElement n) := by
  intro l
  unfold pushElement
  cases hb : l.getLast? with
  | none => left; exact ⟨n, rfl⟩
  | some b =>
    by_cases hn : b.name = docTag
    · right; exact ⟨b, n.setDoc b.cdata, rfl, hn, by simp [hn]⟩
    · left; exact ⟨n, by simp [hn]⟩

theorem append_pushLike (x : Node) : PushLike (fun cld => cld ++ [x]) :=
  fun _ => Or.inl ⟨x, rfl⟩

theorem pushElement_getLast (n : Node) (l : List Node) :
    ∃ b, (pushElement n l).getLast? = some b ∧ b.name = n.name := by
  unfold pushElement
  cases hl : l.getLast? with
  | none => exact ⟨n, by simp, rfl⟩
  | some b1 =>
    simp only []
    split_ifs
    · exact ⟨n.setDoc b1.cdata, by simp, by simp⟩
    · exact ⟨n, by simp, rfl⟩

@[simp] theorem Node.name_new (name : Str) (a : Option (List (Str × Str))) :
    (Node.new name a).name = name := by
  unfold Node.new; cases a <;> rfl

@[simp] theorem Node.children_new (name : Str) (a : Option (List (Str × Str))) :
    (Node.new name a).children = [] := by
  unfold Node.new; cases a <;> rfl

theorem spineNamed_leaf (k : Nat) (n : Node) (h : n.children = []) :
    spineNamed k n = true := by
  cases k with
  | zero => rfl
  | succ k => simp [spineNamed, h]

theorem handle_spine (e : Event) (s s1 : Document) (hsp : SpineInv s)
    (hname : ∀ name atts, e = Event.startElement name atts → name ≠ docTag)
    (h : e.handle s = some s1) : SpineInv s1 := by
  obtain ⟨root, flag, d⟩ := s
  cases e with
  | startElement name atts =>
    have hn := hname name atts rfl
    cases root with
    | none =>
      simp only [Event.handle, start_element_handler, Option.some.injEq] at h
      subst h
      intro r hr
      simp only [Option.some.injEq] at hr
      subst hr
      exact spineNamed_leaf _ _ (by simp)
    | some r0 =>
      simp only [Event.handle, start_element_handler] at h
      split at h
      · exact absurd h (by simp)
      · rename_i cs hcs
        simp only [Option.some.injEq] at h
        subst h
        intro r hr
        simp only [Option.some.injEq] at hr
        subst hr
        have h0 := hsp r0 rfl
        simp only at h0 ⊢
        refine spineNamed_le (walkSteps_le_succ d) _ ?_
        refine spineNamed_walkCld_succ _ _ r0 cs (fun l => ?_) hcs h0
        obtain ⟨b, hb, hbn⟩ := pushElement_getLast (Node.new name (some atts)) l
        exact ⟨b, hb, by rw [hbn]; simpa using hn⟩
  | endElement name =>
    simp only [Event.handle, end_element_handler, Option.some.injEq] at h
    subst h
    intro r hr
    exact spineNamed_le (walkSteps_pred_le d) r (hsp r hr)
  | characterData chars len =>
    cases root with
    | none => simp [Event.handle, character_data_handler] at h
    | some r0 =>
      simp only [Event.handle, character_data_handler] at h
      split at h
      · exact absurd h (by simp)
      · split at h
        · exact absurd h (by simp)
        · rename_i text _ r1 hr1
          simp only [Option.some.injEq] at h
          subst h
          intro r hr
          simp only [Option.some.injEq] at hr
          subst hr
          exact spineNamed_walkNod _ (fun n => by simp) _ _ _ hr1 (hsp r0 rfl)
  | comment c =>
    simp only [Event.handle, start_comment_decl_handler] at h
    split_ifs at h
    · simp only [Option.some.injEq] at h
      subst h; exact hsp
    · cases root with
      | none =>
        simp only [Option.some.injEq] at h
        subst h
        intro r hr
        simp only [Option.some.injEq] at hr
        subst hr
        exact spineNamed_leaf _ _ (by simp)
      | some r0 =>
        simp only at h
        split at h
        · exact absurd h (by simp)
        · rename_i cs hcs
          simp only [Option.some.injEq] at h
          subst h
          intro r hr
          simp only [Option.some.injEq] at hr
          subst hr
          exact spineNamed_walkCld _ _ r0 cs hcs (hsp r0 rfl)
  | startDoctype =>
    simp only [Event.handle, doctype_decl_handler, Option.some.injEq] at h
    subst h; exact hsp
  | endDoctype =>
    simp only [Event.handle, doctype_decl_handler, Option.some.injEq] at h
    subst h; exact hsp

theorem runEvents_spine (es : List Event) (s s1 : Document) (hsp : SpineInv s)
    (hnd : noDocElement es = true) (h : runEvents s es = some s1) : SpineInv s1 := by
  induction es generalizing s with
  | nil => simp only [runEvents, Option.some.injEq] at h; subst h; exact hsp
  | cons e es ih =>
    simp only [runEvents] at h
    cases he : e.handle s with
    | none => simp [he] at h
    | some s2 =>
      simp only [he] at h
      refine ih s2 (handle_spine e s s2 hsp ?_ he) ?_ h
      · intro name atts hn
        subst hn
        simp only [noDocElement, Bool.and_eq_true, decide_eq_true_eq] at hnd
        exact hnd.1
      · cases e <;> simp only [noDocElement, Bool.and_eq_true] at hnd
        · exact hnd.2
        all_goals exact hnd

/-- One callback in a state where the subtree `P` at position `q` is off the pointer walk:
it stays at its position, off the walk. -/
theorem handle_safeAt (P : Node) (q : List Nat) (e : Event) (r : Node) (flag : Bool) (d : Int)
    (s1 : Document) (hstart : ∀ name atts, e = Event.startElement name atts → 1 ≤ d)
    (hs : safeAt P q (walkSteps d) r) (h : e.handle ⟨some r, flag, d⟩ = some s1) :
    ∃ r1, s1 = ⟨some r1, flag, e.depthAfter d⟩ ∧ safeAt P q (walkSteps (e.depthAfter d)) r1 := by
  cases e with
  | startElement name atts =>
    simp only [Event.handle, start_element_handler] at h
    split at h
    · exact absurd h (by simp)
    · rename_i cs hcs
      simp only [Option.some.injEq] at h
      subst h
      refine ⟨_, rfl, ?_⟩
      simp only [Event.depthAfter]
      rw [walkSteps_succ d (hstart name atts rfl)]
      exact safeAt_walkCld P _ (pushElement_pushLike _) _ r cs hcs q hs
  | endElement name =>
    simp only [Event.handle, end_element_handler, Option.some.injEq] at h
    subst h
    exact ⟨r, rfl, safeAt_le P q (walkSteps_pred_le d) r hs⟩
  | characterData chars len =>
    simp only [Event.handle, character_data_handler] at h
    split at h
    · exact absurd h (by simp)
    · split at h
      · exact absurd h (by simp)
      · rename_i text _ r1 hr1
        simp only [Option.some.injEq] at h
        subst h
        exact ⟨r1, rfl, safeAt_walkNod P _ (fun n => by simp) _ r r1 hr1 q hs⟩
  | comment c =>
    simp only [Event.handle, start_comment_decl_handler] at h
    split_ifs at h
    · simp only [Option.some.injEq] at h
      subst h; exact ⟨r, rfl, hs⟩
    · split at h
      · exact absurd h (by simp)
      · rename_i cs hcs
        simp only [Option.some.injEq] at h
        subst h
        exact ⟨_, rfl, safeAt_pred P q _ _
          (safeAt_walkCld P _ (append_pushLike _) _ r cs hcs q hs)⟩
  | startDoctype =>
    simp only [Event.handle, doctype_decl_handler, Option.some.injEq] at h
    subst h; exact ⟨r, rfl, hs⟩
  | endDoctype =>
    simp only [Event.handle, doctype_decl_handler, Option.some.injEq] at h
    subst h; exact ⟨r, rfl, hs⟩

/-! ## Runs that keep a node -/

theorem Node.sameData_refl (a : Node) : a.sameData a := ⟨rfl, rfl, rfl, rfl⟩

theorem Node.sameData_trans {a b c : Node} (h1 : a.sameData b) (h2 : b.sameData c) :
    a.sameData c :=
  ⟨h1.1.trans h2.1, h1.2.1.trans h2.2.1, h1.2.2.1.trans h2.2.2.1, h1.2.2.2.trans h2.2.2.2⟩

theorem Node.sameData_setChildren (a : Node) (cs : List Node) :
    (a.setChildren cs).sameData a := by
  cases a; exact ⟨rfl, rfl, rfl, rfl⟩

theorem spinePath_concat (k : Nat) (r : Node) (d : List Node) (b : Node)
    (h : r.children = d ++ [b]) : spinePath (k + 1) r = d.length :: spinePath k b := by
  simp [spinePath, h]

theorem readNod_concat (k : Nat) (r : Node) (d : List Node) (b : Node)
    (h : r.children = d ++ [b]) : readNod (k + 1) r = readNod k b := by
  simp [readNod, h]

theorem spinePath_walkCld (g : List Node → List Node) (k : Nat) (r : Node) (cs : List Node)
    (h : walkCld k g r.children = some cs) (j : Nat) (hj : j ≤ k) :
    spinePath j (r.setChildren cs) = spinePath j r := by
  induction j generalizing k r cs with
  | zero => rfl
  | succ j ih =>
    cases k with
    | zero => omega
    | succ k =>
      obtain ⟨d, b, cs1, h1, h2, h3⟩ := walkCld_succ_eq g k _ cs h
      subst h3
      rw [spinePath_concat j r d b h1, spinePath_concat j _ d (b.setChildren cs1) (by simp),
        ih k b cs1 h2 (by omega)]

theorem spinePath_walkNod (f : Node → Node) (k : Nat) (r r1 : Node) (h : walkNod k f r = some r1) (j : Nat) (hj : j ≤ k) :
    spinePath j r1 = spinePath j r := by
  induction j generalizing k r r1 with
  | zero => rfl
  | succ j ih =>
    cases k with
    | zero => omega
    | succ k =>
      obtain ⟨d, b, b1, h1, h2, h3⟩ := walkNod_succ_eq f k r r1 h
      subst h3
      rw [spinePath_concat j r d b h1, spinePath_concat j _ d b1 (by simp),
        ih k b b1 h2 (by omega)]

theorem readNod_walkCld_data (g : List Node → List Node) (k : Nat) (r : Node) (cs : List Node)
    (h : walkCld k g r.children = some cs) (j : Nat) (hj : j ≤ k) (n : Node)
    (hn : readNod j r = some n) :
    ∃ n1, readNod j (r.setChildren cs) = some n1 ∧ n1.sameData n := by
  induction j generalizing k r cs with
  | zero =>
    simp only [readNod, Option.some.injEq] at hn
    subst hn
    exact ⟨_, rfl, Node.sameData_setChildren _ _⟩
  | succ j ih =>
    cases k with
    | zero => omega
    | succ k =>
      obtain ⟨d, b, cs1, h1, h2, h3⟩ := walkCld_succ_eq g k _ cs h
      subst h3
      rw [readNod_concat j r d b h1] at hn
      rw [readNod_concat j _ d (b.setChildren cs1) (by simp)]
      exact ih k b cs1 h2 (by omega) hn

theorem readNod_walkNod_data (f : Node → Node) (k : Nat) (r r1 : Node)
    (h : walkNod k f r = some r1) (j : Nat) (hj : j < k) (n : Node)
    (hn : readNod j r = some n) : ∃ n1, readNod j r1 = some n1 ∧ n1.sameData n := by
  induction j generalizing k r r1 with
  | zero =>
    cases k with
    | zero => omega
    | succ k =>
      obtain ⟨d, b, b1, h1, h2, h3⟩ := walkNod_succ_eq f k r r1 h
      subst h3
      simp only [readNod, Option.some.injEq] at hn
      subst hn
      exact ⟨_, rfl, Node.sameData_setChildren _ _⟩
  | succ j ih =>
    cases k with
    | zero => omega
    | succ k =>
      obtain ⟨d, b, b1, h1, h2, h3⟩ := walkNod_succ_eq f k r r1 h
      subst h3
      rw [readNod_concat j r d b h1] at hn
      rw [readNod_concat j _ d b1 (by simp)]
      exact ih k b b1 h2 (by omega) hn

theorem readNod_walkCld_eq (g : List Node → List Node) (k : Nat) (r : Node) (cs : List Node)
    (h : walkCld k g r.children = some cs) (P : Node) (hP : readNod k r = some P) :
    readNod k (r.setChildren cs) = some (P.setChildren (g P.children)) := by
  induction k generalizing r cs with
  | zero =>
    simp only [readNod, Option.some.injEq] at hP
    subst hP
    simp only [walkCld, Option.some.injEq] at h
    subst h; rfl
  | succ k ih =>
    obtain ⟨d, b, cs1, h1, h2, h3⟩ := walkCld_succ_eq g k _ cs h
    subst h3
    rw [readNod_concat k r d b h1] at hP
    rw [readNod_concat k _ d (b.setChildren cs1) (by simp)]
    exact ih b cs1 h2 hP

/-- After the subtree `P` at position `q` has left the pointer walk, the callbacks of a
well-nested continuation are defined and leave it where it is. -/
theorem frozen_run (P : Node) (q : List Nat) (es : List Event) (s : Document) (opened : Nat)
    (r : Node) (hinv : ChainInv s) (hd : s.m_depth = opened) (hr : s.root = some r)
    (hwn : wellNested opened true es = true) (hs : safeAt P q (walkSteps s.m_depth) r) :
    ∃ s1 r1, runEvents s es = some s1 ∧ s1.root = some r1 ∧ r1.getAt q = some P := by
  induction es generalizing s opened r with
  | nil => exact ⟨s, r, rfl, hr, safeAt_getAt P q _ r hs⟩
  | cons e es ih =>
    have hdef : ∃ s2, e.handle s = some s2 := by
      apply handle_isSome e s hinv
      intro chars len he
      subst he
      simp only [wellNested, Bool.and_eq_true, decide_eq_true_eq] at hwn
      exact ⟨by simp [hr], hwn.1.1.2, hwn.1.2⟩
    obtain ⟨s2, hs2⟩ := hdef
    have hinv2 := handle_inv e s s2 hinv hs2
    obtain ⟨root, flag, d⟩ := s
    simp only at hr hd hs
    subst hr
    have hstart : ∀ name atts, e = Event.startElement name atts → 1 ≤ d := by
      intro name atts he
      subst he
      simp only [wellNested, Bool.and_eq_true, Bool.or_eq_true, decide_eq_true_eq] at hwn
      rcases hwn.1 with h | h
      · omega
      · simp at h
    obtain ⟨r2, h2, hs2a⟩ := handle_safeAt P q e r flag d s2 hstart hs hs2
    subst h2
    simp only [runEvents, hs2]
    cases e with
    | startElement name atts =>
      simp only [wellNested, Bool.and_eq_true] at hwn
      exact ih _ (opened + 1) r2 hinv2 (by simp [Event.depthAfter, hd]) rfl hwn.2 hs2a
    | endElement name =>
      simp only [wellNested, Bool.and_eq_true, decide_eq_true_eq] at hwn
      exact ih _ (opened - 1) r2 hinv2 (by simp only [Event.depthAfter]; omega) rfl hwn.2 hs2a
    | characterData chars len =>
      simp only [wellNested, Bool.and_eq_true] at hwn
      exact ih _ opened r2 hinv2 (by simp [Event.depthAfter, hd]) rfl hwn.2 hs2a
    | comment c =>
      simp only [wellNested] at hwn
      exact ih _ opened r2 hinv2 (by simp [Event.depthAfter, hd]) rfl hwn hs2a
    | startDoctype =>
      simp only [wellNested] at hwn
      exact ih _ opened r2 hinv2 (by simp [Event.depthAfter, hd]) rfl hwn hs2a
    | endDoctype =>
      simp only [wellNested] at hwn
      exact ih _ opened r2 hinv2 (by simp [Event.depthAfter, hd]) rfl hwn hs2a

/-- After the root element is closed a well-nested continuation holds comments and document
type events only: the root keeps its data, and without a comment the whole state stays. -/
theorem root_closed_run (es : List Event) (r : Node) (flag : Bool)
    (hwn : wellNested 0 true es = true) :
    ∃ s1 r1, runEvents ⟨some r, flag, 0⟩ es = some s1 ∧ s1.root = some r1 ∧ r1.sameData r
      ∧ (noComment es = true → r1 = r) := by
  induction es generalizing r with
  | nil => exact ⟨_, r, rfl, rfl, Node.sameData_refl r, fun _ => rfl⟩
  | cons e es ih =>
    cases e with
    | startElement name atts => simp [wellNested] at hwn
    | endElement name => simp [wellNested] at hwn
    | characterData chars len => simp [wellNested] at hwn
    | comment c =>
      simp only [wellNested] at hwn
      simp only [runEvents, Event.handle, start_comment_decl_handler]
      split_ifs
      · obtain ⟨s1, r1, h1, h2, h3, _⟩ := ih r hwn
        exact ⟨s1, r1, h1, h2, h3, fun h => by simp [noComment] at h⟩
      · have hw : walkSteps 0 = 0 := rfl
        simp only [hw, walkCld]
        obtain ⟨s1, r1, h1, h2, h3, _⟩ := ih (r.setChildren
          (r.children ++ [(Node.new docTag none).setCdata (docText c)])) hwn
        exact ⟨s1, r1, h1, h2, Node.sameData_trans h3 (Node.sameData_setChildren _ _),
          fun h => by simp [noComment] at h⟩
    | startDoctype =>
      simp only [wellNested] at hwn
      simp only [runEvents, Event.handle, doctype_decl_handler]
      obtain ⟨s1, r1, h1, h2, h3, h4⟩ := ih r hwn
      exact ⟨s1, r1, h1, h2, h3, fun h => h4 (by simpa [noComment] using h)⟩
    | endDoctype =>
      simp only [wellNested] at hwn
      simp only [runEvents, Event.handle, doctype_decl_handler]
      obtain ⟨s1, r1, h1, h2, h3, h4⟩ := ih r hwn
      exact ⟨s1, r1, h1, h2, h3, fun h => h4 (by simpa [noComment] using h)⟩

theorem start_shape (name : Str) (atts : List (Str × Str)) (r : Node) (flag : Bool) (d : Int)
    (s2 : Document) (h : (Event.startElement name atts).handle ⟨some r, flag, d⟩ = some s2) :
    ∃ cs, walkCld (walkSteps d) (pushElement (Node.new name (some atts))) r.children = some cs
      ∧ s2 = ⟨some (r.setChildren cs), flag, d + 1⟩ := by
  simp only [Event.handle, start_element_handler] at h
  split at h
  · exact absurd h (by simp)
  · rename_i cs hcs
    simp only [Option.some.injEq] at h
    exact ⟨cs, hcs, h.symm⟩

theorem cdata_shape (chars : Str) (len : Int) (r : Node) (flag : Bool) (d : Int)
    (s2 : Document) (h : (Event.characterData chars len).handle ⟨some r, flag, d⟩ = some s2) :
    ∃ t r1, trimmedChunk chars len = some t
      ∧ walkNod (walkSteps d) (fun nod => nod.setCdata t) r = some r1
      ∧ s2 = ⟨some r1, flag, d⟩ := by
  simp only [Event.handle, character_data_handler] at h
  split at h
  · exact absurd h (by simp)
  · split at h
    · exact absurd h (by simp)
    · rename_i t ht _ r1 hr1
      simp only [Option.some.injEq] at h
      exact ⟨t, r1, ht, hr1, h.symm⟩

theorem comment_shape (c : Str) (r : Node) (flag : Bool) (d : Int) (s2 : Document)
    (h : (Event.comment c).handle ⟨some r, flag, d⟩ = some s2) :
    (folds flag c = false ∧ s2 = ⟨some r, flag, d⟩)
      ∨ (folds flag c = true ∧ ∃ cs, walkCld (walkSteps d)
          (fun cld => cld ++ [(Node.new docTag none).setCdata (docText c)]) r.children = some cs
        ∧ s2 = ⟨some (r.setChildren cs), flag, d⟩) := by
  simp only [Event.handle, start_comment_decl_handler] at h
  rw [not_folds_eq] at h
  cases hf : folds flag c with
  | false =>
    left
    simp only [hf, Bool.not_false, if_true, Option.some.injEq] at h
    exact ⟨rfl, h.symm⟩
  | true =>
    right
    simp only [hf, Bool.not_true, Bool.false_eq_true, if_false] at h
    split at h
    · exact absurd h (by simp)
    · rename_i cs hcs
      simp only [Option.some.injEq] at h
      exact ⟨rfl, cs, hcs, h.symm⟩

theorem walkSteps_cast (n : Nat) : walkSteps ((n : Int) + 1) = n := by
  unfold walkSteps; omega

/-- While an element stays open, and after it is closed, its data (tag, attributes, text,
documentation) is kept by every callback other than a character-data event delivered while it
is the innermost open element. `j` is the number of walk steps to the element, `inner` the number
of elements open inside it. -/
theorem textKept_run (es : List Event) (s : Document) (j inner : Nat) (r Pc : Node)
    (hinv : ChainInv s) (hsp : SpineInv s) (hd : s.m_depth = (j : Int) + 1 + inner)
    (hr : s.root = some r) (hP : readNod j r = some Pc)
    (hwn : wellNested (j + 1 + inner) true es = true) (hnd : noDocElement es = true)
    (hk : textKept inner es = true) :
    ∃ s1 r1 P1, runEvents s es = some s1 ∧ s1.root = some r1
      ∧ r1.getAt (spinePath j r) = some P1 ∧ P1.sameData Pc := by
  induction es generalizing s inner r Pc with
  | nil => exact ⟨s, r, Pc, rfl, hr, getAt_spinePath j r Pc hP, Node.sameData_refl Pc⟩
  | cons e es ih =>
    have hdef : ∃ s2, e.handle s = some s2 := by
      apply handle_isSome e s hinv
      intro chars len he
      subst he
      simp only [wellNested, Bool.and_eq_true, decide_eq_true_eq] at hwn
      exact ⟨by simp [hr], hwn.1.1.2, hwn.1.2⟩
    obtain ⟨s2, hs2⟩ := hdef
    have hinv2 := handle_inv e s s2 hinv hs2
    have hsp2 : SpineInv s2 := by
      refine handle_spine e s s2 hsp ?_ hs2
      intro name atts he
      subst he
      simp only [noDocElement, Bool.and_eq_true, decide_eq_true_eq] at hnd
      exact hnd.1
    obtain ⟨root, flag, d⟩ := s
    simp only at hr hd
    subst hr
    have hws : walkSteps d = j + inner := by rw [hd]; unfold walkSteps; omega
    simp only [runEvents, hs2]
    cases e with
    | startElement name atts =>
      obtain ⟨cs, hcs, h2⟩ := start_shape name atts r flag d s2 hs2
      subst h2
      rw [hws] at hcs
      obtain ⟨P2, hP2, hsame⟩ := readNod_walkCld_data _ _ r cs hcs j (by omega) Pc hP
      simp only [wellNested, Bool.and_eq_true] at hwn
      simp only [noDocElement, Bool.and_eq_true] at hnd
      simp only [textKept] at hk
      obtain ⟨s1, r1, P1, h1, h3, h4, h5⟩ := ih _ (inner + 1) _ P2 hinv2 hsp2
        (by simp only [hd]; push_cast; ring) rfl hP2 hwn.2 hnd.2 hk
      rw [spinePath_walkCld _ _ r cs hcs j (by omega)] at h4
      exact ⟨s1, r1, P1, h1, h3, h4, Node.sameData_trans h5 hsame⟩
    | endElement name =>
      simp only [Event.handle, end_element_handler, Option.some.injEq] at hs2
      subst hs2
      simp only [wellNested, Bool.and_eq_true, decide_eq_true_eq] at hwn
      simp only [noDocElement] at hnd
      cases inner with
      | zero =>
        cases j with
        | zero =>
          simp only [readNod, Option.some.injEq] at hP
          subst hP
          have hd0 : d - 1 = 0 := by rw [hd]; simp
          rw [hd0]
          obtain ⟨s1, r1, h1, h2, h3, _⟩ := root_closed_run es r flag (by simpa using hwn.2)
          exact ⟨s1, r1, r1, h1, h2, rfl, h3⟩
        | succ j =>
          have hsafe : safeAt Pc (spinePath (j + 1) r) j r := by
            refine safeAt_of_readNod Pc j r ?_ hP
            have := hsp r rfl
            simp only [hws] at this
            exact this
          have hw1 : walkSteps (d - 1) = j := by rw [hd]; unfold walkSteps; omega
          obtain ⟨s1, r1, h1, h2, h3⟩ := frozen_run Pc (spinePath (j + 1) r) es
            ⟨some r, flag, d - 1⟩ (j + 1) r hinv2 (by simp only [hd]; push_cast; ring) rfl
            (by simpa using hwn.2) (by simp only [hw1]; exact hsafe)
          exact ⟨s1, r1, Pc, h1, h2, h3, Node.sameData_refl Pc⟩
      | succ inner =>
        simp only [textKept] at hk
        have hn : j + 1 + (inner + 1) - 1 = j + 1 + inner := by omega
        rw [hn] at hwn
        exact ih _ inner r Pc hinv2 hsp2 (by simp only [hd]; push_cast; ring) rfl hP
          hwn.2 hnd hk
    | characterData chars len =>
      obtain ⟨t, r1, ht, hr1, h2⟩ := cdata_shape chars len r flag d s2 hs2
      subst h2
      rw [hws] at hr1
      simp only [wellNested, Bool.and_eq_true] at hwn
      simp only [noDocElement] at hnd
      have hk1 : 1 ≤ inner ∧ textKept inner es = true := by
        cases inner with
        | zero => simp [textKept] at hk
        | succ i => exact ⟨by omega, by simpa [textKept] using hk⟩
      obtain ⟨P2, hP2, hsame⟩ := readNod_walkNod_data _ _ r r1 hr1 j (by omega) Pc hP
      obtain ⟨s1, r3, P1, h1, h3, h4, h5⟩ := ih _ inner _ P2 hinv2 hsp2 hd rfl hP2 hwn.2 hnd
        hk1.2
      rw [spinePath_walkNod _ _ r r1 hr1 j (by omega)] at h4
      exact ⟨s1, r3, P1, h1, h3, h4, Node.sameData_trans h5 hsame⟩
    | comment c =>
      simp only [wellNested] at hwn
      simp only [noDocElement] at hnd
      have hk1 : textKept inner es = true := by
        cases inner <;> simpa [textKept] using hk
      rcases comment_shape c r flag d s2 hs2 with ⟨_, h2⟩ | ⟨_, cs, hcs, h2⟩
      · subst h2
        exact ih _ inner r Pc hinv2 hsp2 hd rfl hP hwn hnd hk1
      · subst h2
        rw [hws] at hcs
        obtain ⟨P2, hP2, hsame⟩ := readNod_walkCld_data _ _ r cs hcs j (by omega) Pc hP
        obtain ⟨s1, r1, P1, h1, h3, h4, h5⟩ := ih _ inner _ P2 hinv2 hsp2 hd rfl hP2 hwn hnd
          hk1
        rw [spinePath_walkCld _ _ r cs hcs j (by omega)] at h4
        exact ⟨s1, r1, P1, h1, h3, h4, Node.sameData_trans h5 hsame⟩
    | startDoctype =>
      simp only [Event.handle, doctype_decl_handler, Option.some.injEq] at hs2
      subst hs2
      simp only [wellNested] at hwn
      simp only [noDocElement] at hnd
      have hk1 : textKept inner es = true := by
        cases inner <;> simpa [textKept] using hk
      exact ih _ inner r Pc hinv2 hsp2 hd rfl hP hwn hnd hk1
    | endDoctype =>
      simp only [Event.handle, doctype_decl_handler, Option.some.injEq] at hs2
      subst hs2
      simp only [wellNested] at hwn
      simp only [noDocElement] at hnd
      have hk1 : textKept inner es = true := by
        cases inner <;> simpa [textKept] using hk
      exact ih _ inner r Pc hinv2 hsp2 hd rfl hP hwn hnd hk1

/-- After a documentation node has been pushed under the element `Pc`, events that neither open
a child of it nor are comments leave its children as they are, also after it is closed. -/
theorem docKept_run (es : List Event) (s : Document) (j : Nat) (r Pc : Node)
    (hinv : ChainInv s) (hsp : SpineInv s) (hd : s.m_depth = (j : Int) + 1)
    (hr : s.root = some r) (hP : readNod j r = some Pc)
    (hwn : wellNested (j + 1) true es = true) (hno : noChildOpened es = true)
    (hnc : noComment es = true) :
    ∃ s1 r1 P1, runEvents s es = some s1 ∧ s1.root = some r1
      ∧ r1.getAt (spinePath j r) = some P1 ∧ P1.name = Pc.name ∧ P1.m_attrs = Pc.m_attrs
      ∧ P1.doc = Pc.doc ∧ P1.children = Pc.children := by
  induction es generalizing s r Pc with
  | nil => exact ⟨s, r, Pc, rfl, hr, getAt_spinePath j r Pc hP, rfl, rfl, rfl, rfl⟩
  | cons e es ih =>
    have hdef : ∃ s2, e.handle s = some s2 := by
      apply handle_isSome e s hinv
      intro chars len he
      subst he
      simp only [wellNested, Bool.and_eq_true, decide_eq_true_eq] at hwn
      exact ⟨by simp [hr], hwn.1.1.2, hwn.1.2⟩
    obtain ⟨s2, hs2⟩ := hdef
    have hinv2 := handle_inv e s s2 hinv hs2
    have hsp2 : SpineInv s2 := by
      refine handle_spine e s s2 hsp ?_ hs2
      intro name atts he
      subst he
      simp [noChildOpened] at hno
    obtain ⟨root, flag, d⟩ := s
    simp only at hr hd
    subst hr
    have hws : walkSteps d = j := by rw [hd]; unfold walkSteps; omega
    simp only [runEvents, hs2]
    cases e with
    | startElement name atts => simp [noChildOpened] at hno
    | endElement name =>
      simp only [Event.handle, end_element_handler, Option.some.injEq] at hs2
      subst hs2
      simp only [wellNested, Bool.and_eq_true, decide_eq_true_eq] at hwn
      simp only [noComment] at hnc
      cases j with
      | zero =>
        simp only [readNod, Option.some.injEq] at hP
        subst hP
        have hd0 : d - 1 = 0 := by rw [hd]; simp
        rw [hd0]
        obtain ⟨s1, r1, h1, h2, _, h4⟩ := root_closed_run es r flag (by simpa using hwn.2)
        have h5 := h4 hnc
        subst h5
        exact ⟨s1, r1, r1, h1, h2, rfl, rfl, rfl, rfl, rfl⟩
      | succ j =>
        have hsafe : safeAt Pc (spinePath (j + 1) r) j r := by
          refine safeAt_of_readNod Pc j r ?_ hP
          have := hsp r rfl
          simp only [hws] at this
          exact this
        have hw1 : walkSteps (d - 1) = j := by rw [hd]; unfold walkSteps; omega
        obtain ⟨s1, r1, h1, h2, h3⟩ := frozen_run Pc (spinePath (j + 1) r) es
          ⟨some r, flag, d - 1⟩ (j + 1) r hinv2 (by simp only [hd]; push_cast; ring) rfl
          (by simpa using hwn.2) (by simp only [hw1]; exact hsafe)
        exact ⟨s1, r1, Pc, h1, h2, h3, rfl, rfl, rfl, rfl⟩
    | characterData chars len =>
      obtain ⟨t, r1, ht, hr1, h2⟩ := cdata_shape chars len r flag d s2 hs2
      subst h2
      rw [hws] at hr1
      simp only [wellNested, Bool.and_eq_true] at hwn
      simp only [noChildOpened] at hno
      simp only [noComment] at hnc
      have hP2 : readNod j r1 = some (Pc.setCdata t) := by
        rw [readNod_walkNod _ j r r1 hr1, hP]; rfl
      obtain ⟨s1, r3, P1, h1, h3, h4, h5, h6, h7, h8⟩ := ih _ _ _ hinv2 hsp2 hd rfl hP2 hwn.2
        hno hnc
      rw [spinePath_walkNod _ _ r r1 hr1 j (le_refl j)] at h4
      exact ⟨s1, r3, P1, h1, h3, h4, by simpa using h5, by simpa using h6, by simpa using h7,
        by simpa using h8⟩
    | comment c => simp [noComment] at hnc
    | startDoctype =>
      simp only [Event.handle, doctype_decl_handler, Option.some.injEq] at hs2
      subst hs2
      simp only [wellNested] at hwn
      simp only [noChildOpened] at hno
      simp only [noComment] at hnc
      exact ih _ r Pc hinv2 hsp2 hd rfl hP hwn hno hnc
    | endDoctype =>
      simp only [Event.handle, doctype_decl_handler, Option.some.injEq] at hs2
      subst hs2
      simp only [wellNested] at hwn
      simp only [noChildOpened] at hno
      simp only [noComment] at hnc
      exact ih _ r Pc hinv2 hsp2 hd rfl hP hwn hno hnc

theorem wellNested_suffix (p q : List Event) (n : Nat) (b : Bool)
    (h : wellNested n b (p ++ q) = true) :
    wellNested (openAfter n p).toNat (b || p.any Event.opens) q = true := by
  induction p generalizing n b with
  | nil => simpa [openAfter] using h
  | cons e p ih =>
    cases e with
    | startElement name atts =>
      simp only [List.cons_append, wellNested, Bool.and_eq_true] at h
      have := ih (n + 1) true h.2
      simpa [openAfter, Event.depthAfter, Event.opens] using this
    | endElement name =>
      simp only [List.cons_append, wellNested, Bool.and_eq_true, decide_eq_true_eq] at h
      have := ih (n - 1) b h.2
      have e1 : ((n - 1 : Nat) : Int) = (n : Int) - 1 := by omega
      rw [e1] at this
      simpa [openAfter, Event.depthAfter, Event.opens] using this
    | characterData chars len =>
      simp only [List.cons_append, wellNested, Bool.and_eq_true] at h
      simpa [openAfter, Event.depthAfter, Event.opens] using ih n b h.2
    | comment c =>
      simp only [List.cons_append, wellNested] at h
      simpa [openAfter, Event.depthAfter, Event.opens] using ih n b h
    | startDoctype =>
      simp only [List.cons_append, wellNested] at h
      simpa [openAfter, Event.depthAfter, Event.opens] using ih n b h
    | endDoctype =>
      simp only [List.cons_append, wellNested] at h
      simpa [openAfter, Event.depthAfter, Event.opens] using ih n b h

theorem opens_of_openAfter (p : List Event) (n : Int) (h : n < openAfter n p) :
    p.any Event.opens = true := by
  induction p generalizing n with
  | nil => simp [openAfter] at h
  | cons e p ih =>
    cases e with
    | startElement name atts => simp [Event.opens]
    | endElement name =>
      simp only [openAfter, Event.depthAfter] at h
      simpa [Event.opens] using ih (n - 1) (by omega)
    | characterData chars len =>
      simp only [openAfter, Event.depthAfter] at h
      simpa [Event.opens] using ih n h
    | comment c =>
      simp only [openAfter, Event.depthAfter] at h
      simpa [Event.opens] using ih n h
    | startDoctype =>
      simp only [openAfter, Event.depthAfter] at h
      simpa [Event.opens] using ih n h
    | endDoctype =>
      simp only [openAfter, Event.depthAfter] at h
      simpa [Event.opens] using ih n h

theorem noDocElement_append (p q : List Event) :
    noDocElement (p ++ q) = (noDocElement p && noDocElement q) := by
  induction p with
  | nil => simp [noDocElement]
  | cons e p ih => cases e <;> simp [noDocElement, ih, Bool.and_assoc]

/-- The state the callbacks reach on the events before an event delivered while an element is
open, with what the later lemmas need about it. -/
theorem open_state (flag : Bool) (pre rest : List Event)
    (hwn : wellNested 0 false (pre ++ rest) = true) (hnd : noDocElement (pre ++ rest) = true)
    (hopen : 1 ≤ openAfter 0 pre) :
    ∃ (r : Node) (d : Int) (j : Nat) (P : Node),
      runEvents (Document.new flag) pre = some ⟨some r, flag, d⟩
      ∧ d = (j : Int) + 1 ∧ walkSteps d = j ∧ ChainInv ⟨some r, flag, d⟩
      ∧ SpineInv ⟨some r, flag, d⟩ ∧ readNod j r = some P
      ∧ wellNested (j + 1) true rest = true ∧ noDocElement rest = true := by
  have hnew : ChainInv (Document.new flag) := by simp [ChainInv, Document.new]
  obtain ⟨s, hs⟩ := runEvents_wellNested pre (Document.new flag) 0 false hnew
    (by simp [Document.new]) (by intro h; omega) (wellNested_of_append pre rest 0 false hwn)
  obtain ⟨f1, f2, _⟩ := runEvents_facts pre _ s hs
  have hinv : ChainInv s := runEvents_inv pre _ s hnew hs
  rw [noDocElement_append, Bool.and_eq_true] at hnd
  have hsp : SpineInv s := by
    refine runEvents_spine pre _ s ?_ hnd.1 hs
    intro r hr; simp [Document.new] at hr
  obtain ⟨root, flag1, d⟩ := s
  simp only [Document.new] at f1 f2
  subst f1
  cases root with
  | none =>
    simp only [ChainInv] at hinv
    omega
  | some r =>
    have hd1 : 1 ≤ d := by rw [f2]; exact hopen
    have hc : hasChain (walkSteps d) r = true := by simpa [ChainInv] using hinv
    obtain ⟨P, hP⟩ := readNod_of_hasChain _ r hc
    refine ⟨r, d, walkSteps d, P, hs, by unfold walkSteps; omega, rfl, hinv, hsp, hP, ?_, hnd.2⟩
    have h1 := wellNested_suffix pre rest 0 false hwn
    have h2 := opens_of_openAfter pre 0 (by omega)
    rw [h2] at h1
    have h3 : (openAfter (0 : Nat) pre).toNat = walkSteps d + 1 := by
      unfold walkSteps
      simp only [Nat.cast_zero]
      omega
    rw [h3] at h1
    simpa using h1

/-! ## The walk and the open elements -/

@[simp] theorem Node.m_attrs_setDoc (n : Node) (t : Str) : (n.setDoc t).m_attrs = n.m_attrs := by
  cases n; rfl

theorem pushElement_getLast_attrs (n : Node) (l : List Node) :
    ∃ b, (pushElement n l).getLast? = some b ∧ b.name = n.name ∧ b.m_attrs = n.m_attrs := by
  unfold pushElement
  cases hl : l.getLast? with
  | none => exact ⟨n, by simp, rfl, rfl⟩
  | some b1 =>
    simp only []
    split_ifs
    · exact ⟨n.setDoc b1.cdata, by simp, by simp, by simp⟩
    · exact ⟨n, by simp, rfl, rfl⟩

theorem readNod_pushed (n : Node) (k : Nat) (r : Node) (cs : List Node)
    (h : walkCld k (pushElement n) r.children = some cs) :
    ∃ b, readNod (k + 1) (r.setChildren cs) = some b ∧ b.name = n.name
      ∧ b.m_attrs = n.m_attrs := by
  induction k generalizing r cs with
  | zero =>
    simp only [walkCld, Option.some.injEq] at h
    subst h
    obtain ⟨b, hb, h1, h2⟩ := pushElement_getLast_attrs n r.children
    exact ⟨b, by simp [readNod, hb], h1, h2⟩
  | succ k ih =>
    obtain ⟨d, b, cs1, h1, h2, h3⟩ := walkCld_succ_eq _ k _ cs h
    subst h3
    rw [readNod_concat (k + 1) _ d (b.setChildren cs1) (by simp)]
    exact ih b cs1 h2

theorem TagSpine_nil (r : Node) : TagSpine r [] := by
  intro i x h; simp at h

theorem TagSpine_tail (r : Node) (st : List (Str × List (Str × Str))) (h : TagSpine r st) :
    TagSpine r st.tail := by
  cases st with
  | nil => exact h
  | cons y st =>
    intro i x hx
    obtain ⟨n, hn, h1, h2⟩ := h (i + 1) x (by simpa using hx)
    have hlt : i < st.length := by
      by_contra hc
      rw [List.tail_cons, List.getElem?_eq_none (by omega)] at hx
      exact absurd hx (by simp)
    refine ⟨n, ?_, h1, h2⟩
    have e : (y :: st).length - 1 - (i + 1) = (y :: st).tail.length - 1 - i := by
      simp only [List.length_cons, List.tail_cons]; omega
    rw [← e]; exact hn

/-- A callback that changes nothing but the children, the text or the documentation of nodes
keeps the tags along the walk. -/
theorem TagSpine_of_data (r r1 : Node) (st : List (Str × List (Str × Str)))
    (h : TagSpine r st)
    (hd : ∀ j n, j < st.length → readNod j r = some n →
      ∃ n1, readNod j r1 = some n1 ∧ n1.name = n.name ∧ n1.m_attrs = n.m_attrs) :
    TagSpine r1 st := by
  intro i x hx
  obtain ⟨n, hn, h1, h2⟩ := h i x hx
  have hlt : i < st.length := by
    by_contra hc
    rw [List.getElem?_eq_none (by omega)] at hx
    exact absurd hx (by simp)
  obtain ⟨n1, hn1, h3, h4⟩ := hd _ n (by omega) hn
  exact ⟨n1, hn1, h3.trans h1, h4.trans h2⟩

theorem handle_tags (e : Event) (r : Node) (flag : Bool) (st : List (Str × List (Str × Str)))
    (s1 : Document) (hwn : wellNested st.length true [e] = true) (ht : TagSpine r st)
    (h : e.handle ⟨some r, flag, (st.length : Int)⟩ = some s1) :
    ∃ r1, s1 = ⟨some r1, flag, ((openElements st [e]).length : Int)⟩
      ∧ TagSpine r1 (openElements st [e]) := by
  have hws : walkSteps (st.length : Int) = st.length - 1 := by unfold walkSteps; omega
  cases e with
  | startElement name atts =>
    obtain ⟨cs, hcs, h2⟩ := start_shape name atts r flag _ s1 h
    subst h2
    simp only [wellNested, Bool.and_eq_true, Bool.or_eq_true, decide_eq_true_eq] at hwn
    have h1 : 1 ≤ st.length := by
      rcases hwn.1 with h | h
      · exact h
      · simp at h
    rw [hws] at hcs
    refine ⟨r.setChildren cs, by simp [openElements], ?_⟩
    simp only [openElements]
    intro i x hx
    cases i with
    | zero =>
      simp only [List.getElem?_cons_zero, Option.some.injEq] at hx
      subst hx
      obtain ⟨b, hb, hb1, hb2⟩ := readNod_pushed _ _ r cs hcs
      refine ⟨b, ?_, by simpa using hb1, hb2⟩
      have e : ((name, atts) :: st).length - 1 - 0 = st.length - 1 + 1 := by
        simp only [List.length_cons]; omega
      rw [e]; exact hb
    | succ i =>
      simp only [List.getElem?_cons_succ] at hx
      obtain ⟨n, hn, hn1, hn2⟩ := ht i x hx
      obtain ⟨n1, h3, h4⟩ := readNod_walkCld_data _ _ r cs hcs (st.length - 1 - i) (by omega)
        n hn
      refine ⟨n1, ?_, h4.1.trans hn1, h4.2.1.trans hn2⟩
      have e : ((name, atts) :: st).length - 1 - (i + 1) = st.length - 1 - i := by
        simp only [List.length_cons]; omega
      rw [e]; exact h3
  | endElement name =>
    simp only [Event.handle, end_element_handler, Option.some.injEq] at h
    subst h
    simp only [wellNested, Bool.and_eq_true, decide_eq_true_eq] at hwn
    refine ⟨r, ?_, TagSpine_tail r st ht⟩
    simp only [openElements, List.length_tail]
    congr 1
    omega
  | characterData chars len =>
    obtain ⟨t, r1, _, hr1, h2⟩ := cdata_shape chars len r flag _ s1 h
    subst h2
    rw [hws] at hr1
    refine ⟨r1, rfl, TagSpine_of_data r r1 st ht ?_⟩
    intro j n hj hn
    rcases Nat.lt_or_ge j (st.length - 1) with hlt | hge
    · obtain ⟨n1, h3, h4⟩ := readNod_walkNod_data _ _ r r1 hr1 j hlt n hn
      exact ⟨n1, h3, h4.1, h4.2.1⟩
    · have : j = st.length - 1 := by omega
      subst this
      refine ⟨n.setCdata t, ?_, by simp, by simp⟩
      rw [readNod_walkNod _ _ r r1 hr1, hn]; rfl
  | comment c =>
    rcases comment_shape c r flag _ s1 h with ⟨_, h2⟩ | ⟨_, cs, hcs, h2⟩
    · subst h2; exact ⟨r, rfl, ht⟩
    · subst h2
      rw [hws] at hcs
      refine ⟨_, rfl, TagSpine_of_data r _ st ht ?_⟩
      intro j n hj hn
      obtain ⟨n1, h3, h4⟩ := readNod_walkCld_data _ _ r cs hcs j (by omega) n hn
      exact ⟨n1, h3, h4.1, h4.2.1⟩
  | startDoctype =>
    simp only [Event.handle, doctype_decl_handler, Option.some.injEq] at h
    subst h; exact ⟨r, rfl, ht⟩
  | endDoctype =>
    simp only [Event.handle, doctype_decl_handler, Option.some.injEq] at h
    subst h; exact ⟨r, rfl, ht⟩

theorem openElements_cons (st : List (Str × List (Str × Str))) (e : Event) (es : List Event) :
    openElements st (e :: es) = openElements (openElements st [e]) es := by
  cases e <;> rfl

theorem wellNested_cons (n : Nat) (e : Event) (es : List Event)
    (st : List (Str × List (Str × Str))) (hn : n = st.length)
    (h : wellNested n true (e :: es) = true) :
    wellNested n true [e] = true ∧ wellNested (openElements st [e]).length true es = true := by
  subst hn
  cases e with
  | startElement name atts =>
    simp only [wellNested, Bool.and_eq_true] at h ⊢
    exact ⟨⟨h.1, trivial⟩, by simpa [openElements] using h.2⟩
  | endElement name =>
    simp only [wellNested, Bool.and_eq_true] at h ⊢
    exact ⟨⟨h.1, trivial⟩, by simpa [openElements] using h.2⟩
  | characterData chars len =>
    simp only [wellNested, Bool.and_eq_true] at h ⊢
    exact ⟨⟨h.1, trivial⟩, by simpa [openElements] using h.2⟩
  | comment c => exact ⟨rfl, by simpa [wellNested, openElements] using h⟩
  | startDoctype => exact ⟨rfl, by simpa [wellNested, openElements] using h⟩
  | endDoctype => exact ⟨rfl, by simpa [wellNested, openElements] using h⟩

theorem tags_run (es : List Event) (s s1 : Document) (st : List (Str × List (Str × Str)))
    (rootSeen : Bool) (hwn : wellNested st.length rootSeen es = true)
    (hd : s.m_depth = st.length)
    (hnone : s.root = none → st = [] ∧ rootSeen = false ∧ rootFirst s.m_copyDoxygen es = true)
    (hsome : ∀ r, s.root = some r → rootSeen = true ∧ TagSpine r st)
    (h : runEvents s es = some s1) :
    s1.m_depth = (openElements st es).length
      ∧ ∀ r1, s1.root = some r1 → TagSpine r1 (openElements st es) := by
  induction es generalizing s st rootSeen with
  | nil =>
    simp only [runEvents, Option.some.injEq] at h
    subst h
    exact ⟨hd, fun r1 hr1 => (hsome r1 hr1).2⟩
  | cons e es ih =>
    simp only [runEvents] at h
    cases he : e.handle s with
    | none => simp [he] at h
    | some s2 =>
      simp only [he] at h
      obtain ⟨root, flag, d⟩ := s
      simp only at hd hnone hsome
      subst hd
      rw [openElements_cons]
      cases root with
      | none =>
        obtain ⟨h1, h2, h3⟩ := hnone rfl
        subst h1 h2
        cases e with
        | startElement name atts =>
          simp only [Event.handle, start_element_handler, Option.some.injEq] at he
          subst he
          simp only [wellNested, Bool.and_eq_true] at hwn
          refine ih _ [(name, atts)] true hwn.2 (by simp) (by intro h; simp at h) ?_ h
          intro r hr
          simp only [Option.some.injEq] at hr
          subst hr
          refine ⟨rfl, ?_⟩
          intro i x hx
          cases i with
          | zero =>
            simp only [List.getElem?_cons_zero, Option.some.injEq] at hx
            subst hx
            exact ⟨_, rfl, by simp, rfl⟩
          | succ i => simp at hx
        | endElement name => simp [wellNested] at hwn
        | characterData chars len => simp [wellNested] at hwn
        | comment c =>
          simp only [rootFirst, Bool.and_eq_true, Bool.not_eq_true'] at h3
          have := comment_ignored ⟨none, flag, ((([] : List (Str × List (Str × Str))).length
            : Nat) : Int)⟩ c h3.1
          simp only [Event.handle] at he
          rw [this] at he
          simp only [Option.some.injEq] at he
          subst he
          simp only [wellNested] at hwn
          exact ih _ [] false hwn rfl (fun _ => ⟨rfl, rfl, h3.2⟩) (by intro r hr; simp at hr) h
        | startDoctype =>
          simp only [Event.handle, doctype_decl_handler, Option.some.injEq] at he
          subst he
          simp only [wellNested] at hwn
          simp only [rootFirst] at h3
          exact ih _ [] false hwn rfl (fun _ => ⟨rfl, rfl, h3⟩) (by intro r hr; simp at hr) h
        | endDoctype =>
          simp only [Event.handle, doctype_decl_handler, Option.some.injEq] at he
          subst he
          simp only [wellNested] at hwn
          simp only [rootFirst] at h3
          exact ih _ [] false hwn rfl (fun _ => ⟨rfl, rfl, h3⟩) (by intro r hr; simp at hr) h
      | some r =>
        obtain ⟨h1, h2⟩ := hsome r rfl
        subst h1
        obtain ⟨hw1, hw2⟩ := wellNested_cons st.length e es st rfl hwn
        obtain ⟨r1, hr1, ht1⟩ := handle_tags e r flag st s2 hw1 h2 he
        subst hr1
        exact ih _ _ true hw2 rfl (by intro h; simp at h)
          (by intro r2 hr2; simp only [Option.some.injEq] at hr2; subst hr2; exact ⟨rfl, ht1⟩) h

/-- When no comment is folded before the root element is opened, the node the walk reaches
while an element is open carries the tag and the attributes of the innermost open element. -/
theorem innermost_tag (flag : Bool) (pre : List Event) (s : Document) (r : Node)
    (hwn : wellNested 0 false pre = true) (hrf : rootFirst flag pre = true)
    (hs : runEvents (Document.new flag) pre = some s) (hr : s.root = some r)
    (hopen : 1 ≤ s.m_depth) :
    ∃ name atts rest P, openElements [] pre = (name, atts) :: rest
      ∧ readNod (walkSteps s.m_depth) r = some P ∧ P.name = name
      ∧ P.m_attrs = (Node.new name (some atts)).m_attrs := by
  obtain ⟨h1, h2⟩ := tags_run pre (Document.new flag) s [] false hwn (by simp [Document.new])
    (fun _ => ⟨rfl, rfl, by simpa [Document.new] using hrf⟩)
    (by intro r hr; simp [Document.new] at hr) hs
  have ht := h2 r hr
  cases hst : openElements [] pre with
  | nil => rw [hst] at h1; simp at h1; omega
  | cons x rest =>
    rw [hst] at ht h1
    obtain ⟨n, hn, hn1, hn2⟩ := ht 0 x (by simp)
    refine ⟨x.1, x.2, rest, n, rfl, ?_, hn1, hn2⟩
    have : walkSteps s.m_depth = (x :: rest).length - 1 - 0 := by
      rw [h1]; unfold walkSteps; simp
    rw [this]; exact hn

/-! ## Text is overwritten, not accumulated -/

/-- Text is overwritten, not accumulated, at the node the walk reaches. First part: in every
state the callbacks can reach in which an element is open, processing a character-data chunk and
then a second one yields exactly the state that processing the second alone yields; the node the
walk reaches
then holds the trimmed text of the second chunk, which depends on that chunk only, and at every
other position of the tree the node keeps its text (and every node keeps its tag, attributes,
documentation and number of children). Second part: for a well-nested event sequence without an
element tagged "doc", a character-data event delivered at the node `P` (the node the walk
reaches) after which no character data is delivered while `P` is the
innermost open element leaves, at the end of the sequence, the trimmed text of that event at the
position of `P`, under the same tag, attributes and documentation; and when no comment is folded
before the root element is opened, `P` carries the tag and attributes of the innermost open
element. -/
theorem text_overwritten_not_accumulated :
    (∀ (s : Document) (chars1 chars2 : Str) (len1 len2 : Int),
      Reachable s → 1 ≤ s.m_depth → 1 ≤ len1 → len1 ≤ chars1.length →
      1 ≤ len2 → len2 ≤ chars2.length →
      ∃ s2 r r2 t2,
        runEvents s [Event.characterData chars1 len1, Event.characterData chars2 len2] = some s2
        ∧ runEvents s [Event.characterData chars2 len2] = some s2
        ∧ trimmedChunk chars2 len2 = some t2
        ∧ s.root = some r ∧ s2 = ⟨some r2, s.m_copyDoxygen, s.m_depth⟩
        ∧ (readNod (walkSteps s.m_depth) r2).map Node.cdata = some t2
        ∧ ∀ q n, r.getAt q = some n →
            ∃ n2, r2.getAt q = some n2 ∧ n2.name = n.name ∧ n2.m_attrs = n.m_attrs
              ∧ n2.doc = n.doc ∧ n2.children.length = n.children.length
              ∧ n2.cdata = if q = spinePath (walkSteps s.m_depth) r then t2 else n.cdata)
    ∧ (∀ (flag : Bool) (pre post : List Event) (chars : Str) (len : Int),
      wellNested 0 false (pre ++ Event.characterData chars len :: post) = true →
      noDocElement (pre ++ Event.characterData chars len :: post) = true →
      textKept 0 post = true →
      ∃ s r P t sf rf Pf,
        runEvents (Document.new flag) pre = some s ∧ s.root = some r
        ∧ readNod (walkSteps s.m_depth) r = some P
        ∧ r.getAt (spinePath (walkSteps s.m_depth) r) = some P
        ∧ trimmedChunk chars len = some t
        ∧ runEvents (Document.new flag) (pre ++ Event.characterData chars len :: post) = some sf
        ∧ sf.root = some rf
        ∧ rf.getAt (spinePath (walkSteps s.m_depth) r) = some Pf
        ∧ Pf.cdata = t ∧ Pf.name = P.name ∧ Pf.m_attrs = P.m_attrs ∧ Pf.doc = P.doc
        ∧ (rootFirst flag pre = true → ∃ name atts rest,
            openElements [] pre = (name, atts) :: rest ∧ P.name = name
            ∧ P.m_attrs = (Node.new name (some atts)).m_attrs)) := by
  constructor
  · intro s chars1 chars2 len1 len2 hreach hopen h1 h2 h3 h4
    have hinv := reachable_inv s hreach
    obtain ⟨root, flag, d⟩ := s
    simp only at hopen
    cases root with
    | none => simp only [ChainInv] at hinv; omega
    | some r =>
      have hc : hasChain (walkSteps d) r = true := by simpa [ChainInv] using hinv
      obtain ⟨t1, ht1⟩ := trimmedChunk_isSome chars1 len1 h1 h2
      obtain ⟨t2, ht2⟩ := trimmedChunk_isSome chars2 len2 h3 h4
      obtain ⟨r1, hr1, _⟩ := walkNod_of_hasChain (fun nod => nod.setCdata t1) _ r hc
      obtain ⟨r2, hr2, _⟩ := walkNod_of_hasChain (fun nod => nod.setCdata t2) _ r hc
      have hr12 := walkNod_setCdata_twice t1 t2 _ r r1 hr1
      rw [hr2] at hr12
      obtain ⟨P, hP⟩ := readNod_of_hasChain _ r hc
      refine ⟨⟨some r2, flag, d⟩, r, r2, t2, ?_, ?_, ht2, rfl, rfl, ?_, ?_⟩
      · simp [runEvents, Event.handle, character_data_handler, ht1, ht2, hr1, hr12]
      · simp [runEvents, Event.handle, character_data_handler, ht2, hr2]
      · simp only
        rw [readNod_walkNod _ _ r r2 hr2, hP]
        simp
      · intro q n hn
        exact walkNod_frame t2 _ r r2 hr2 q n hn
  · intro flag pre post chars len hwn hnd hk
    obtain ⟨hopen, hl1, hl2⟩ := wellNested_characterData pre post chars len 0 false hwn
    obtain ⟨r, d, j, P, hs, hd, hws, hinv, hsp, hP, hwn1, hnd1⟩ :=
      open_state flag pre _ hwn hnd (by simpa using hopen)
    obtain ⟨t, ht⟩ := trimmedChunk_isSome chars len hl1 hl2
    have hc : hasChain j r = true := by
      have : hasChain (walkSteps d) r = true := by simpa [ChainInv] using hinv
      rw [hws] at this
      exact this
    obtain ⟨r1, hr1, _⟩ := walkNod_of_hasChain (fun nod => nod.setCdata t) _ r hc
    have he : (Event.characterData chars len).handle ⟨some r, flag, d⟩
        = some ⟨some r1, flag, d⟩ := by
      simp [Event.handle, character_data_handler, ht, hws, hr1]
    have hP1 : readNod j r1 = some (P.setCdata t) := by
      rw [readNod_walkNod _ j r r1 hr1, hP]; rfl
    simp only [wellNested, Bool.and_eq_true] at hwn1
    simp only [noDocElement] at hnd1
    obtain ⟨sf, rf, Pf, h1, h2, h3, h4⟩ := textKept_run post ⟨some r1, flag, d⟩ j 0 r1
      (P.setCdata t) (handle_inv _ _ _ hinv he)
      (handle_spine _ _ _ hsp (fun _ _ h => by simp at h) he)
      (by simp only [hd]; push_cast; ring) rfl hP1 (by simpa using hwn1.2) hnd1 hk
    rw [spinePath_walkNod _ _ r r1 hr1 j (le_refl j)] at h3
    refine ⟨_, r, P, t, sf, rf, Pf, hs, rfl, by simp only [hws]; exact hP,
      by simp only [hws]; exact getAt_spinePath j r P hP, ht, ?_, h2,
      by simp only [hws]; exact h3, by simpa using h4.2.2.1, by simpa using h4.1,
      by simpa using h4.2.1, by simpa using h4.2.2.2, ?_⟩
    · rw [runEvents_append, hs]
      simp only [Option.some_bind, runEvents, he]
      exact h1
    · intro hrf
      obtain ⟨name, atts, rest, P1, e1, e2, e3, e4⟩ := innermost_tag flag pre _ r
        (wellNested_of_append pre _ 0 false hwn) hrf hs rfl (by simp only [hd]; omega)
      simp only [hws, hP, Option.some.injEq] at e2
      subst e2
      exact ⟨name, atts, rest, e1, e3, e4⟩

/-! ## Unconsumed documentation -/

/-- Unconsumed documentation at the node the walk reaches. For a well-nested event sequence in
which no element is tagged "doc": when a documentation comment (body containing "@brief",
folding enabled) is processed while an element is open, `P` being the node the walk reaches,
and afterwards no
element is opened before `P` is closed and no comment follows, then at the end of the sequence
the node at the position of `P` has the tag, attributes and documentation of `P`, and its
children are those `P` had followed by one node tagged "doc" without children whose text is the
normalized comment text; and when no comment is folded before the root element is opened, `P`
carries the tag and attributes of the innermost open element. -/
theorem unconsumed_doc_stays_last_child (pre post : List Event) (c : Str)
    (hwn : wellNested 0 false (pre ++ Event.comment c :: post) = true)
    (hnd : noDocElement (pre ++ Event.comment c :: post) = true)
    (hopen : 1 ≤ openAfter 0 pre)
    (hbrief : strstr c "@brief".toList = true)
    (hno : noChildOpened post = true) (hnc : noComment post = true) :
    ∃ s r P sf rf Pf D,
      runEvents (Document.new true) pre = some s ∧ s.root = some r
      ∧ readNod (walkSteps s.m_depth) r = some P
      ∧ r.getAt (spinePath (walkSteps s.m_depth) r) = some P
      ∧ runEvents (Document.new true) (pre ++ Event.comment c :: post) = some sf
      ∧ sf.root = some rf
      ∧ rf.getAt (spinePath (walkSteps s.m_depth) r) = some Pf
      ∧ Pf.name = P.name ∧ Pf.m_attrs = P.m_attrs ∧ Pf.doc = P.doc
      ∧ Pf.children = P.children ++ [D]
      ∧ D.name = docTag ∧ D.children = [] ∧ D.cdata = docText c ∧ D.doc = []
      ∧ (rootFirst true pre = true → ∃ name atts rest,
          openElements [] pre = (name, atts) :: rest ∧ P.name = name
          ∧ P.m_attrs = (Node.new name (some atts)).m_attrs) := by
  obtain ⟨r, d, j, P, hs, hd, hws, hinv, hsp, hP, hwn1, hnd1⟩ :=
    open_state true pre _ hwn hnd hopen
  have hc : hasChain j r = true := by
    have : hasChain (walkSteps d) r = true := by simpa [ChainInv] using hinv
    rw [hws] at this
    exact this
  obtain ⟨cs, hcs, _⟩ := walkCld_of_hasChain
    (fun cld => cld ++ [(Node.new docTag none).setCdata (docText c)]) j r hc
  have hf : folds true c = true := by unfold folds; rw [hbrief]; rfl
  have he : (Event.comment c).handle ⟨some r, true, d⟩
      = some ⟨some (r.setChildren cs), true, d⟩ := by
    simp only [Event.handle, start_comment_decl_handler]
    rw [not_folds_eq, hf]
    simp [hws, hcs]
  have hP1 := readNod_walkCld_eq _ j r cs hcs P hP
  simp only [wellNested] at hwn1
  obtain ⟨sf, rf, Pf, h1, h2, h3, h4, h5, h6, h7⟩ := docKept_run post
    ⟨some (r.setChildren cs), true, d⟩ j _ _ (handle_inv _ _ _ hinv he)
    (handle_spine _ _ _ hsp (fun _ _ h => by simp at h) he) hd rfl hP1 hwn1 hno hnc
  rw [spinePath_walkCld _ _ r cs hcs j (le_refl j)] at h3
  refine ⟨_, r, P, sf, rf, Pf, (Node.new docTag none).setCdata (docText c), hs, rfl,
    by simp only [hws]; exact hP, by simp only [hws]; exact getAt_spinePath j r P hP, ?_, h2,
    by simp only [hws]; exact h3, by simpa using h4, by simpa using h5, by simpa using h6,
    by simpa using h7, by simp, by simp, by simp, rfl, ?_⟩
  · rw [runEvents_append, hs]
    simp only [Option.some_bind, runEvents, he]
    exact h1
  · intro hrf
    obtain ⟨name, atts, rest, P1, e1, e2, e3, e4⟩ := innermost_tag true pre _ r
      (wellNested_of_append pre _ 0 false hwn) hrf hs rfl (by simp only [hd]; omega)
    simp only [hws, hP, Option.some.injEq] at e2
    subst e2
    exact ⟨name, atts, rest, e1, e3, e4⟩

/-- Unconsumed documentation at the events of `<a><b><!-- @brief d ... -->t</b><c/></a>` with
folding enabled; the comment is processed while `b` is open, `b` is closed without a child
being opened, and `b` keeps the documentation node as its last child. -/
theorem unconsumed_doc_stays_last_child_witness :
    wellNested 0 false
        ([Event.startElement "a".toList [], Event.startElement "b".toList []]
          ++ Event.comment " @brief d\n text\n".toList
            :: [Event.characterData "t".toList 1, Event.endElement "b".toList,
              Event.startElement "c".toList [], Event.endElement "c".toList,
              Event.endElement "a".toList]) = true
      ∧ ∃ s r P sf rf Pf D,
        runEvents (Document.new true)
            [Event.startElement "a".toList [], Event.startElement "b".toList []] = some s
        ∧ s.root = some r
        ∧ readNod (walkSteps s.m_depth) r = some P
        ∧ r.getAt (spinePath (walkSteps s.m_depth) r) = some P
        ∧ runEvents (Document.new true)
            ([Event.startElement "a".toList [], Event.startElement "b".toList []]
              ++ Event.comment " @brief d\n text\n".toList
                :: [Event.characterData "t".toList 1, Event.endElement "b".toList,
                  Event.startElement "c".toList [], Event.endElement "c".toList,
                  Event.endElement "a".toList]) = some sf
        ∧ sf.root = some rf
        ∧ rf.getAt (spinePath (walkSteps s.m_depth) r) = some Pf
        ∧ Pf.name = P.name ∧ Pf.m_attrs = P.m_attrs ∧ Pf.doc = P.doc
        ∧ Pf.children = P.children ++ [D]
        ∧ D.name = docTag ∧ D.children = [] ∧ D.cdata = docText " @brief d\n text\n".toList
        ∧ D.doc = []
        ∧ (rootFirst true [Event.startElement "a".toList [], Event.startElement "b".toList []]
            = true → ∃ name atts rest,
            openElements [] [Event.startElement "a".toList [], Event.startElement "b".toList []]
              = (name, atts) :: rest ∧ P.name = name
            ∧ P.m_attrs = (Node.new name (some atts)).m_attrs) :=
  ⟨by decide, unconsumed_doc_stays_last_child
    [Event.startElement "a".toList [], Event.startElement "b".toList []]
    [Event.characterData "t".toList 1, Event.endElement "b".toList,
      Event.startElement "c".toList [], Event.endElement "c".toList,
      Event.endElement "a".toList]
    " @brief d\n text\n".toList (by decide) (by decide) (by decide) (by decide) (by decide)
    (by decide)⟩

/-- Overwritten text at concrete inputs: in the state reached by opening `a`, the chunks "x"
and " y " in a row leave the state that " y " alone leaves; and in the events of
`<a>x<b>z</b></a>` the text "x"
delivered while `a` is the innermost open element is the text at the position of `a` at the
end. -/
theorem text_overwritten_not_accumulated_witness :
    Reachable ⟨some (Node.new "a".toList (some [])), false, 1⟩
      ∧ (∃ s2, runEvents ⟨some (Node.new "a".toList (some [])), false, 1⟩
            [Event.characterData "x".toList 1, Event.characterData " y ".toList 3] = some s2
          ∧ runEvents ⟨some (Node.new "a".toList (some [])), false, 1⟩
            [Event.characterData " y ".toList 3] = some s2)
      ∧ wellNested 0 false
          ([Event.startElement "a".toList []]
            ++ Event.characterData "x".toList 1
              :: [Event.startElement "b".toList [], Event.characterData "z".toList 1,
                Event.endElement "b".toList, Event.endElement "a".toList]) = true
      ∧ (∃ t sf rf Pf, trimmedChunk "x".toList 1 = some t
          ∧ runEvents (Document.new false)
            ([Event.startElement "a".toList []]
              ++ Event.characterData "x".toList 1
                :: [Event.startElement "b".toList [], Event.characterData "z".toList 1,
                  Event.endElement "b".toList, Event.endElement "a".toList]) = some sf
          ∧ sf.root = some rf ∧ rf.getAt [] = some Pf ∧ Pf.cdata = t
          ∧ Pf.name = "a".toList) := by
  refine ⟨⟨false, [Event.startElement "a".toList []], rfl⟩, ?_, by decide, ?_⟩
  · obtain ⟨s2, _, _, _, h1, h2, _⟩ := text_overwritten_not_accumulated.1
      ⟨some (Node.new "a".toList (some [])), false, 1⟩ "x".toList " y ".toList 1 3
      ⟨false, [Event.startElement "a".toList []], rfl⟩ (by decide) (by decide) (by decide)
      (by decide) (by decide)
    exact ⟨s2, h1, h2⟩
  · obtain ⟨s, r, P, t, sf, rf, Pf, h1, h2, h3, h4, h5, h6, h7, h8, h9, h10, _⟩ :=
      text_overwritten_not_accumulated.2 false [Event.startElement "a".toList []]
        [Event.startElement "b".toList [], Event.characterData "z".toList 1,
          Event.endElement "b".toList, Event.endElement "a".toList] "x".toList 1
        (by decide) (by decide) (by decide)
    have hs : s = ⟨some (Node.new "a".toList (some [])), false, 1⟩ := by
      have : runEvents (Document.new false) [Event.startElement "a".toList []]
          = some ⟨some (Node.new "a".toList (some [])), false, 1⟩ := rfl
      rw [this] at h1
      exact (Option.some.inj h1).symm
    subst hs
    simp only [Option.some.injEq] at h2
    subst h2
    have hw : walkSteps (1 : Int) = 0 := rfl
    simp only [hw, readNod, spinePath, Option.some.injEq] at h3 h8
    subst h3
    exact ⟨t, sf, rf, Pf, h5, h6, h7, h8, h9, h10⟩

/-- C16 (evaluation at the failing input): the events of
`<!-- @brief top ... --><a><!-- @brief d ... --></a>` with folding enabled. The second comment is
processed while the element `a` is open and nothing follows but the element-close, yet the walk
at depth 1 reaches the "doc" pseudo-root left by the first comment: the documentation node is
pushed beside `a`, whose children stay empty. -/
theorem doc_after_root_comment_is_sibling :
    wellNested 0 false
        [Event.comment " @brief top\n x\n".toList, Event.startElement "a".toList [],
          Event.comment " @brief d\n text\n".toList, Event.endElement "a".toList] = true
      ∧ runEvents (Document.new true)
          [Event.comment " @brief top\n x\n".toList, Event.startElement "a".toList [],
            Event.comment " @brief d\n text\n".toList, Event.endElement "a".toList]
        = some ⟨some (((Node.new docTag none).setCdata "    x\n".toList).setChildren
            [Node.new "a".toList (some []),
              (Node.new docTag none).setCdata "    text\n".toList]), true, 0⟩ :=
  ⟨by decide, rfl⟩

/-- C2 (evaluation at the failing input): the events of
`<!-- @brief top ... --><node><!-- @brief d ... --><interface>` with folding enabled. After the
first two events the root is the "doc" pseudo-node with the child `node`, at depth 1, `node`
being the open element. The comment and the element-open that follow push `interface`, with the
documentation of the comment, beside `node` under the pseudo-root: the children of the open element
`node` stay empty. -/
theorem doc_comment_after_root_comment_folds_beside :
    runEvents (Document.new true)
        [Event.comment " @brief top\n x\n".toList, Event.startElement "node".toList []]
      = some ⟨some (((Node.new docTag none).setCdata "    x\n".toList).setChildren
          [Node.new "node".toList (some [])]), true, 1⟩
    ∧ runEvents (Document.new true)
        [Event.comment " @brief top\n x\n".toList, Event.startElement "node".toList [],
          Event.comment " @brief d\n text\n".toList, Event.startElement "interface".toList []]
      = some ⟨some (((Node.new docTag none).setCdata "    x\n".toList).setChildren
          [Node.new "node".toList (some []),
            (Node.new "interface".toList (some [])).setDoc "    text\n".toList]), true, 2⟩ :=
  ⟨rfl, rfl⟩

/-- C19 (evaluation at the failing input): the events of
`<!-- @brief top ... --><node>x</node>` with folding enabled. The text `x` is delivered while
`node` is the innermost open element, yet the callback stores it in the "doc" pseudo-root,
replacing the documentation text held there; the text of `node` stays empty. -/
theorem text_after_root_comment_goes_to_doc_root :
    wellNested 0 false
        [Event.comment " @brief top\n x\n".toList, Event.startElement "node".toList [],
          Event.characterData "x</node>".toList 1, Event.endElement "node".toList] = true
    ∧ runEvents (Document.new true)
        [Event.comment " @brief top\n x\n".toList, Event.startElement "node".toList []]
      = some ⟨some (((Node.new docTag none).setCdata "    x\n".toList).setChildren
          [Node.new "node".toList (some [])]), true, 1⟩
    ∧ runEvents (Document.new true)
        [Event.comment " @brief top\n x\n".toList, Event.startElement "node".toList [],
          Event.characterData "x</node>".toList 1, Event.endElement "node".toList]
      = some ⟨some (((Node.new docTag none).setCdata "x".toList).setChildren
          [Node.new "node".toList (some [])]), true, 0⟩ :=
  ⟨by decide, rfl, rfl⟩

/-! ## Serialization round trip -/

theorem render_startTag (name : Str) (atts : List (Str × Str)) :
    (Token.startTag name atts).render = '<' :: (name ++ (attrsText atts ++ ['>'])) := by
  simp [Token.render, attrsLoop_eq_attrsText]

theorem render_emptyTag (name : Str) (atts : List (Str × Str)) :
    (Token.emptyTag name atts).render = '<' :: (name ++ (attrsText atts ++ ['/', '>'])) := by
  simp [Token.render, attrsLoop_eq_attrsText]

theorem render_endTag (name : Str) :
    (Token.endTag name).render = '<' :: '/' :: (name ++ ['>']) := by
  simp [Token.render]

theorem stackAfter_append (a b : List Token) (st : List Str) :
    stackAfter st (a ++ b) = stackAfter (stackAfter st a) b := by
  induction a generalizing st with
  | nil => rfl
  | cons t ts ih => cases t <;> simp [stackAfter, ih]

theorem seenAfter_append (a b : List Token) (seen : Bool) :
    seenAfter seen (a ++ b) = seenAfter (seenAfter seen a) b := by
  induction a generalizing seen with
  | nil => rfl
  | cons t ts ih => cases t <;> simp [seenAfter, ih]

theorem seenAfter_true (a : List Token) : seenAfter true a = true := by
  induction a with
  | nil => rfl
  | cons t ts ih => cases t <;> simp [seenAfter, ih]

theorem tokensOk_append (a b : List Token) (st : List Str) (seen : Bool) (rest : Str) :
    tokensOk st seen (a ++ b) rest
      ↔ tokensOk st seen a (renderAll b ++ rest)
        ∧ tokensOk (stackAfter st a) (seenAfter seen a) b rest := by
  induction a generalizing st seen with
  | nil => simp [tokensOk, stackAfter, seenAfter]
  | cons t ts ih =>
    cases t <;>
      simp only [List.cons_append, tokensOk, stackAfter, seenAfter, ih, renderAll_append,
        List.append_assoc, and_assoc, List.append_eq, renderAll]

theorem strstr_cdEnd (s : Str) (h : ∀ c ∈ s, c ≠ ']') : strstr s "]]>".toList = false := by
  induction s with
  | nil => rfl
  | cons c s ih =>
    have hc : (']' == c) = false := by
      rw [beq_eq_false_iff_ne]
      exact fun e => h c (List.mem_cons_self _ _) e.symm
    have : "]]>".toList = [']', ']', '>'] := rfl
    rw [strstr, ih (fun x hx => h x (List.mem_cons_of_mem _ hx)), this]
    simp [List.isPrefixOf, hc]

theorem tokensOk_indent (depth : Nat) (st : List Str) (seen : Bool) (rest : Str)
    (hst : st ≠ []) (hrest : rest.head? = some '<') :
    tokensOk st seen (indentToken depth) rest := by
  unfold indentToken
  split_ifs with h
  · trivial
  · refine ⟨hst, Or.inr ⟨?_, ?_, ?_, ?_⟩, trivial⟩
    · intro e
      have := congrArg List.length e
      simp at this
      omega
    · simp only [List.all_eq_true]
      intro x hx
      rw [List.eq_of_mem_replicate hx]
      decide
    · apply strstr_cdEnd
      intro x hx
      rw [List.eq_of_mem_replicate hx]
      decide
    · intro x hx
      simp only [renderAll, List.nil_append, hrest, Option.some.injEq] at hx
      subst hx; decide

theorem stackAfter_indent (depth : Nat) (st : List Str) :
    stackAfter st (indentToken depth) = st := by
  unfold indentToken; split_ifs <;> rfl

theorem seenAfter_indent (depth : Nat) (seen : Bool) :
    seenAfter seen (indentToken depth) = seen := by
  unfold indentToken; split_ifs <;> rfl

theorem elementTokens_head (depth : Nat) (T : Node) (rest : Str) :
    (renderAll (elementTokens depth T) ++ rest).head? = some '<' := by
  obtain ⟨name, m_attrs, children, cdata, doc⟩ := T
  simp only [elementTokens]
  by_cases h : cdata.length = 0 ∧ children.length = 0
  · rw [if_pos h]; simp [renderAll, render_emptyTag]
  · rw [if_neg h]; simp [renderAll, render_startTag]

theorem tagOk_of_safe (n : Node) (h : xmlSafeNode n = true) : tagOk n.name n.m_attrs.entries := by
  simp only [xmlSafeNode, Bool.and_eq_true, List.all_eq_true] at h
  refine ⟨h.1.1, fun kv hkv => h.1.2 kv hkv, ?_⟩
  exact n.m_attrs.sorted.imp (fun hab e => by rw [e] at hab; exact lt_irrefl _ hab)

mutual
theorem tokensOk_element :
    ∀ (T : Node) (depth : Nat) (st : List Str) (seen : Bool) (rest : Str),
      T.all xmlSafeNode = true → (st.isEmpty && seen) = false →
      tokensOk st seen (elementTokens depth T) rest
        ∧ stackAfter st (elementTokens depth T) = st
        ∧ seenAfter seen (elementTokens depth T) = true
  | .mk name m_attrs children cdata doc, depth, st, seen, rest, hsafe, hroot => by
    simp only [Node.all, Bool.and_eq_true] at hsafe
    obtain ⟨hnode, hkids⟩ := hsafe
    have htag := tagOk_of_safe _ hnode
    simp only [Node.name, Node.m_attrs] at htag
    have htext : textOk cdata = true := by
      simp only [xmlSafeNode, Bool.and_eq_true] at hnode
      exact hnode.2
    simp only [textOk, Bool.and_eq_true, Bool.not_eq_true'] at htext
    simp only [elementTokens]
    by_cases hleaf : cdata.length = 0 ∧ children.length = 0
    · rw [if_pos hleaf]
      exact ⟨⟨htag, hroot, trivial⟩, rfl, rfl⟩
    · rw [if_neg hleaf]
      have hsib := tokensOk_siblings children (depth + 1) (name :: st)
        (renderAll (indentToken depth ++ [Token.endTag name]) ++ rest) hkids (by simp)
      have hend : tokensOk (name :: st) true [Token.endTag name] rest :=
        ⟨htag.1, rfl, trivial⟩
      have hind : tokensOk (name :: st) true (indentToken depth)
          (renderAll [Token.endTag name] ++ rest) :=
        tokensOk_indent depth _ _ _ (by simp) (by simp [renderAll, render_endTag])
      by_cases hc : cdata.length = 0 <;> by_cases hk : children.length = 0
      · exact absurd ⟨hc, hk⟩ hleaf
      · simp only [hc, hk, ne_eq, not_true_eq_false, not_false_eq_true, if_true, if_false,
          List.append_nil, List.append_assoc, List.singleton_append, List.cons_append,
          List.nil_append]
        refine ⟨⟨htag, hroot, ⟨by simp, Or.inl rfl, ?_⟩⟩, ?_, ?_⟩
        · rw [tokensOk_append, tokensOk_append]
          refine ⟨hsib.1, ?_, ?_⟩
          · rw [hsib.2]; rw [seenAfter_true]; exact hind
          · rw [hsib.2, stackAfter_indent, seenAfter_true, seenAfter_indent]; exact hend
        · simp only [stackAfter, stackAfter_append, hsib.2, stackAfter_indent, List.tail_cons]
        · simp only [seenAfter, seenAfter_true]
      · simp only [hc, hk, ne_eq, not_true_eq_false, not_false_eq_true, if_true, if_false,
          List.append_nil, List.append_assoc, List.singleton_append, List.cons_append,
          List.nil_append]
        refine ⟨⟨htag, hroot, ⟨by simp, Or.inr ⟨?_, htext.1.1, htext.1.2, ?_⟩, hend⟩⟩, rfl, rfl⟩
        · intro e; rw [e] at hc; exact hc rfl
        · intro x hx
          simp only [renderAll, render_endTag, List.cons_append, List.head?_cons,
            Option.some.injEq] at hx
          subst hx; decide
      · simp only [hc, hk, ne_eq, not_true_eq_false, not_false_eq_true, if_true, if_false,
          List.append_nil, List.append_assoc, List.singleton_append, List.cons_append,
          List.nil_append]
        refine ⟨⟨htag, hroot, ⟨by simp, Or.inr ⟨?_, htext.1.1, htext.1.2, ?_⟩,
          ⟨by simp, Or.inl rfl, ?_⟩⟩⟩, ?_, ?_⟩
        · intro e; rw [e] at hc; exact hc rfl
        · intro x hx
          simp only [renderAll, Token.render, List.cons_append, List.head?_cons,
            Option.some.injEq, List.singleton_append] at hx
          have : "\n".toList = ['\n'] := rfl
          rw [this] at hx
          simp only [List.cons_append, List.head?_cons, Option.some.injEq] at hx
          subst hx; decide
        · rw [tokensOk_append, tokensOk_append]
          refine ⟨hsib.1, ?_, ?_⟩
          · rw [hsib.2]; rw [seenAfter_true]; exact hind
          · rw [hsib.2, stackAfter_indent, seenAfter_true, seenAfter_indent]; exact hend
        · simp only [stackAfter, stackAfter_append, hsib.2, stackAfter_indent, List.tail_cons]
        · simp only [seenAfter, seenAfter_true]
theorem tokensOk_siblings :
    ∀ (cs : List Node) (depth : Nat) (st : List Str) (rest : Str),
      Node.allList xmlSafeNode cs = true → st ≠ [] →
      tokensOk st true (siblingTokens depth cs) rest
        ∧ stackAfter st (siblingTokens depth cs) = st
  | [], _, _, _, _, _ => ⟨trivial, rfl⟩
  | c :: cs, depth, st, rest, hsafe, hst => by
    simp only [Node.allList, Bool.and_eq_true] at hsafe
    have hemp : (st.isEmpty && true) = false := by
      cases st with
      | nil => exact absurd rfl hst
      | cons a b => rfl
    have hrec := tokensOk_siblings cs depth st rest hsafe.2 hst
    have hel := tokensOk_element c depth st true
      (renderAll ([Token.text "\n".toList] ++ siblingTokens depth cs) ++ rest) hsafe.1 hemp
    have hind : tokensOk st true (indentToken depth)
        (renderAll (elementTokens depth c ++ ([Token.text "\n".toList] ++ siblingTokens depth cs))
          ++ rest) :=
      tokensOk_indent depth _ _ _ hst (by
        rw [renderAll_append, List.append_assoc]; exact elementTokens_head depth c _)
    simp only [siblingTokens, List.append_assoc]
    refine ⟨?_, ?_⟩
    · rw [tokensOk_append, tokensOk_append, stackAfter_indent, seenAfter_indent, hel.2.1,
        hel.2.2]
      exact ⟨hind, hel.1, ⟨hst, Or.inl rfl, hrec.1⟩⟩
    · simp only [stackAfter_append, stackAfter_indent, hel.2.1, stackAfter, List.singleton_append,
        hrec.2]
end

theorem eventsAt_append (a b : List Token) (rest : Str) :
    eventsAt (a ++ b) rest = eventsAt a (renderAll b ++ rest) ++ eventsAt b rest := by
  induction a with
  | nil => rfl
  | cons t ts ih =>
    simp only [List.cons_append, eventsAt, ih, renderAll_append, List.append_assoc,
      List.append_eq]

theorem charData_nil : CharData [] := by
  intro e he
  simp at he

theorem charData_text (s rest : Str) (hs : s ≠ []) : CharData (eventsAt [Token.text s] rest) := by
  have hlen : 0 < s.length := List.length_pos.2 hs
  intro e he
  simp only [eventsAt, Token.eventsAt, List.append_nil] at he
  split_ifs at he with h
  · simp only [List.mem_singleton] at he
    exact ⟨_, _, he, le_refl _, by simp⟩
  · simp only [List.mem_singleton] at he
    refine ⟨_, _, he, by omega, ?_⟩
    simp only [List.length_append, Nat.cast_add]
    omega

theorem charData_indent (depth : Nat) (rest : Str) :
    CharData (eventsAt (indentToken depth) rest) := by
  unfold indentToken
  split_ifs with h0
  · exact charData_nil
  · apply charData_text
    intro hnil
    have := congrArg List.length hnil
    simp at this
    omega

theorem handle_charData (chars : Str) (len : Int) (h1 : 1 ≤ len) (h2 : len ≤ chars.length)
    (X : Node) (flag : Bool) :
    ∃ t, (Event.characterData chars len).handle ⟨some X, flag, 1⟩
      = some ⟨some (X.setCdata t), flag, 1⟩ := by
  obtain ⟨t, ht⟩ := trimmedChunk_isSome chars len h1 h2
  refine ⟨t, ?_⟩
  simp only [Event.handle, character_data_handler, ht, walkSteps, sub_self,
    Int.toNat_zero, walkNod]

theorem runEvents_charData (es : List Event) (h : CharData es) (X : Node) (flag : Bool) :
    ∃ t, runEvents ⟨some X, flag, 1⟩ es = some ⟨some (X.setCdata t), flag, 1⟩ := by
  induction es generalizing X with
  | nil => exact ⟨X.cdata, by simp [runEvents]⟩
  | cons e es ih =>
    obtain ⟨chars, len, rfl, h1, h2⟩ := h e (List.mem_cons_self _ _)
    obtain ⟨t, ht⟩ := handle_charData chars len h1 h2 X flag
    obtain ⟨t1, ht1⟩ := ih (fun e he => h e (List.mem_cons_of_mem _ he)) (X.setCdata t)
    refine ⟨t1, ?_⟩
    simp only [runEvents, ht, ht1, Node.setCdata_setCdata]

theorem staysOpen_charData (es rest : List Event) (h : CharData es) (d : Int) (hd : 1 ≤ d) :
    staysOpen d (es ++ rest) = staysOpen d rest := by
  induction es with
  | nil => rfl
  | cons e es ih =>
    obtain ⟨chars, len, rfl, _, _⟩ := h e (List.mem_cons_self _ _)
    simp only [List.cons_append, staysOpen, Event.depthAfter, hd, decide_True,
      Bool.true_and]
    exact ih (fun e he => h e (List.mem_cons_of_mem _ he))

theorem elementTokens_body (depth : Nat) (T : Node) (rest : Str) :
    eventsAt (elementTokens depth T) rest
      = [Event.startElement T.name T.m_attrs.entries]
        ++ eventsAt (bodyTokens depth T) (renderAll [Token.endTag T.name] ++ rest)
        ++ [Event.endElement T.name] := by
  obtain ⟨name, m_attrs, children, cdata, doc⟩ := T
  simp only [elementTokens, bodyTokens, Node.name, Node.m_attrs, Node.children, Node.cdata]
  by_cases h1 : cdata.length = 0 ∧ children.length = 0
  · simp [h1, eventsAt, Token.eventsAt]
  · rw [if_neg h1]
    generalize (if cdata.length ≠ 0 then [Token.text cdata] else []) = A
    generalize (if children.length ≠ 0 then
      [Token.text "\n".toList] ++ siblingTokens (depth + 1) children ++ indentToken depth
      else []) = B
    have e : [Token.startTag name m_attrs.entries] ++ A ++ B ++ [Token.endTag name]
        = [Token.startTag name m_attrs.entries] ++ ((A ++ B) ++ [Token.endTag name]) := by
      simp
    rw [e, eventsAt_append, eventsAt_append (A ++ B)]
    simp [eventsAt, Token.eventsAt]

theorem charData_cdata (cdata rest : Str) :
    CharData (eventsAt (if cdata.length ≠ 0 then [Token.text cdata] else []) rest) := by
  split_ifs with h
  · exact charData_text _ _ (fun hn => h (by simp [hn]))
  · exact charData_nil

mutual
theorem staysOpen_bodyTokens :
    ∀ (T : Node) (depth : Nat) (rest : Str) (d : Int) (es : List Event), 1 ≤ d →
      staysOpen d (eventsAt (bodyTokens depth T) rest ++ es) = staysOpen d es
  | .mk name m_attrs children cdata doc, depth, rest, d, es, hd => by
    simp only [bodyTokens, Node.cdata, Node.children]
    rw [eventsAt_append, List.append_assoc,
      staysOpen_charData _ _ (charData_cdata cdata _) d hd]
    split_ifs with hc
    · rw [eventsAt_append, eventsAt_append, List.append_assoc, List.append_assoc,
        staysOpen_charData _ _ (charData_text _ _ (by decide)) d hd,
        staysOpen_siblingTokens children (depth + 1) _ d _ hd,
        staysOpen_charData _ _ (charData_indent depth _) d hd]
    · rfl
theorem staysOpen_siblingTokens :
    ∀ (cs : List Node) (depth : Nat) (rest : Str) (d : Int) (es : List Event), 1 ≤ d →
      staysOpen d (eventsAt (siblingTokens depth cs) rest ++ es) = staysOpen d es
  | [], _, _, _, _, _ => by simp [siblingTokens, eventsAt]
  | c :: cs, depth, rest, d, es, hd => by
    have hd1 : (1 : Int) ≤ d + 1 := by omega
    simp only [siblingTokens]
    rw [eventsAt_append, eventsAt_append, eventsAt_append, elementTokens_body]
    simp only [List.append_assoc]
    rw [staysOpen_charData _ _ (charData_indent depth _) d hd]
    simp only [List.singleton_append, staysOpen, Event.depthAfter, hd, decide_True,
      Bool.true_and, List.append_eq, List.nil_append]
    rw [staysOpen_bodyTokens c depth _ (d + 1) _ hd1]
    simp only [List.cons_append, staysOpen, Event.depthAfter, hd1, hd, decide_True,
      Bool.true_and, add_sub_cancel_right]
    simp only [List.append_eq, List.nil_append, eventsAt]
    exact staysOpen_siblingTokens cs depth rest d es hd
end

theorem sameLeafText_mk (name : Str) (m_attrs : Attributes) (children cs1 : List Node)
    (cdata doc t d : Str) (h : sameLeafTextList children cs1 = true)
    (ht : children = [] → t = cdata) :
    sameLeafText (Node.mk name m_attrs children cdata doc) (Node.mk name m_attrs cs1 t d)
      = true := by
  simp only [sameLeafText, Node.children, Node.cdata, h, Bool.and_true, Bool.or_eq_true,
    Bool.not_eq_true', decide_eq_true_eq]
  cases children with
  | nil => exact Or.inr (ht rfl).symm
  | cons c cs => exact Or.inl rfl

theorem textOk_not_newline (t : Str) (h : textOk t = true) : t ≠ ['\n'] := by
  intro ht
  subst ht
  revert h
  decide

theorem runEvents_leaf_text (name : Str) (m_attrs : Attributes) (cdata rest : Str)
    (flag : Bool) (hok : textOk cdata = true) :
    runEvents ⟨some (Node.mk name m_attrs [] [] []), flag, 1⟩
        (eventsAt (if cdata.length ≠ 0 then [Token.text cdata] else []) rest)
      = some ⟨some (Node.mk name m_attrs [] cdata []), flag, 1⟩ := by
  by_cases h : cdata.length ≠ 0
  · have hne : cdata ≠ [] := fun hn => h (by simp [hn])
    have hsp : noOuterSpace cdata = true := by
      simp only [textOk, Bool.and_eq_true] at hok
      exact hok.2
    rw [if_pos h]
    simp only [eventsAt, Token.eventsAt, if_neg (textOk_not_newline cdata hok), List.append_nil,
      runEvents, Event.handle, character_data_handler, renderAll, List.nil_append,
      trimmedChunk_clean cdata rest hne hsp, walkSteps, sub_self, Int.toNat_zero, walkNod,
      Node.setCdata]
  · rw [if_neg h]
    have hnil : cdata = [] := List.length_eq_zero.1 (not_not.1 h)
    subst hnil
    simp [eventsAt, runEvents]

mutual
theorem reparse_bodyTokens (flag : Bool) :
    ∀ (T : Node) (depth : Nat) (rest : Str), docLast T = true → T.all xmlSafeNode = true →
      ∃ T1, runEvents ⟨some (Node.mk T.name T.m_attrs [] [] []), flag, 1⟩
            (eventsAt (bodyTokens depth T) rest)
          = some ⟨some T1, flag, 1⟩ ∧ sameShape T T1 = true ∧ sameLeafText T T1 = true
  | .mk name m_attrs children cdata doc, depth, rest, h, hsafe => by
    simp only [docLast] at h
    simp only [Node.all, Bool.and_eq_true] at hsafe
    obtain ⟨hself, hkids⟩ := hsafe
    simp only [bodyTokens, Node.name, Node.m_attrs, Node.cdata, Node.children]
    rw [eventsAt_append, runEvents_append]
    by_cases hc : children.length ≠ 0
    · obtain ⟨t1, ht1⟩ :=
        runEvents_charData _ (charData_cdata cdata (renderAll
          (if children.length ≠ 0 then
            [Token.text "\n".toList] ++ siblingTokens (depth + 1) children ++ indentToken depth
          else []) ++ rest)) (Node.mk name m_attrs [] [] []) flag
      rw [ht1, Option.some_bind, if_pos hc, eventsAt_append, eventsAt_append, runEvents_append,
        runEvents_append]
      obtain ⟨t2, ht2⟩ := runEvents_charData _
        (charData_text "\n".toList (renderAll (siblingTokens (depth + 1) children)
          ++ (renderAll (indentToken depth) ++ rest)) (by decide))
        ((Node.mk name m_attrs [] [] []).setCdata t1) flag
      rw [ht2, Option.some_bind]
      obtain ⟨cs1, t3, hk, hs, hl⟩ := reparse_siblingTokens flag children (depth + 1)
        (((Node.mk name m_attrs [] [] []).setCdata t1).setCdata t2)
        (renderAll (indentToken depth) ++ rest) h hkids
        (by intro _ b hb; simp [Node.setCdata, Node.children] at hb)
      rw [hk, Option.some_bind]
      obtain ⟨t4, ht4⟩ := runEvents_charData _ (charData_indent depth rest)
        (((((Node.mk name m_attrs [] [] []).setCdata t1).setCdata t2).setChildren
          ((((Node.mk name m_attrs [] [] []).setCdata t1).setCdata t2).children ++ cs1)).setCdata
          t3) flag
      rw [ht4]
      refine ⟨_, rfl, ?_, ?_⟩
      · simp only [Node.setCdata, Node.setChildren, Node.children, List.nil_append]
        exact sameShape_mk name m_attrs children cs1 cdata doc t4 [] hs
      · simp only [Node.setCdata, Node.setChildren, Node.children, List.nil_append]
        exact sameLeafText_mk name m_attrs children cs1 cdata doc t4 [] hl
          (fun hn => absurd (by simp [hn]) hc)
    · have hnil : children = [] := List.length_eq_zero.1 (not_not.1 hc)
      subst hnil
      have hok : textOk cdata = true := by
        simp only [xmlSafeNode, Bool.and_eq_true, Node.cdata] at hself
        exact hself.2
      rw [if_neg hc, runEvents_leaf_text name m_attrs cdata _ flag hok, Option.some_bind]
      refine ⟨Node.mk name m_attrs [] cdata [], by simp [eventsAt, runEvents], ?_, ?_⟩
      · exact sameShape_mk name m_attrs [] [] cdata doc cdata [] rfl
      · exact sameLeafText_mk name m_attrs [] [] cdata doc cdata [] rfl (fun _ => rfl)
theorem reparse_siblingTokens (flag : Bool) :
    ∀ (cs : List Node) (depth : Nat) (X : Node) (rest : Str), docLastList cs = true →
      Node.allList xmlSafeNode cs = true →
      (cs ≠ [] → ∀ b, X.children.getLast? = some b → b.name ≠ docTag) →
      ∃ cs1 t, runEvents ⟨some X, flag, 1⟩ (eventsAt (siblingTokens depth cs) rest)
          = some ⟨some ((X.setChildren (X.children ++ cs1)).setCdata t), flag, 1⟩
        ∧ sameShapeList cs cs1 = true ∧ sameLeafTextList cs cs1 = true
  | [], _, X, _, _, _, _ => ⟨[], X.cdata, by simp [siblingTokens, eventsAt, runEvents], rfl, rfl⟩
  | c :: cs, depth, X, rest, h, hsafe, hX => by
    simp only [docLastList, Bool.and_eq_true, Bool.or_eq_true, List.isEmpty_iff, bne_iff_ne,
      ne_eq] at h
    simp only [Node.allList, Bool.and_eq_true] at hsafe
    obtain ⟨⟨hc, hlast⟩, hcs⟩ := h
    obtain ⟨c1, hbody, hshape, hleaf⟩ := reparse_bodyTokens flag c depth
      (renderAll [Token.endTag c.name]
        ++ (renderAll [Token.text "\n".toList] ++ (renderAll (siblingTokens depth cs) ++ rest)))
      hc hsafe.1
    have hname := sameShape_name c c1 hshape
    -- indentation
    obtain ⟨t1, ht1⟩ := runEvents_charData _ (charData_indent depth
      (renderAll (elementTokens depth c) ++ (renderAll [Token.text "\n".toList]
        ++ (renderAll (siblingTokens depth cs) ++ rest)))) X flag
    -- the newline after the end tag
    obtain ⟨t2, ht2⟩ := runEvents_charData _
      (charData_text "\n".toList (renderAll (siblingTokens depth cs) ++ rest) (by decide))
      ((X.setCdata t1).setChildren (X.children ++ [c1])) flag
    -- the siblings that follow
    obtain ⟨cs1, t3, hk, hs, hl⟩ := reparse_siblingTokens flag cs depth
      (((X.setCdata t1).setChildren (X.children ++ [c1])).setCdata t2) rest hcs hsafe.2 (by
        intro hne b hb
        simp only [Node.children_setCdata, Node.children_setChildren, List.getLast?_concat,
          Option.some.injEq] at hb
        subst hb
        rw [hname]
        rcases hlast with hl | hl
        · exact absurd hl hne
        · exact hl)
    refine ⟨c1 :: cs1, t3, ?_, by simp [sameShapeList, hshape, hs],
      by simp [sameLeafTextList, hleaf, hl]⟩
    have hstart := runEvents_start_plain (X.setCdata t1) c flag (by
      rw [Node.children_setCdata]; exact hX (List.cons_ne_nil _ _))
    rw [Node.children_setCdata] at hstart
    have hfocus := runEvents_focus (eventsAt (bodyTokens depth c) (renderAll [Token.endTag c.name]
        ++ (renderAll [Token.text "\n".toList] ++ (renderAll (siblingTokens depth cs) ++ rest))))
      (X.setCdata t1) X.children
      (Node.mk c.name c.m_attrs [] [] []) flag 1 (by
        have := staysOpen_bodyTokens c depth (renderAll [Token.endTag c.name]
          ++ (renderAll [Token.text "\n".toList] ++ (renderAll (siblingTokens depth cs) ++ rest)))
          1 [] (le_refl 1)
        simpa [staysOpen] using this)
    rw [hbody] at hfocus
    simp only [Option.map_some', wrap, Option.map, Int.reduceAdd] at hfocus
    have hend := runEvents_end (some ((X.setCdata t1).setChildren (X.children ++ [c1]))) flag 2
      c.name
    simp only [Int.reduceSub] at hend
    simp only [siblingTokens]
    rw [eventsAt_append, eventsAt_append, eventsAt_append, elementTokens_body]
    simp only [List.append_assoc]
    rw [runEvents_append, ht1, Option.some_bind, runEvents_append, hstart, Option.some_bind,
      runEvents_append, hfocus, Option.some_bind, runEvents_append, hend, Option.some_bind,
      runEvents_append, ht2, Option.some_bind, hk]
    cases X
    simp [Node.setCdata, Node.setChildren, Node.children]
end

end sdbuscpp.xml
